import Mathlib

/-!
# RDI bake pipeline: incomplete-type resolution, string-map join and sort,
# section compression and top-level info

A shallow embedding of `src/rdi_make/rdi_make_local.c`, and of the option map of
`src/raddump/raddump_main.c`, the disassembly, hex-dump and relocation
listings of `src/raddump/raddump.c`, and the register-name functions of
`src/codeview/codeview_enum.c`.

Conventions of the embedding.

* A chunk list (`RDIM_TypeChunkList`, `RDIM_UDTChunkList`, a string chunk list)
  is the sequence of its elements in iteration order, chunk after chunk; its
  `total_count` is the length of that sequence.
* A type reference (`RDIM_Type *`) is the value `rdim_idx_from_type` gives for
  it: `0` for the null pointer and `position + 1` for the type stored at
  `position` of the type list.
* `U64` values are natural numbers, reduced modulo `2^64` where the source
  computes a sum, product or shift.
* `fwd_map` is the one array the resolver indexes by a value read from its input.
  Reading it past its end has no defined result: such a read makes the
  embedded resolver return `none`.  Every other array read is at an index that
  is in range by construction.
* Each `param_types` array and each member list belongs to one record.
* Functions, macros and constants that the translated file uses but does not
  define are parameters, or are modelled from the specification where a doc
  comment says so.
-/

namespace RDIM

/-! ## Data model -/

/-- A byte string (`RDIM_String8` / `String8`): the `size` bytes at `str`. -/
abbrev String8 := List (Fin 256)

/-- Exact string match, `str8_match(a, b, 0)`: same size and same bytes. -/
def str8_match (a b : String8) : Bool := decide (a = b)

/-- The `RDI_TypeKind_*` enumeration values used by the resolver.  The header that
defines them is not part of the translated sources, so they are taken as a
parameter of every function that compares a kind against them. -/
structure TypeKindConsts where
  NULL : Nat
  FirstUserDefined : Nat
  LastRecord : Nat
  FirstIncomplete : Nat
  LastIncomplete : Nat
deriving DecidableEq, Repr

/-- A type record (`RDIM_Type`), restricted to the fields the resolver touches.
`param_types` is `none` for a null array and otherwise holds the `count`
references of the array. -/
structure RDIM_Type where
  kind : Nat
  name : String8
  link_name : String8
  direct_type : Nat
  param_types : Option (List Nat)
deriving DecidableEq, Repr

/-- A member of a user-defined type (`RDIM_UDTMember`): the member's type reference. -/
structure RDIM_UDTMember where
  type : Nat
deriving DecidableEq, Repr

/-- A user-defined type record (`RDIM_UDT`): its self type and its member list. -/
structure RDIM_UDT where
  self_type : Nat
  members : List RDIM_UDTMember
deriving DecidableEq, Repr

/-- A non-null entry of the resolver's `name_ht`: the pointed type, given by its
`rdim_idx_from_type` value, with the two names read through the pointer (the
resolver never changes a name). -/
structure HtEntry where
  idx : Nat
  name : String8
  link_name : String8
deriving DecidableEq, Repr

/-! ## `rdim_local_hash` -/

/-- The function `rdim_local_hash`: `hash = ((hash << 5) + hash) + byte` from seed 5381,
in 64-bit wrapping arithmetic. -/
def rdim_local_hash (string : String8) : Nat :=
  string.foldl (fun hash b => (((hash <<< 5) % 2 ^ 64 + hash) % 2 ^ 64 + b.val) % 2 ^ 64) 5381

/-- The terms `s[i] * 33^(n-1-i)` of the polynomial the specification gives for the
hash of a byte string `s` of length `n`. -/
def rollingHashTerms (s : String8) : List Nat :=
  (List.range s.length).map (fun i => (s.getD i 0).val * 33 ^ (s.length - 1 - i))

/-- The polynomial rolling hash as the specification words it: multiplier 33, seed
5381, `(5381 * 33^n + sum of s[i] * 33^(n-1-i)) mod 2^64`. -/
def rollingHashFormula (s : String8) : Nat :=
  (5381 * 33 ^ s.length + (rollingHashTerms s).sum) % 2 ^ 64

/-! ## `rdim_local_resolve_incomplete_types` -/

/-- The name a type is hashed by: `type->link_name.size ? type->link_name : type->name`. -/
def resolvingName (type : RDIM_Type) : String8 :=
  if type.link_name.length ≠ 0 then type.link_name else type.name

/-- Kind test of the table-building loop:
`RDI_TypeKind_FirstUserDefined <= kind && kind <= RDI_TypeKind_LastRecord`. -/
def isRecordKind (K : TypeKindConsts) (kind : Nat) : Bool :=
  decide (K.FirstUserDefined ≤ kind) && decide (kind ≤ K.LastRecord)

/-- Kind test of the forward-map loop:
`RDI_TypeKind_FirstIncomplete <= kind && kind <= RDI_TypeKind_LastIncomplete`. -/
def isIncompleteKind (K : TypeKindConsts) (kind : Nat) : Bool :=
  decide (K.FirstIncomplete ≤ kind) && decide (kind ≤ K.LastIncomplete)

/-- The two `break` tests of the insertion probe on an occupied slot `s`: the
link name of `s`, when it has one, is compared with the resolving name of the
inserted type; otherwise a non-empty name of `s` is compared with the type's name. -/
def insertBreaks (s : HtEntry) (type : RDIM_Type) (name : String8) : Bool :=
  if s.link_name.length ≠ 0 then str8_match s.link_name name
  else if s.name.length ≠ 0 then str8_match s.name type.name
  else false

/-- The insertion probe, the `do ... while (slot != best_slot)` loop of the
table-building pass, returning the final value of `slot`.  The first argument
bounds the number of loop bodies run; the caller passes `total_type_count`,
the number of slots, which the loop cannot exceed. -/
def insertProbe (name_ht : List (Option HtEntry)) (total_type_count best_slot : Nat)
    (type : RDIM_Type) (name : String8) : Nat → Nat → Nat
  | 0, slot => slot
  | fuel + 1, slot =>
    match name_ht.getD slot none with
    | none => slot
    | some s =>
      if insertBreaks s type name then slot
      else if (slot + 1) % total_type_count ≠ best_slot then
        insertProbe name_ht total_type_count best_slot type name fuel
          ((slot + 1) % total_type_count)
      else (slot + 1) % total_type_count

/-- The table-building pass over the types from position `i` on. -/
def buildHashTable (K : TypeKindConsts) (total_count : Nat) :
    List RDIM_Type → Nat → List (Option HtEntry) → List (Option HtEntry)
  | [], _, name_ht => name_ht
  | type :: rest, i, name_ht =>
    if isRecordKind K type.kind then
      let name := resolvingName type
      let hash := rdim_local_hash name
      let best_slot := hash % total_count
      let slot := insertProbe name_ht (total_count + 1) best_slot type name
        (total_count + 1) best_slot
      if name_ht.getD slot none = none then
        buildHashTable K total_count rest (i + 1)
          (name_ht.set slot (some ⟨i + 1, type.name, type.link_name⟩))
      else buildHashTable K total_count rest (i + 1) name_ht
    else buildHashTable K total_count rest (i + 1) name_ht

/-- The match test of the lookup probe on an occupied slot `s`: link names are
compared when `s` has one, names otherwise. -/
def lookupMatches (s : HtEntry) (type : RDIM_Type) : Bool :=
  if s.link_name.length ≠ 0 then str8_match s.link_name type.link_name
  else str8_match s.name type.name

/-- The lookup probe, the `do ... while(slot != best_slot)` loop of the
forward-map pass, returning `match` (`none` for a null `match`). -/
def lookupProbe (name_ht : List (Option HtEntry)) (total_type_count best_slot : Nat)
    (type : RDIM_Type) : Nat → Nat → Option HtEntry
  | 0, _ => none
  | fuel + 1, slot =>
    match name_ht.getD slot none with
    | none => none
    | some s =>
      if lookupMatches s type then some s
      else if (slot + 1) % total_type_count ≠ best_slot then
        lookupProbe name_ht total_type_count best_slot type fuel
          ((slot + 1) % total_type_count)
      else none

/-- The match the forward-map pass computes for one type: hash of the resolving
name, start slot `hash % total_count`, then the lookup probe. -/
def findMatch (name_ht : List (Option HtEntry)) (total_count : Nat) (type : RDIM_Type) :
    Option HtEntry :=
  let best_slot := rdim_local_hash (resolvingName type) % total_count
  lookupProbe name_ht (total_count + 1) best_slot type (total_count + 1) best_slot

/-- The forward-map pass over the types from position `i` on: returns the types
with the kinds it has overwritten, and the final `fwd_map` (entry `0` for a
null pointer). -/
def makeFwdMap (K : TypeKindConsts) (name_ht : List (Option HtEntry)) (total_count : Nat) :
    List RDIM_Type → Nat → List Nat → List RDIM_Type × List Nat
  | [], _, fwd_map => ([], fwd_map)
  | type :: rest, i, fwd_map =>
    if isIncompleteKind K type.kind then
      match findMatch name_ht total_count type with
      | some m =>
        let r := makeFwdMap K name_ht total_count rest (i + 1) (fwd_map.set (i + 1) m.idx)
        ({ type with kind := K.NULL } :: r.1, r.2)
      | none =>
        let r := makeFwdMap K name_ht total_count rest (i + 1) fwd_map
        (type :: r.1, r.2)
    else
      let r := makeFwdMap K name_ht total_count rest (i + 1) fwd_map
      (type :: r.1, r.2)

/-- One reference rewrite, `if(fwd_map[idx]) ref = fwd_map[idx];`.  The source
reads `fwd_map[idx]` without any test on `idx`; `none` stands for a read past
the end of the array. -/
def fwdRef (fwd_map : List Nat) (ref : Nat) : Option Nat :=
  match fwd_map[ref]? with
  | none => none
  | some m => if m ≠ 0 then some m else some ref

/-- The rewrite of an array of references, in order. -/
def fwdRefs (fwd_map : List Nat) : List Nat → Option (List Nat)
  | [] => some []
  | r :: rs =>
    match fwdRef fwd_map r with
    | none => none
    | some r' =>
      match fwdRefs fwd_map rs with
      | none => none
      | some rs' => some (r' :: rs')

/-- The body of the type loop of the resolve pass: the direct type is rewritten
when it is non-null, then each entry of a non-null `param_types`. -/
def resolveType (fwd_map : List Nat) (t : RDIM_Type) : Option RDIM_Type :=
  match (if t.direct_type ≠ 0 then fwdRef fwd_map t.direct_type else some t.direct_type) with
  | none => none
  | some d =>
    match t.param_types with
    | none => some { t with direct_type := d }
    | some ps =>
      match fwdRefs fwd_map ps with
      | none => none
      | some ps' => some { t with direct_type := d, param_types := some ps' }

/-- The type loop of the resolve pass. -/
def resolveTypes (fwd_map : List Nat) : List RDIM_Type → Option (List RDIM_Type)
  | [] => some []
  | t :: ts =>
    match resolveType fwd_map t with
    | none => none
    | some t' =>
      match resolveTypes fwd_map ts with
      | none => none
      | some ts' => some (t' :: ts')

/-- The rewrite of a member list, in order. -/
def resolveMembers (fwd_map : List Nat) : List RDIM_UDTMember → Option (List RDIM_UDTMember)
  | [] => some []
  | m :: ms =>
    match fwdRef fwd_map m.type with
    | none => none
    | some r =>
      match resolveMembers fwd_map ms with
      | none => none
      | some ms' => some ({ m with type := r } :: ms')

/-- The body of the UDT loop of the resolve pass: self type, then every member. -/
def resolveUDT (fwd_map : List Nat) (udt : RDIM_UDT) : Option RDIM_UDT :=
  match fwdRef fwd_map udt.self_type with
  | none => none
  | some s =>
    match resolveMembers fwd_map udt.members with
    | none => none
    | some ms => some { self_type := s, members := ms }

/-- The UDT loop of the resolve pass. -/
def resolveUDTs (fwd_map : List Nat) : List RDIM_UDT → Option (List RDIM_UDT)
  | [] => some []
  | u :: us =>
    match resolveUDT fwd_map u with
    | none => none
    | some u' =>
      match resolveUDTs fwd_map us with
      | none => none
      | some us' => some (u' :: us')

/-- The `name_ht` the table-building pass leaves: `total_count + 1` null slots, then
the pass over all types. -/
def nameTable (K : TypeKindConsts) (types : List RDIM_Type) : List (Option HtEntry) :=
  buildHashTable K types.length types 0 (List.replicate (types.length + 1) none)

/-- The result of the forward-map pass on the table of `nameTable`, starting
from a zeroed `fwd_map` of `total_count + 1` entries. -/
def fwdPass (K : TypeKindConsts) (types : List RDIM_Type) : List RDIM_Type × List Nat :=
  makeFwdMap K (nameTable K types) types.length types 0 (List.replicate (types.length + 1) 0)

/-- The function `rdim_local_resolve_incomplete_types`: the three passes in order.  The
result is the type list and the UDT list after the call. -/
def rdim_local_resolve_incomplete_types (K : TypeKindConsts) (types : List RDIM_Type)
    (udts : List RDIM_UDT) : Option (List RDIM_Type × List RDIM_UDT) :=
  match resolveTypes (fwdPass K types).2 (fwdPass K types).1 with
  | none => none
  | some types' =>
    match resolveUDTs (fwdPass K types).2 udts with
    | none => none
    | some udts' => some (types', udts')


/-! ## Reads of `fwd_map` and exits of the probes -/

/-- The indices at which the resolve pass reads `fwd_map` for one type, in program
order: the index of a non-null direct type, then the index of every entry of
a non-null `param_types`.  No test precedes any of these reads. -/
def typeFwdReads (t : RDIM_Type) : List Nat :=
  (if t.direct_type ≠ 0 then [t.direct_type] else []) ++ t.param_types.getD []

/-- The indices at which the resolve pass reads `fwd_map` for one UDT, in program
order: the index of the self type, then the index of every member type. -/
def udtFwdReads (u : RDIM_UDT) : List Nat :=
  u.self_type :: u.members.map (·.type)

/-- The indices at which the resolve pass reads `fwd_map`, in program order. -/
def fwdMapReads (types : List RDIM_Type) (udts : List RDIM_UDT) : List Nat :=
  (types.map typeFwdReads).flatten ++ (udts.map udtFwdReads).flatten

/-- The first index at which the resolve pass reads `fwd_map`, an array of
`total_count + 1` entries, past its end. -/
def firstOutOfBoundsRead (types : List RDIM_Type) (udts : List RDIM_UDT) : Option Nat :=
  (fwdMapReads types udts).find? (fun r => decide (types.length + 1 ≤ r))

/-- The way a probe loop is left: at an empty slot, at a slot that passes the name
test, by the loop condition `slot != best_slot` failing after a full round,
or, in the embedding only, by the bound on the number of loop bodies. -/
inductive ProbeExit where
  | empty
  | matched
  | wrapped
  | bound
deriving DecidableEq, Repr

/-- The exit taken by the insertion probe `insertProbe`. -/
def insertProbeExit (name_ht : List (Option HtEntry)) (total_type_count best_slot : Nat)
    (type : RDIM_Type) (name : String8) : Nat → Nat → ProbeExit
  | 0, _ => ProbeExit.bound
  | fuel + 1, slot =>
    match name_ht.getD slot none with
    | none => ProbeExit.empty
    | some s =>
      if insertBreaks s type name then ProbeExit.matched
      else if (slot + 1) % total_type_count ≠ best_slot then
        insertProbeExit name_ht total_type_count best_slot type name fuel
          ((slot + 1) % total_type_count)
      else ProbeExit.wrapped

/-- The exit taken by the lookup probe `lookupProbe`. -/
def lookupProbeExit (name_ht : List (Option HtEntry)) (total_type_count best_slot : Nat)
    (type : RDIM_Type) : Nat → Nat → ProbeExit
  | 0, _ => ProbeExit.bound
  | fuel + 1, slot =>
    match name_ht.getD slot none with
    | none => ProbeExit.empty
    | some s =>
      if lookupMatches s type then ProbeExit.matched
      else if (slot + 1) % total_type_count ≠ best_slot then
        lookupProbeExit name_ht total_type_count best_slot type fuel
          ((slot + 1) % total_type_count)
      else ProbeExit.wrapped

/-- The exits of the insertion probes run by the table-building pass, one for each
type of record kind, in the order of the pass (same loop as `buildHashTable`). -/
def insertExits (K : TypeKindConsts) (total_count : Nat) :
    List RDIM_Type → Nat → List (Option HtEntry) → List ProbeExit
  | [], _, _ => []
  | type :: rest, i, name_ht =>
    if isRecordKind K type.kind then
      let name := resolvingName type
      let best_slot := rdim_local_hash name % total_count
      let slot := insertProbe name_ht (total_count + 1) best_slot type name
        (total_count + 1) best_slot
      insertProbeExit name_ht (total_count + 1) best_slot type name (total_count + 1) best_slot ::
        (if name_ht.getD slot none = none then
          insertExits K total_count rest (i + 1)
            (name_ht.set slot (some ⟨i + 1, type.name, type.link_name⟩))
        else insertExits K total_count rest (i + 1) name_ht)
    else insertExits K total_count rest (i + 1) name_ht

/-- The exit of the lookup probe the forward-map pass runs for a type. -/
def findMatchExit (name_ht : List (Option HtEntry)) (total_count : Nat) (type : RDIM_Type) :
    ProbeExit :=
  lookupProbeExit name_ht (total_count + 1) (rdim_local_hash (resolvingName type) % total_count)
    type (total_count + 1) (rdim_local_hash (resolvingName type) % total_count)

/-- The exits of the lookup probes run by the forward-map pass, one for each
incomplete type, in the order of the pass. -/
def lookupExits (K : TypeKindConsts) (name_ht : List (Option HtEntry)) (total_count : Nat)
    (types : List RDIM_Type) : List ProbeExit :=
  (types.filter (fun t => isIncompleteKind K t.kind)).map (findMatchExit name_ht total_count)

/-- Input with a reference past the end of the type table: one pointer type whose
direct type has index 5. -/
def outOfRangeTypes : List RDIM_Type :=
  [ { kind := 0x1001, name := [], link_name := [], direct_type := 5, param_types := none } ]

/-! ## `rdim_make_top_level_info` -/

/-- The architecture tag `Arch` of the caller; `other` stands for every value the
`switch` of `rdim_make_top_level_info` leaves to its `default` label. -/
inductive Arch where
  | Null
  | x64
  | x86
  | other
deriving DecidableEq, Repr

/-- The architecture tag of the RDI format, `RDI_Arch`. -/
inductive RDI_Arch where
  | NULL
  | X64
  | X86
deriving DecidableEq, Repr

/-- A binary section (`RDIM_BinarySection`), restricted to its virtual range. -/
structure RDIM_BinarySection where
  voff_first : Nat
  voff_opl : Nat
deriving DecidableEq, Repr

/-- The top-level info record (`RDIM_TopLevelInfo`). -/
structure RDIM_TopLevelInfo where
  arch : RDI_Arch
  exe_name : String8
  exe_hash : Nat
  voff_max : Nat
  producer_name : String8
deriving DecidableEq, Repr

/-- The macro `Max(A, B)`: `((A) > (B)) ? (A) : (B)`. -/
def Max (a b : Nat) : Nat := if a > b then a else b

/-- The function `rdim_make_top_level_info`.  `build_title` is the string literal
`BUILD_TITLE_STRING_LITERAL`.  The `default` label of the `switch` is
`NotImplemented`: no record is returned for such an architecture. -/
def rdim_make_top_level_info (build_title : String8) (_image_name : String8) (arch : Arch)
    (exe_hash : Nat) (sections : List RDIM_BinarySection) : Option RDIM_TopLevelInfo :=
  let arch_rdi : Option RDI_Arch :=
    match arch with
    | Arch.Null => some RDI_Arch.NULL
    | Arch.x64 => some RDI_Arch.X64
    | Arch.x86 => some RDI_Arch.X86
    | Arch.other => none
  let exe_voff_max := sections.foldl (fun exe_voff_max sect_n => Max exe_voff_max sect_n.voff_opl) 0
  match arch_rdi with
  | none => none
  | some a =>
    some { arch := a, exe_name := [], exe_hash := exe_hash, voff_max := exe_voff_max,
           producer_name := build_title }

/-! ## `rdim_compress` -/

/-- A serialized section (`RDIM_SerializedSection`): the bytes at `data`, and the
three header fields. -/
structure RDIM_SerializedSection where
  data : String8
  encoded_size : Nat
  unpacked_size : Nat
  encoding : Nat
deriving DecidableEq, Repr

/-- The zeroed section of `RDIM_SerializedSectionBundle out = {0}`. -/
def zeroSection : RDIM_SerializedSection :=
  { data := [], encoded_size := 0, unpacked_size := 0, encoding := 0 }

/-- The body of the loop of `rdim_compress` for the section kind `k`: the section is
copied, then its data, encoded size, unpacked size and encoding are
overwritten.  `encode data size` stands for
`rr_lzb_simple_encode_veryfast(&ctx, data, size, dst)` run on a zeroed hash
table: the returned size and the bytes written to `dst`. -/
def compressSection (lzb : Nat) (encode : String8 → Nat → Nat × String8)
    (src : RDIM_SerializedSection) : RDIM_SerializedSection :=
  let dst := src
  let r := encode src.data src.encoded_size
  let dst := { dst with data := r.2 }
  let dst := { dst with encoded_size := r.1 }
  let dst := { dst with unpacked_size := src.encoded_size }
  { dst with encoding := lzb }

/-- The function `rdim_compress` on the `sections` array of the bundle: the loop
`for EachEnumVal(RDI_SectionKind, k)` runs `k` from 0 to `count - 1`, where
`count` is `RDI_SectionKind_COUNT` and `lzb` is `RDI_SectionEncoding_LZB`. -/
def rdim_compress (count lzb : Nat) (encode : String8 → Nat → Nat × String8)
    (sections : List RDIM_SerializedSection) : List RDIM_SerializedSection :=
  (List.range count).foldl
    (fun out k => out.set k (compressSection lzb encode (sections.getD k zeroSection)))
    (List.replicate count zeroSection)

/-- Sample encoder for evaluating `rdim_compress`: it copies the first `size` bytes. -/
def copyEncoder (data : String8) (size : Nat) : Nat × String8 :=
  ((data.take size).length, data.take size)

/-- The size of the buffer `dst->data` that `rdim_compress` allocates for a section before
it runs the encoder on it: `push_array_no_zero(arena, U8, src->encoded_size)`. -/
def compressBufferSize (src : RDIM_SerializedSection) : Nat := src.encoded_size

/-- The contract the specification states for the compression transform: on an input
of `size` bytes it writes at most `size + overhead` bytes. -/
def EncoderWithinOverhead (encode : String8 → Nat → Nat × String8) (overhead : Nat) : Prop :=
  ∀ (data : String8) (size : Nat), (encode data size).2.length ≤ size + overhead

/-- Sample encoder that emits its input literal-coded: one header byte, then the
first `size` bytes of the input. -/
def literalEncoder (data : String8) (size : Nat) : Nat × String8 :=
  ((data.take size).length + 1, 0 :: data.take size)

/-! ## String maps: join, sort and materialization -/

/-- A loose string map (`RDIM_BakeStringMapLoose`): its `slots` array, `none` when
the pointer is null.  A slot is `none` for a null chunk-list pointer and
otherwise holds the strings of the chunk list in order. -/
structure RDIM_BakeStringMapLoose where
  slots : Option (List (Option (List String8)))
deriving DecidableEq, Repr

/-- Modelled from the spec: `rdim_bake_string_map_loose_make` is not among the
translated sources; a string map is "a fixed-size array of hash slots", and
a fresh one has `slots_count` null slots. -/
def rdim_bake_string_map_loose_make (slots_count : Nat) : List (Option (List String8)) :=
  List.replicate slots_count none

/-- Modelled from the spec: `rdim_bake_string_chunk_list_concat_in_place` is not
among the translated sources; the join merges "by concatenating colliding
chunks per hash slot", so the pushed list follows the destination list. -/
def rdim_bake_string_chunk_list_concat_in_place (dst to_push : List String8) : List String8 :=
  dst ++ to_push

/-- Modelled from the spec: `rdim_bake_string_chunk_list_sorted_from_unsorted` is
not among the translated sources; the sort phase "deduplicates and orders the
chunk list within each slot".  The spec does not name the order; the
byte-wise lexicographic order is used. -/
def rdim_bake_string_chunk_list_sorted_from_unsorted (src : List String8) : List String8 :=
  List.insertionSort (fun a b => a ≤ b) src.dedup

/-- Modelled from the spec: the insertion of a string into a loose map
(`rdim_bake_string_map_loose_insert`, used by the `push` functions) is not
among the translated sources; an insert works "by hashing into a slot and
appending to that slot's chunk list without checking for duplicates".
`hash` stands for the string hash of the format library. -/
def rdim_bake_string_map_loose_insert (hash : String8 → Nat) (slots_count : Nat)
    (map : List (Option (List String8))) (string : String8) : List (Option (List String8)) :=
  match map.getD (hash string % slots_count) none with
  | none => map.set (hash string % slots_count) (some [string])
  | some l => map.set (hash string % slots_count) (some (l ++ [string]))

/-- The body of the inner loop of `rdim_bake_string_map_join_work` for one source
map and one slot index.  Every map is made with the same topology, so
`slot_idx` is inside both slot arrays. -/
def joinSlot (src_map : Option RDIM_BakeStringMapLoose) (dst_slots : List (Option (List String8)))
    (slot_idx : Nat) : List (Option (List String8)) :=
  match src_map with
  | none => dst_slots
  | some src =>
    match src.slots with
    | none => dst_slots
    | some src_slots =>
      match dst_slots.getD slot_idx none with
      | none => dst_slots.set slot_idx (src_slots.getD slot_idx none)
      | some d =>
        match src_slots.getD slot_idx none with
        | some l => dst_slots.set slot_idx
            (some (rdim_bake_string_chunk_list_concat_in_place d l))
        | none => dst_slots

/-- The task `rdim_bake_string_map_join_work` on the slot range `[min, max)`: for
every source map in order, for every slot index of the range in order. -/
def rdim_bake_string_map_join_work (src_maps : List (Option RDIM_BakeStringMapLoose))
    (dst_slots : List (Option (List String8))) (min max : Nat) : List (Option (List String8)) :=
  src_maps.foldl (fun dst src_map =>
    (List.range' min (max - min)).foldl (fun dst slot_idx => joinSlot src_map dst slot_idx) dst)
    dst_slots

/-- The body of the loop of `rdim_bake_string_map_sort_work` for one slot index. -/
def sortSlot (src_slots dst_slots : List (Option (List String8))) (slot_idx : Nat) :
    List (Option (List String8)) :=
  match src_slots.getD slot_idx none with
  | none => dst_slots
  | some l =>
    if l.length > 1 then
      dst_slots.set slot_idx (some (rdim_bake_string_chunk_list_sorted_from_unsorted l))
    else dst_slots.set slot_idx (some l)

/-- The task `rdim_bake_string_map_sort_work` on the slots
`[slot_idx, slot_idx + slot_count)`. -/
def rdim_bake_string_map_sort_work (src_slots dst_slots : List (Option (List String8)))
    (slot_idx slot_count : Nat) : List (Option (List String8)) :=
  (List.range' slot_idx slot_count).foldl (fun dst i => sortSlot src_slots dst i) dst_slots

/-- The task with index `task_idx` of the join stage of `rdim_bake`: the range
`r1u64(task_idx*slots_per_task, task_idx*slots_per_task + slots_per_task)`
with `max` clamped to `slots_count`, in 64-bit arithmetic. -/
def joinTask (slots_count : Nat) (src_maps : List (Option RDIM_BakeStringMapLoose))
    (task_idx : Nat) (dst_slots : List (Option (List String8))) : List (Option (List String8)) :=
  rdim_bake_string_map_join_work src_maps dst_slots
    ((task_idx * 16384) % 2 ^ 64)
    (Nat.min ((task_idx * 16384 + 16384) % 2 ^ 64) slots_count)

/-- The join stage of `rdim_bake` ("produce joined string map"): a fresh map, then
the join tasks.  The tasks write disjoint slot ranges, so they are run here
one after the other in task order. -/
def joinStage (slots_count : Nat) (src_maps : List (Option RDIM_BakeStringMapLoose)) :
    List (Option (List String8)) :=
  (List.range (((slots_count + 16384 - 1) % 2 ^ 64) / 16384)).foldl
    (fun dst task_idx => joinTask slots_count src_maps task_idx dst)
    (rdim_bake_string_map_loose_make slots_count)

/-- The task with index `task_idx` of the sort stage of `rdim_bake`: `slot_idx` is
`task_idx*slots_per_task` and `slot_count` is `slots_per_task`, cut to
`slots_count - slot_idx` when the range passes `slots_count`. -/
def sortTask (slots_count : Nat) (src_slots : List (Option (List String8)))
    (task_idx : Nat) (dst_slots : List (Option (List String8))) : List (Option (List String8)) :=
  rdim_bake_string_map_sort_work src_slots dst_slots
    ((task_idx * 256) % 2 ^ 64)
    (if ((task_idx * 256) % 2 ^ 64 + 256) % 2 ^ 64 > slots_count
     then (slots_count + 2 ^ 64 - (task_idx * 256) % 2 ^ 64) % 2 ^ 64
     else 256)

/-- The sort stage of `rdim_bake`: a fresh map, then the sort tasks in task order. -/
def sortStage (slots_count : Nat) (src_slots : List (Option (List String8))) :
    List (Option (List String8)) :=
  (List.range (((slots_count + 256 - 1) % 2 ^ 64) / 256)).foldl
    (fun dst task_idx => sortTask slots_count src_slots task_idx dst)
    (rdim_bake_string_map_loose_make slots_count)

/-- The strings held by a slot, none for a null slot. -/
def slotStrings (slot : Option (List String8)) : List String8 := slot.getD []

/-- The strings a source map holds in slot `j`: none when the map or its slot array
is null. -/
def srcSlotStrings (src_map : Option RDIM_BakeStringMapLoose) (j : Nat) : List String8 :=
  match src_map with
  | none => []
  | some src =>
    match src.slots with
    | none => []
    | some src_slots => slotStrings (src_slots.getD j none)

/-- All the strings a worker map holds, slot after slot. -/
def mapStrings (src_map : Option RDIM_BakeStringMapLoose) : List String8 :=
  match src_map with
  | none => []
  | some src =>
    match src.slots with
    | none => []
    | some src_slots => (src_slots.map slotStrings).flatten

/-- All the candidate strings of the per-worker maps. -/
def workerStrings (src_maps : List (Option RDIM_BakeStringMapLoose)) : List String8 :=
  (src_maps.map mapStrings).flatten

/-- The slot array of a source map, `none` when the map or the array is null. -/
def mapSlots (src_map : Option RDIM_BakeStringMapLoose) : Option (List (Option (List String8))) :=
  src_map.bind (·.slots)

/-- A worker map made for `slots_count` slots in which every string sits in the
slot `hash % slots_count`. -/
def WellPlaced (hash : String8 → Nat) (slots_count : Nat)
    (src_map : Option RDIM_BakeStringMapLoose) : Prop :=
  (∀ ss ∈ mapSlots src_map, ss.length = slots_count) ∧
  ∀ i, i < slots_count → ∀ s ∈ srcSlotStrings src_map i, hash s % slots_count = i

instance (hash : String8 → Nat) (slots_count : Nat) (src_map : Option RDIM_BakeStringMapLoose) :
    Decidable (WellPlaced hash slots_count src_map) :=
  inferInstanceAs (Decidable ((∀ ss ∈ mapSlots src_map, ss.length = slots_count) ∧
    ∀ i, i < slots_count → ∀ s ∈ srcSlotStrings src_map i, hash s % slots_count = i))

/-- The unsorted map of `rdim_bake` before the sort stage: the joined map, then the
strings pushed for the top-level info, the binary sections and the path
tree (`top_level`, in push order). -/
def unsortedMap (hash : String8 → Nat) (slots_count : Nat)
    (src_maps : List (Option RDIM_BakeStringMapLoose)) (top_level : List String8) :
    List (Option (List String8)) :=
  top_level.foldl (rdim_bake_string_map_loose_insert hash slots_count)
    (joinStage slots_count src_maps)

/-- Modelled from the spec: the base-index pass and
`rdim_bake_string_map_tight_from_loose` are not among the translated sources;
materialization "copies sorted, deduplicated bytes into one contiguous
blob", slot after slot by the running base offset.  The string table is
given by its strings in that order. -/
def stringTable (sorted_slots : List (Option (List String8))) : List String8 :=
  (sorted_slots.map slotStrings).flatten

/-- The string table `rdim_bake` builds from the per-worker maps and the top-level
strings: join stage, top-level pushes, sort stage, materialization. -/
def bakeStringTable (hash : String8 → Nat) (slots_count : Nat)
    (src_maps : List (Option RDIM_BakeStringMapLoose)) (top_level : List String8) :
    List String8 :=
  stringTable (sortStage slots_count (unsortedMap hash slots_count src_maps top_level))

/-- The slot the sort task leaves for a source slot: a null slot stays null, a list
of more than one string is replaced by its sorted list, any other list is
passed through. -/
def sortedSlot (slot : Option (List String8)) : Option (List String8) :=
  match slot with
  | none => none
  | some l =>
    if l.length > 1 then some (rdim_bake_string_chunk_list_sorted_from_unsorted l) else some l

/-- The slot pointer a source map holds at index `j`: null when the map is null,
when its slot array is null, or when the slot is null. -/
def srcSlot (src_map : Option RDIM_BakeStringMapLoose) (j : Nat) : Option (List String8) :=
  match mapSlots src_map with
  | none => none
  | some src_slots => src_slots.getD j none

/-- The number of join tasks `rdim_bake` launches:
`(slots_count + slots_per_task - 1) / slots_per_task` with 16384 slots per task. -/
def joinNumTasks (slots_count : Nat) : Nat :=
  ((slots_count + 16384 - 1) % 2 ^ 64) / 16384

/-- The slot range `[min, max)` given to the join task `task_idx`, the arguments of
`joinTask`. -/
def joinTaskRange (slots_count task_idx : Nat) : Nat × Nat :=
  ((task_idx * 16384) % 2 ^ 64, Nat.min ((task_idx * 16384 + 16384) % 2 ^ 64) slots_count)

/-- The number of sort tasks `rdim_bake` launches, with 256 slots per task. -/
def sortNumTasks (slots_count : Nat) : Nat :=
  ((slots_count + 256 - 1) % 2 ^ 64) / 256

/-- The fields `slot_idx` and `slot_count` given to the sort task `task_idx`, the
arguments of `sortTask`. -/
def sortTaskSlots (slots_count task_idx : Nat) : Nat × Nat :=
  ((task_idx * 256) % 2 ^ 64,
   if ((task_idx * 256) % 2 ^ 64 + 256) % 2 ^ 64 > slots_count
   then (slots_count + 2 ^ 64 - (task_idx * 256) % 2 ^ 64) % 2 ^ 64
   else 256)

/-- A slot index lies in the range of the join task `task_idx`. -/
def inJoinRange (slots_count task_idx i : Nat) : Prop :=
  (joinTaskRange slots_count task_idx).1 ≤ i ∧ i < (joinTaskRange slots_count task_idx).2

/-- A slot index lies in the range `[slot_idx, slot_idx + slot_count)` of the sort
task `task_idx`. -/
def inSortRange (slots_count task_idx i : Nat) : Prop :=
  (sortTaskSlots slots_count task_idx).1 ≤ i ∧
  i < (sortTaskSlots slots_count task_idx).1 + (sortTaskSlots slots_count task_idx).2

instance (slots_count task_idx i : Nat) : Decidable (inJoinRange slots_count task_idx i) :=
  inferInstanceAs (Decidable (_ ∧ _))

instance (slots_count task_idx i : Nat) : Decidable (inSortRange slots_count task_idx i) :=
  inferInstanceAs (Decidable (_ ∧ _))

/-- Sample hash for evaluating the string maps: the sum of the bytes. -/
def sumHash (s : String8) : Nat := (s.map (·.val)).sum

/-- The string `main`. -/
def mainString : String8 := [109, 97, 105, 110]

/-- Sample worker maps for three slots under `sumHash`: two workers that both hold
`main` (slot 1), one of them with a second string, and a worker whose map was
never made. -/
def sampleMaps : List (Option RDIM_BakeStringMapLoose) :=
  [ some ⟨some [some [[3]], some [mainString], none]⟩,
    none,
    some ⟨some [none, some [mainString], none]⟩ ]

/-- The strings of `sampleMaps` held by a single worker. -/
def sampleMapsOneWorker : List (Option RDIM_BakeStringMapLoose) :=
  [ some ⟨some [some [[3]], some [mainString, mainString], none]⟩ ]

/-! ## `rdim_bake`: string-map topology and slicing of chunk lists into build tasks -/

/-- The macro `Min(A, B)`: `((A) < (B)) ? (A) : (B)`. -/
def Min (a b : Nat) : Nat := if a < b then a else b

/-- The slot count of `bake_string_map_topology` in `rdim_bake`:
`64 + procedures*1 + global_variables*1 + thread_variables*1 + types/2` on the
four `total_count` fields, in 64-bit arithmetic. -/
def bake_string_map_topology_slots_count (procedures global_variables thread_variables
    types : Nat) : Nat :=
  ((((64 + (procedures * 1) % 2 ^ 64) % 2 ^ 64 + (global_variables * 1) % 2 ^ 64) % 2 ^ 64
    + (thread_variables * 1) % 2 ^ 64) % 2 ^ 64 + types / 2) % 2 ^ 64

/-- The bound passed to `sliceTaskLoop`: every loop body either leaves a chunk or
moves `chunk_off` forward inside it, so the bodies run from a cursor number
at most one per chunk plus one per element. -/
def sliceFuel {α : Type} (chunks : List (List α)) : Nat :=
  (chunks.map (fun c => c.length + 1)).sum

/-- The inner loop `for(;chunk != 0 && items_left > 0;)` that fills one string-map
build task.  The cursor is the list of the chunks from `chunk` on (empty for
a null `chunk`) and `chunk_off`; a chunk is given by its `count` elements.
The result is the list of the slices `(v, count)` pushed for the task, in
order, and the cursor after the loop; `none` when the bound on the number of
loop bodies is reached. -/
def sliceTaskLoop {α : Type} :
    Nat → List (List α) → Nat → Nat → Option (List (List α) × List (List α) × Nat)
  | _, [], chunk_off, _ => some ([], [], chunk_off)
  | 0, chunk :: next, chunk_off, items_left =>
    if items_left > 0 then none else some ([], chunk :: next, chunk_off)
  | fuel + 1, chunk :: next, chunk_off, items_left =>
    if items_left > 0 then
      let items_in_this_chunk := Min 4096 ((chunk.length + 2 ^ 64 - chunk_off) % 2 ^ 64)
      let n := (chunk.drop chunk_off).take items_in_this_chunk
      let chunk_off' := (chunk_off + items_in_this_chunk) % 2 ^ 64
      let items_left' := (items_left + 2 ^ 64 - items_in_this_chunk) % 2 ^ 64
      match (if chunk_off' ≥ chunk.length
             then sliceTaskLoop fuel next 0 items_left'
             else sliceTaskLoop fuel (chunk :: next) chunk_off' items_left') with
      | none => none
      | some r => some (n :: r.1, r.2)
    else some ([], chunk :: next, chunk_off)

/-- The loop `for(U64 task_idx = 0; task_idx < num_tasks; task_idx += 1)` over the
build tasks of one chunk list: each task starts with `items_left = 4096` at
the cursor left by the task before it.  The result lists, for every task in
order, the slices handed to it. -/
def sliceTasksLoop {α : Type} :
    Nat → List (List α) → Nat → Option (List (List (List α)))
  | 0, _, _ => some []
  | num_tasks + 1, chunks, chunk_off =>
    match sliceTaskLoop (sliceFuel chunks) chunks chunk_off 4096 with
    | none => none
    | some r =>
      match sliceTasksLoop num_tasks r.2.1 r.2.2 with
      | none => none
      | some rest => some (r.1 :: rest)

/-- The number of string-map build tasks for a chunk list:
`(total_count + items_per_task - 1) / items_per_task` with 4096 items per
task, in 64-bit arithmetic (`CeilIntegerDiv` for the inline sites). -/
def buildNumTasks (total_count : Nat) : Nat :=
  ((total_count + 4096 - 1) % 2 ^ 64) / 4096

/-- The slices handed to the string-map build tasks of one chunk list, the block
that `rdim_bake` repeats for the types, the UDTs, each of the four symbol
lists, the inline sites and the scopes: `chunk` starts at the first chunk
with `chunk_off = 0`. -/
def stringMapBuildSlices {α : Type} (total_count : Nat) (chunks : List (List α)) :
    Option (List (List (List α))) :=
  sliceTasksLoop (buildNumTasks total_count) chunks 0

/-- The elements still to be handed out at a cursor. -/
def cursorRest {α : Type} (chunks : List (List α)) (chunk_off : Nat) : List α :=
  chunks.flatten.drop chunk_off

/-- A cursor whose offset lies inside its chunk. -/
def ValidCursor {α : Type} (chunks : List (List α)) (chunk_off : Nat) : Prop :=
  match chunks with
  | [] => True
  | chunk :: _ => chunk_off ≤ chunk.length

/-! ## `raddump`: the command-line option map -/

/-- The option flags `RD_Option_*` named by `g_rd_dump_option_map`. -/
inductive RD_Option where
  | Help | Version | Headers | Sections | Rawdata | Codeview | Disasm | Symbols | Relocs
  | Exceptions | Tls | Debug | Imports | Exports | LoadConfig | Resources | LongNames
  | DebugInfo | DebugAbbrev | DebugLine | DebugStr | DebugLoc | DebugRanges | DebugARanges
  | DebugAddr | DebugLocLists | DebugRngLists | DebugPubNames | DebugPubTypes | DebugLineStr
  | DebugStrOffsets | Dwarf | RelaxDwarfParser | NoRdi
deriving DecidableEq, Repr

/-- An entry `{ opt, name, help }` of `g_rd_dump_option_map`. -/
structure RD_OptionEntry where
  opt : RD_Option
  name : String
  help : String
deriving DecidableEq, Repr

/-- The table `g_rd_dump_option_map`, entry by entry. -/
def g_rd_dump_option_map : List RD_OptionEntry :=
  [ ⟨RD_Option.Help, "help", "Print help and exit"⟩,
    ⟨RD_Option.Version, "version", "Print version and exit"⟩,
    ⟨RD_Option.Headers, "headers",
      "Dump DOS header, file header, optional header, and/or archive header"⟩,
    ⟨RD_Option.Sections, "sections", "Dump section headers as table"⟩,
    ⟨RD_Option.Rawdata, "rawdata", "Dump raw section data"⟩,
    ⟨RD_Option.Codeview, "cv", "Dump CodeView"⟩,
    ⟨RD_Option.Disasm, "disasm", "Disassemble code sections"⟩,
    ⟨RD_Option.Symbols, "symtab", "Dump COFF symbol table"⟩,
    ⟨RD_Option.Relocs, "relocs", "Dump relocations"⟩,
    ⟨RD_Option.Exceptions, "exceptions", "Dump exceptions"⟩,
    ⟨RD_Option.Tls, "tls", "Dump Thread Local Storage directory"⟩,
    ⟨RD_Option.Debug, "debug", "Dump debug directory"⟩,
    ⟨RD_Option.Imports, "imports", "Dump import table"⟩,
    ⟨RD_Option.Exports, "exports", "Dump export table"⟩,
    ⟨RD_Option.LoadConfig, "loadconfig", "Dump load config"⟩,
    ⟨RD_Option.Resources, "resources", "Dump resource directory"⟩,
    ⟨RD_Option.LongNames, "longnames", "Dump archive long names"⟩,
    ⟨RD_Option.DebugInfo, "debug_info", "Dump .debug_info"⟩,
    ⟨RD_Option.DebugAbbrev, "debug_abbrev", "Dump .debug_abbrev"⟩,
    ⟨RD_Option.DebugLine, "debug_line", "Dump .debug_line"⟩,
    ⟨RD_Option.DebugStr, "debug_str", "Dump .debug_str"⟩,
    ⟨RD_Option.DebugLoc, "debug_loc", "Dump .debug_loc"⟩,
    ⟨RD_Option.DebugRanges, "debug_ranges", "Dump .debug_ranges"⟩,
    ⟨RD_Option.DebugARanges, "debug_aranges", "Dump .debug_aranges"⟩,
    ⟨RD_Option.DebugAddr, "debug_addr", "Dump .debug_addr"⟩,
    ⟨RD_Option.DebugLocLists, "debug_loclists", "Dump .debug_loclists"⟩,
    ⟨RD_Option.DebugRngLists, "debug_rnglists", "Dump .debug_rnglists"⟩,
    ⟨RD_Option.DebugPubNames, "debug_pubnames", "Dump .debug_pubnames"⟩,
    ⟨RD_Option.DebugPubTypes, "debug_pubtypes", "Dump .debug_putypes"⟩,
    ⟨RD_Option.DebugLineStr, "debug_linestr", "Dump .debug_linestr"⟩,
    ⟨RD_Option.DebugStrOffsets, "debug_stroffsets", "Dump .debug_stroffsets"⟩,
    ⟨RD_Option.Dwarf, "dwarf", "Dump all DWARF sections"⟩,
    ⟨RD_Option.RelaxDwarfParser, "relax_dwarf_parser",
      "Relaxes version requirement on attribute and form encodings"⟩,
    ⟨RD_Option.NoRdi, "nordi", "Don\x27t load RAD Debug Info"⟩,
    ⟨RD_Option.Help, "h", "Alias for -help"⟩,
    ⟨RD_Option.Version, "v", "Alias for -version"⟩,
    ⟨RD_Option.Sections, "s", "Alias for -sections"⟩,
    ⟨RD_Option.Exceptions, "e", "Alias for -exceptions"⟩,
    ⟨RD_Option.Imports, "i", "Alias for -imports"⟩,
    ⟨RD_Option.Exports, "x", "Alias for -exports"⟩,
    ⟨RD_Option.LoadConfig, "l", "Alias for -loadconifg"⟩,
    ⟨RD_Option.Resources, "c", "Alias for -resources"⟩,
    ⟨RD_Option.Relocs, "r", "Alias for -relocs"⟩ ]

/-- The switch a help text of the form `Alias for -<name>` names; `none` for any
other help text. -/
def aliasTarget (help : String) : Option String :=
  if help.data.take 11 = "Alias for -".data then some (String.mk (help.data.drop 11)) else none

/-- The characters of a string with letters folded to one case, for the
case-insensitive `str8_match`. -/
def foldCase (s : String) : List Char := s.data.map Char.toLower

/-- What the option loop of `entry_point` computes for one command-line switch:
`one opt` for the option of the first entry whose name matches, `all` for the
switch `all`, `unknown` when `opt` is still 0 after the loop. -/
inductive RD_Selection where
  | one (opt : RD_Option)
  | all
  | unknown
deriving DecidableEq, Repr

/-- The inner loop of the option parsing of `entry_point` over the entries from
`opt_idx` on: the name test comes first, then the test for `all`. -/
def selectOptionLoop (cmd : String) : List RD_OptionEntry → RD_Selection
  | [] => RD_Selection.unknown
  | e :: rest =>
    if foldCase cmd = foldCase e.name then RD_Selection.one e.opt
    else if foldCase cmd = foldCase "all" then RD_Selection.all
    else selectOptionLoop cmd rest

/-- The option selected by a command-line switch. -/
def selectOption (cmd : String) : RD_Selection :=
  selectOptionLoop cmd g_rd_dump_option_map

/-- The alias entries of the table whose help text names a switch that is not the
name of a non-alias entry with the same option. -/
def misnamedAliases : List RD_OptionEntry :=
  g_rd_dump_option_map.filter (fun e =>
    match aliasTarget e.help with
    | none => false
    | some target =>
      !(g_rd_dump_option_map.any (fun long =>
          (aliasTarget long.help).isNone && decide (long.name = target) &&
          decide (long.opt = e.opt))))

/-! ## `rdim_bake`: the program order of launches, joins and serial steps -/

/-- The values `rdim_bake` receives from its caller and from the name-map build
tasks that decide which tasks it launches: the `total_count` of the chunk
lists of `in_params`, the constant `RDI_NameMapKind_COUNT`, and for each
name-map kind the map its build task returns (`none` for a null map, else
its `name_count`). -/
structure RDIM_BakeCounts where
  types : Nat
  udts : Nat
  global_variables : Nat
  thread_variables : Nat
  procedures : Nat
  constants : Nat
  inline_sites : Nat
  scopes : Nat
  RDI_NameMapKind_COUNT : Nat
  name_maps : Nat → Option Nat

/-- The asynchronous tasks `rdim_bake` launches, one constructor per work
function: the per-slice string-map build tasks carry their `task_idx` (and
`list_idx` for the four symbol lists), the name-map tasks their kind. -/
inductive BakeTask where
  | line_tables
  | src_files_strings
  | units_strings
  | types_strings (task_idx : Nat)
  | udts_strings (task_idx : Nat)
  | symbols_strings (list_idx task_idx : Nat)
  | inline_site_strings (task_idx : Nat)
  | scopes_strings (task_idx : Nat)
  | build_bake_name_map (k : Nat)
  | string_map_join (task_idx : Nat)
  | string_map_sort (task_idx : Nat)
  | units
  | unit_vmap
  | src_files
  | udts
  | global_vmap
  | scope_vmap
  | inline_sites
  | file_paths
  | strings
  | constants
  | global_variables
  | thread_variables
  | scopes
  | procedures
  | type_nodes
  | name_map (k : Nat)
  | idx_runs
deriving DecidableEq, Repr

/-- The values built inside `rdim_bake` (and `in_params`) that the input struct of
a task points to. -/
inductive BakeResource where
  | in_params
  | bake_string_map_topology
  | bake_string_maps__in_progress
  | unsorted_bake_string_map
  | sorted_bake_string_map__in_progress
  | bake_strings
  | path_tree
  | location_blocks
  | location_data_blobs
  | name_maps
  | idx_runs
deriving DecidableEq, Repr

/-- The fields of the input struct each task is launched with. -/
def taskInputs : BakeTask → List BakeResource
  | BakeTask.line_tables => [BakeResource.in_params]
  | BakeTask.src_files_strings | BakeTask.units_strings | BakeTask.types_strings _
  | BakeTask.udts_strings _ | BakeTask.symbols_strings _ _ | BakeTask.inline_site_strings _
  | BakeTask.scopes_strings _ =>
    [BakeResource.bake_string_map_topology, BakeResource.bake_string_maps__in_progress,
     BakeResource.in_params]
  | BakeTask.build_bake_name_map _ => [BakeResource.in_params]
  | BakeTask.string_map_join _ =>
    [BakeResource.bake_string_map_topology, BakeResource.bake_string_maps__in_progress,
     BakeResource.unsorted_bake_string_map]
  | BakeTask.string_map_sort _ =>
    [BakeResource.bake_string_map_topology, BakeResource.unsorted_bake_string_map,
     BakeResource.sorted_bake_string_map__in_progress]
  | BakeTask.units => [BakeResource.bake_strings, BakeResource.path_tree, BakeResource.in_params]
  | BakeTask.unit_vmap => [BakeResource.in_params]
  | BakeTask.src_files =>
    [BakeResource.bake_strings, BakeResource.path_tree, BakeResource.in_params]
  | BakeTask.udts => [BakeResource.bake_strings, BakeResource.in_params]
  | BakeTask.global_vmap => [BakeResource.in_params]
  | BakeTask.scope_vmap => [BakeResource.in_params]
  | BakeTask.inline_sites => [BakeResource.bake_strings, BakeResource.in_params]
  | BakeTask.file_paths => [BakeResource.bake_strings, BakeResource.path_tree]
  | BakeTask.strings => [BakeResource.bake_strings]
  | BakeTask.constants => [BakeResource.bake_strings, BakeResource.in_params]
  | BakeTask.global_variables => [BakeResource.bake_strings, BakeResource.in_params]
  | BakeTask.thread_variables => [BakeResource.bake_strings, BakeResource.in_params]
  | BakeTask.scopes =>
    [BakeResource.bake_strings, BakeResource.in_params, BakeResource.location_blocks,
     BakeResource.location_data_blobs]
  | BakeTask.procedures =>
    [BakeResource.bake_strings, BakeResource.in_params, BakeResource.location_blocks,
     BakeResource.location_data_blobs]
  | BakeTask.type_nodes =>
    [BakeResource.bake_strings, BakeResource.idx_runs, BakeResource.in_params]
  | BakeTask.name_map _ =>
    [BakeResource.bake_strings, BakeResource.idx_runs, BakeResource.name_maps]
  | BakeTask.idx_runs => [BakeResource.idx_runs]

/-- The serial work `rdim_bake` does on its own thread between launches and joins,
one constructor per call. -/
inductive BakeStep where
  | path_tree_from_params
  | unsorted_string_map_make
  | push_top_level_info
  | push_binary_sections
  | push_path_tree
  | sorted_string_map_make
  | string_map_base_indices
  | string_map_tight_from_loose
  | reserve_null_location_block
  | idx_run_map_from_params
  | bake_top_level_info
  | bake_binary_sections
  | bake_name_maps_top_level
  | name_map_bake_results_combine
  | join_location_blocks
  | join_location_data
deriving DecidableEq, Repr

/-- One event of a run of `rdim_bake`: `async_task_launch` of a task,
`async_task_join` of a launched task, `async_task_join` of the zero handle
of a name-map kind that launched no bake task, or a serial step. -/
inductive BakeEvent where
  | launch (t : BakeTask)
  | join (t : BakeTask)
  | join_zero (k : Nat)
  | step (s : BakeStep)
deriving DecidableEq, Repr

/-- The symbol list `symbol_lists[list_idx]`: global variables, thread variables,
procedures, constants. -/
def symbolListCount (P : RDIM_BakeCounts) (list_idx : Nat) : Nat :=
  match list_idx with
  | 0 => P.global_variables
  | 1 => P.thread_variables
  | 2 => P.procedures
  | _ => P.constants

/-- The task list `bake_string_map_build_tasks` in push order: source files,
units, then one task per slice of the types, of the UDTs, of each of the
four symbol lists, of the inline sites and of the scopes. -/
def stringMapBuildTasks (P : RDIM_BakeCounts) : List BakeTask :=
  [BakeTask.src_files_strings, BakeTask.units_strings]
  ++ (List.range (buildNumTasks P.types)).map BakeTask.types_strings
  ++ (List.range (buildNumTasks P.udts)).map BakeTask.udts_strings
  ++ (List.range 4).flatMap (fun list_idx =>
      (List.range (buildNumTasks (symbolListCount P list_idx))).map
        (BakeTask.symbols_strings list_idx))
  ++ (List.range (buildNumTasks P.inline_sites)).map BakeTask.inline_site_strings
  ++ (List.range (buildNumTasks P.scopes)).map BakeTask.scopes_strings

/-- The kinds the name-map loops run over: `RDI_NameMapKind_NULL+1` up to
`RDI_NameMapKind_COUNT-1`. -/
def nameMapKinds (P : RDIM_BakeCounts) : List Nat :=
  (List.range (P.RDI_NameMapKind_COUNT - 1)).map (fun k => k + 1)

/-- The test of the pass-3 loop: kind `k` launches a bake task unless
`name_maps[k] == 0 || name_maps[k]->name_count == 0`. -/
def nameMapLaunched (P : RDIM_BakeCounts) (k : Nat) : Bool :=
  match P.name_maps k with
  | none => false
  | some name_count => name_count != 0

/-- The `slots_count` of `bake_string_map_topology`. -/
def bakeSlotsCount (P : RDIM_BakeCounts) : Nat :=
  bake_string_map_topology_slots_count P.procedures P.global_variables P.thread_variables
    P.types

/-- Kick off line tables baking, then build the interned path tree. -/
def kickOffLineTables : List BakeEvent :=
  [BakeEvent.launch BakeTask.line_tables, BakeEvent.step BakeStep.path_tree_from_params]

/-- Kick off string map building tasks. -/
def kickOffStringMapBuild (P : RDIM_BakeCounts) : List BakeEvent :=
  (stringMapBuildTasks P).map BakeEvent.launch

/-- Kick off name map building tasks. -/
def kickOffNameMapBuild (P : RDIM_BakeCounts) : List BakeEvent :=
  (nameMapKinds P).map (fun k => BakeEvent.launch (BakeTask.build_bake_name_map k))

/-- Join string map building tasks, in list order. -/
def joinStringMapBuild (P : RDIM_BakeCounts) : List BakeEvent :=
  (stringMapBuildTasks P).map BakeEvent.join

/-- Produce joined string map: make the unsorted map, kick off the join tasks,
join them, insert the small top-level strings. -/
def produceJoinedStringMap (P : RDIM_BakeCounts) : List BakeEvent :=
  [BakeEvent.step BakeStep.unsorted_string_map_make]
  ++ (List.range (joinNumTasks (bakeSlotsCount P))).map
      (fun task_idx => BakeEvent.launch (BakeTask.string_map_join task_idx))
  ++ (List.range (joinNumTasks (bakeSlotsCount P))).map
      (fun task_idx => BakeEvent.join (BakeTask.string_map_join task_idx))
  ++ [BakeEvent.step BakeStep.push_top_level_info,
      BakeEvent.step BakeStep.push_binary_sections,
      BakeEvent.step BakeStep.push_path_tree]

/-- Kick off string map sorting tasks, after making the sorted map. -/
def kickOffStringMapSort (P : RDIM_BakeCounts) : List BakeEvent :=
  [BakeEvent.step BakeStep.sorted_string_map_make]
  ++ (List.range (sortNumTasks (bakeSlotsCount P))).map
      (fun task_idx => BakeEvent.launch (BakeTask.string_map_sort task_idx))

/-- Join string map sorting tasks. -/
def joinStringMapSort (P : RDIM_BakeCounts) : List BakeEvent :=
  (List.range (sortNumTasks (bakeSlotsCount P))).map
    (fun task_idx => BakeEvent.join (BakeTask.string_map_sort task_idx))

/-- Build finalized string map: base indices, then the tight map `bake_strings`. -/
def buildFinalizedStringMap : List BakeEvent :=
  [BakeEvent.step BakeStep.string_map_base_indices,
   BakeEvent.step BakeStep.string_map_tight_from_loose]

/-- Kick off pass 2 tasks. -/
def kickOffPass2 : List BakeEvent :=
  [BakeEvent.launch BakeTask.units, BakeEvent.launch BakeTask.unit_vmap,
   BakeEvent.launch BakeTask.src_files, BakeEvent.launch BakeTask.udts,
   BakeEvent.launch BakeTask.global_vmap, BakeEvent.launch BakeTask.scope_vmap,
   BakeEvent.launch BakeTask.inline_sites, BakeEvent.launch BakeTask.file_paths,
   BakeEvent.launch BakeTask.strings, BakeEvent.launch BakeTask.constants]

/-- The serial chain of location block building: reserve the null location block,
then launch and join in turn the global variables, the thread variables,
the scopes and the procedures. -/
def locationBlockChain : List BakeEvent :=
  [BakeEvent.step BakeStep.reserve_null_location_block,
   BakeEvent.launch BakeTask.global_variables, BakeEvent.join BakeTask.global_variables,
   BakeEvent.launch BakeTask.thread_variables, BakeEvent.join BakeTask.thread_variables,
   BakeEvent.launch BakeTask.scopes, BakeEvent.join BakeTask.scopes,
   BakeEvent.launch BakeTask.procedures, BakeEvent.join BakeTask.procedures]

/-- Join name map building tasks. -/
def joinNameMapBuild (P : RDIM_BakeCounts) : List BakeEvent :=
  (nameMapKinds P).map (fun k => BakeEvent.join (BakeTask.build_bake_name_map k))

/-- Build interned idx run map, then do the small top-level bakes. -/
def buildIdxRunMap : List BakeEvent :=
  [BakeEvent.step BakeStep.idx_run_map_from_params,
   BakeEvent.step BakeStep.bake_top_level_info,
   BakeEvent.step BakeStep.bake_binary_sections,
   BakeEvent.step BakeStep.bake_name_maps_top_level]

/-- Kick off pass 3 tasks: type nodes, one name-map bake per kind that passes the
test, idx runs. -/
def kickOffPass3 (P : RDIM_BakeCounts) : List BakeEvent :=
  [BakeEvent.launch BakeTask.type_nodes]
  ++ ((nameMapKinds P).filter (nameMapLaunched P)).map
      (fun k => BakeEvent.launch (BakeTask.name_map k))
  ++ [BakeEvent.launch BakeTask.idx_runs]

/-- Join remaining completed bakes. -/
def joinRemaining : List BakeEvent :=
  [BakeEvent.join BakeTask.units, BakeEvent.join BakeTask.unit_vmap,
   BakeEvent.join BakeTask.src_files, BakeEvent.join BakeTask.udts,
   BakeEvent.join BakeTask.global_vmap, BakeEvent.join BakeTask.scope_vmap,
   BakeEvent.join BakeTask.inline_sites, BakeEvent.join BakeTask.file_paths,
   BakeEvent.join BakeTask.strings, BakeEvent.join BakeTask.constants,
   BakeEvent.join BakeTask.type_nodes, BakeEvent.join BakeTask.idx_runs,
   BakeEvent.join BakeTask.line_tables]

/-- Join individual name map bakes: every kind is joined, through the zero handle
when it launched no task. -/
def joinNameMapBakes (P : RDIM_BakeCounts) : List BakeEvent :=
  (nameMapKinds P).map (fun k =>
    if nameMapLaunched P k then BakeEvent.join (BakeTask.name_map k)
    else BakeEvent.join_zero k)

/-- Combine the name map bakes and join the two location lists into the output. -/
def finishBake : List BakeEvent :=
  [BakeEvent.step BakeStep.name_map_bake_results_combine,
   BakeEvent.step BakeStep.join_location_blocks,
   BakeEvent.step BakeStep.join_location_data]

/-- The events of `rdim_bake` before the string-map build tasks have all been
joined. -/
def bakeThroughBuildJoin (P : RDIM_BakeCounts) : List BakeEvent :=
  kickOffLineTables ++ kickOffStringMapBuild P ++ kickOffNameMapBuild P
  ++ joinStringMapBuild P

/-- The events of `rdim_bake` from its entry to the end of the join of the
string-map sort tasks. -/
def bakeThroughSortJoin (P : RDIM_BakeCounts) : List BakeEvent :=
  bakeThroughBuildJoin P ++ produceJoinedStringMap P ++ kickOffStringMapSort P
  ++ joinStringMapSort P

/-- The events of `rdim_bake` after the name-map build tasks have been joined. -/
def bakeFromIdxRunMap (P : RDIM_BakeCounts) : List BakeEvent :=
  buildIdxRunMap ++ kickOffPass3 P ++ joinRemaining ++ joinNameMapBakes P ++ finishBake

/-- The events of one run of `rdim_bake`, in program order. -/
def rdim_bake_events (P : RDIM_BakeCounts) : List BakeEvent :=
  bakeThroughSortJoin P ++ buildFinalizedStringMap ++ kickOffPass2 ++ locationBlockChain
  ++ joinNameMapBuild P ++ bakeFromIdxRunMap P

/-- The tasks launched and not yet joined after a sequence of events. -/
def running (evs : List BakeEvent) : List BakeTask :=
  evs.foldl (fun r e =>
    match e with
    | BakeEvent.launch t => r ++ [t]
    | BakeEvent.join t => r.filter (fun u => decide (u ≠ t))
    | _ => r) []

/-- The tasks launched and not yet joined after the events `evs`, when the tasks
`r` were running before them (`running` starts from no task). -/
def runningFrom (r : List BakeTask) (evs : List BakeEvent) : List BakeTask :=
  evs.foldl (fun r e =>
    match e with
    | BakeEvent.launch t => r ++ [t]
    | BakeEvent.join t => r.filter (fun u => decide (u ≠ t))
    | _ => r) r

/-- The handle array `bake_name_maps_tasks` after the pass-3 launches: zeroed at
its declaration, entry `k` is set only for a kind that passes the test of
the launch loop. -/
def bake_name_maps_tasks (P : RDIM_BakeCounts) (k : Nat) : Option BakeTask :=
  if nameMapLaunched P k then some (BakeTask.name_map k) else none

/-- The entry `name_map_bakes[k]` after the loop that joins the name map bakes:
the array is zeroed at its declaration, and entry `k` is overwritten with
`*bake` only when the joined result `bake` is non-null.  `join_struct`
stands for `async_task_join_struct`, which is not among the translated
sources: the result pointer of a handle, `none` for a null pointer. -/
def name_map_bakes {β : Type} (P : RDIM_BakeCounts) (join_struct : Option BakeTask → Option β)
    (zero : β) (k : Nat) : β :=
  match join_struct (bake_name_maps_tasks P k) with
  | some bake => bake
  | none => zero

/-- A task whose input struct points to `location_blocks` or to
`location_data_blobs`. -/
def receivesLocationLists (t : BakeTask) : Bool :=
  decide (BakeResource.location_blocks ∈ taskInputs t) ||
  decide (BakeResource.location_data_blobs ∈ taskInputs t)

/-- A task whose input struct points to the final string table `bake_strings`. -/
def takesStrings (t : BakeTask) : Bool :=
  decide (BakeResource.bake_strings ∈ taskInputs t)

/-- An event that launches or joins a task satisfying `p`. -/
def concerns (p : BakeTask → Bool) : BakeEvent → Bool
  | BakeEvent.launch t => p t
  | BakeEvent.join t => p t
  | _ => false

/-- A small input: 5000 types, 20000 procedures, three name-map kinds of which
the second has no names and the third no map. -/
def sampleCounts : RDIM_BakeCounts :=
  { types := 5000, udts := 10, global_variables := 3, thread_variables := 0,
    procedures := 20000, constants := 1, inline_sites := 0, scopes := 7,
    RDI_NameMapKind_COUNT := 4,
    name_maps := fun k => if k = 1 then some 5 else if k = 2 then some 0 else none }

/-! ## `raddump`: disassembly listing -/

/-- The result of `rd_disasm_next_instruction` (`RD_DisasmResult`): the text of the
instruction and its size in bytes. -/
structure RD_DisasmResult where
  text : String8
  size : Nat
deriving DecidableEq, Repr

/-- An address marker (`RD_Marker`), restricted to its offset and its string. -/
structure RD_Marker where
  off : Nat
  string : String8
deriving DecidableEq, Repr

/-- The function `rd_disasm_next_instruction`: the zeroed result for `Arch_Null`; for
`Arch_x64` and `Arch_x86` the text and the length the decoder leaves in the
zero-initialized `inst` (`decode` stands for `ZydisDisassemble` in the
machine mode of the architecture); `none` for the `NotImplemented` of every
other architecture. -/
def rd_disasm_next_instruction (decode : Arch → Nat → String8 → String8 × Nat) (arch : Arch)
    (addr : Nat) (raw_code : String8) : Option RD_DisasmResult :=
  match arch with
  | Arch.Null => some { text := [], size := 0 }
  | Arch.x64 => some { text := (decode Arch.x64 addr raw_code).1,
                       size := (decode Arch.x64 addr raw_code).2 }
  | Arch.x86 => some { text := (decode Arch.x86 addr raw_code).1,
                       size := (decode Arch.x86 addr raw_code).2 }
  | Arch.other => none

/-- The function `str8_skip(str, amt)`: the string after its first `amt` bytes, `amt`
clamped to the size of the string. -/
def str8_skip (str : String8) (amt : Nat) : String8 := str.drop amt

/-- A line printed by `rd_format_disasm`: an address marker without or with the
address, or the final line of an instruction (address, instruction bytes,
text). -/
inductive RD_DisasmLine where
  | marker (string : String8)
  | marker_at (string : String8) (addr : Nat)
  | instruction (addr : Nat) (bytes : String8) (text : String8)
deriving DecidableEq, Repr

/-- The ways the embedded loop of `rd_format_disasm` ends: the loop condition
`to_decode.size > 0` fails, `NotImplemented` is reached, or, in the
embedding only, the bound on the number of loop bodies is reached. -/
inductive RD_DisasmRun where
  | finished (out : List RD_DisasmLine)
  | not_implemented
  | out_of_fuel
deriving DecidableEq, Repr

/-- The marker lines one loop body prints, and `marker_cursor` after it. -/
def disasmMarker (markers : List RD_Marker) (marker_cursor decode_off addr size : Nat) :
    List RD_DisasmLine × Nat :=
  match markers[marker_cursor]? with
  | none => ([], marker_cursor)
  | some m =>
    if decode_off ≤ m.off ∧ m.off < (decode_off + size) % 2 ^ 64 then
      (if m.off ≠ decode_off then [RD_DisasmLine.marker_at m.string addr]
       else [RD_DisasmLine.marker m.string], (marker_cursor + 1) % 2 ^ 64)
    else ([], marker_cursor)

/-- The loop `for (; to_decode.size > 0; )` of `rd_format_disasm` from the state
`(decode_off, marker_cursor, to_decode)`: decode one instruction at the
head of `to_decode`, print its marker and its line, then skip
`disasm_result.size` bytes.  The first argument bounds the number of loop
bodies run. -/
def rd_format_disasm_loop (decode : Arch → Nat → String8 → String8 × Nat) (arch : Arch)
    (image_base sect_off : Nat) (markers : List RD_Marker) :
    Nat → Nat → Nat → String8 → RD_DisasmRun
  | _, _, _, [] => RD_DisasmRun.finished []
  | 0, _, _, _ :: _ => RD_DisasmRun.out_of_fuel
  | fuel + 1, decode_off, marker_cursor, b :: rest =>
    let to_decode := b :: rest
    let addr := ((image_base + sect_off) % 2 ^ 64 + decode_off) % 2 ^ 64
    match rd_disasm_next_instruction decode arch addr to_decode with
    | none => RD_DisasmRun.not_implemented
    | some disasm_result =>
      let bytes := to_decode.take disasm_result.size
      let m := disasmMarker markers marker_cursor decode_off addr disasm_result.size
      match rd_format_disasm_loop decode arch image_base sect_off markers fuel
          ((decode_off + disasm_result.size) % 2 ^ 64) m.2
          (str8_skip to_decode disasm_result.size) with
      | RD_DisasmRun.finished out =>
        RD_DisasmRun.finished
          (m.1 ++ RD_DisasmLine.instruction addr bytes disasm_result.text :: out)
      | r => r

/-- The function `rd_format_disasm`: the loop from `decode_off = 0`,
`marker_cursor = 0` and `to_decode = raw_code`. -/
def rd_format_disasm (decode : Arch → Nat → String8 → String8 × Nat) (arch : Arch)
    (image_base sect_off : Nat) (markers : List RD_Marker) (raw_code : String8)
    (fuel : Nat) : RD_DisasmRun :=
  rd_format_disasm_loop decode arch image_base sect_off markers fuel 0 0 raw_code

/-- Sample decoder: every instruction is one byte long and has the text `n`. -/
def oneByteDecoder (_arch : Arch) (_addr : Nat) (_raw_code : String8) : String8 × Nat :=
  ([110], 1)

/-! ## `raddump`: relocation listing -/

/-- A relocation record (`COFF_Reloc`); `apply_off` and `isymbol` are `U32` fields. -/
structure COFF_Reloc where
  apply_off : Nat
  isymbol : Nat
  type : Nat
deriving DecidableEq, Repr

/-- A symbol-table entry (`COFF_Symbol32`), restricted to its name. -/
structure COFF_Symbol32 where
  name : String8
deriving DecidableEq, Repr

/-- A section header, restricted to its `U32` file offset `foff`, with the
relocation array that `coff_reloc_info_from_section_header` locates for it. -/
structure COFF_RelocSection where
  foff : Nat
  relocs : List COFF_Reloc
deriving DecidableEq, Repr

/-- What the body of the relocation loop of `coff_format_relocs` does for one
relocation: report an apply offset out of bounds and `break`, stop at
`AssertAlways`, report a symbol index out of bounds and `break`, or read
`symbols.v[isymbol]` and print the line.  `symbol` is the entry read, `none`
when the read is past the end of the symbol array. -/
inductive RelocStep where
  | apply_out_of_bounds (reloc_idx apply_foff : Nat)
  | assert_failed (reloc_idx : Nat)
  | symbol_out_of_bounds (reloc_idx isymbol : Nat)
  | line (reloc_idx isymbol : Nat) (symbol : Option COFF_Symbol32)
deriving DecidableEq, Repr

/-- The loop over the relocations of one section in `coff_format_relocs`, from the
relocation `reloc_idx` on.  `raw_size` is `raw_data.size`, `apply_size`
stands for `coff_apply_size_from_reloc(machine, type)`, and `symbols` holds
the `symbols.count` entries of `symbols.v`.  The fields `foff` and
`apply_off` are `U32`: their sum `sect_header->foff + reloc->apply_off` is
computed in 32-bit arithmetic and then widened to the `U64` `apply_foff`;
the sum with `apply_size` is a 64-bit sum. -/
def relocLoop (raw_size : Nat) (apply_size : Nat → Nat) (foff : Nat)
    (symbols : List COFF_Symbol32) : List COFF_Reloc → Nat → List RelocStep
  | [], _ => []
  | reloc :: rest, reloc_idx =>
    let apply_foff := (foff + reloc.apply_off) % 2 ^ 32
    if (apply_foff + apply_size reloc.type) % 2 ^ 64 > raw_size then
      [RelocStep.apply_out_of_bounds reloc_idx apply_foff]
    else if ¬ apply_size reloc.type ≤ 8 then
      [RelocStep.assert_failed reloc_idx]
    else if reloc.isymbol > symbols.length then
      [RelocStep.symbol_out_of_bounds reloc_idx reloc.isymbol]
    else
      RelocStep.line reloc_idx reloc.isymbol symbols[reloc.isymbol]?
        :: relocLoop raw_size apply_size foff symbols rest (reloc_idx + 1)

/-- The function `coff_format_relocs`: for every section with a non-empty relocation
array, in order, the section index and the steps of its relocation loop. -/
def coff_format_relocs (raw_size : Nat) (apply_size : Nat → Nat)
    (sect_headers : List COFF_RelocSection) (symbols : List COFF_Symbol32) :
    List (Nat × List RelocStep) :=
  ((List.range sect_headers.length).zip sect_headers).filterMap (fun s =>
    if s.2.relocs.length ≠ 0 then
      some (s.1, relocLoop raw_size apply_size s.2.foff symbols s.2.relocs 0)
    else none)

/-! ## `codeview`: register names -/

/-- The architectures `cv_string_from_reg_id` switches on; `other` stands for every
value left to the `default` label. -/
inductive CV_Arch where
  | CV_Arch_8086
  | CV_Arch_X64
  | other
deriving DecidableEq, Repr

/-- An entry `X(_name, _id, ...)` of a register list (`CV_Reg_X86_XList`,
`CV_Reg_X64_XList`).  The lists are defined in a header that is not among
the translated sources, so they are parameters of the functions below. -/
structure CV_Reg where
  name : String
  id : Nat
deriving DecidableEq, Repr

/-- The statement the macro `X` expands to under its `case _id:` label,
`str8_lit(Stringify(_name)); break;`: the string literal is an expression
statement, it is not stored, and `result` is what it was. -/
def regCaseBody (result : String) (_name : String) : String := result

/-- The inner `switch (id)` over a register list: the body of the first case
whose `_id` is `id`, no statement when there is none. -/
def regSwitch (regs : List CV_Reg) (id : Nat) (result : String) : String :=
  match regs.find? (fun r => r.id == id) with
  | some r => regCaseBody result r.name
  | none => result

/-- The function `cv_string_from_reg_id`: `result` starts as `str8_zero()` and is
returned after the `switch`; `none` for the `NotImplemented` of the
`default` label. -/
def cv_string_from_reg_id (x86_regs x64_regs : List CV_Reg) (arch : CV_Arch) (id : Nat) :
    Option String :=
  let result := ""
  match arch with
  | CV_Arch.CV_Arch_8086 => some (regSwitch x86_regs id result)
  | CV_Arch.CV_Arch_X64 => some (regSwitch x64_regs id result)
  | CV_Arch.other => none

/-- The function `cv_string_from_reg_off`: the format `%S+%x` applied to the result of
`cv_string_from_reg_id` and to the offset (lowercase hexadecimal). -/
def cv_string_from_reg_off (x86_regs x64_regs : List CV_Reg) (arch : CV_Arch) (reg off : Nat) :
    Option String :=
  (cv_string_from_reg_id x86_regs x64_regs arch reg).map
    (fun s => s ++ "+" ++ String.mk (Nat.toDigits 16 off))

/-- Sample x86 register list, with the CodeView numbers of `eax` and `ecx`. -/
def sampleX86Regs : List CV_Reg := [⟨"eax", 17⟩, ⟨"ecx", 18⟩]

/-- Sample x64 register list, with the CodeView numbers of `rax` and `rbx`. -/
def sampleX64Regs : List CV_Reg := [⟨"rax", 328⟩, ⟨"rbx", 329⟩]

/-! ## `raddump`: hex dump of a byte array -/

/-- The bytes one call `raddbg_snprintf(buf+buf_size, cap, "%s%02x", ...)` writes,
as indices of `buf`: the characters of the group and the terminating NUL,
cut to the capacity `cap` as `snprintf` does. -/
def hexGroupWrites (buf_size cap len : Nat) : List Nat :=
  (List.range (min (len + 1) cap)).map (fun j => buf_size + j)

/-- The loop of `rd_format_hex_array` for the `n` bytes from index `i` on: the
group of byte `i` is `xx` for `i = 0` and ` xx` otherwise, and `buf_size`
grows by its length.  The result is the indices of `buf` written, in order,
and the final `buf_size`. -/
def hexLoop (buf_max : Nat) : Nat → Nat → Nat → List Nat × Nat
  | 0, _, buf_size => ([], buf_size)
  | n + 1, i, buf_size =>
    let len := if i > 0 then 3 else 2
    let r := hexLoop buf_max n (i + 1) ((buf_size + len) % 2 ^ 64)
    (hexGroupWrites buf_size ((buf_max + 2 ^ 64 - buf_size) % 2 ^ 64) len ++ r.1, r.2)

/-- The size `buf_max = size * 3` of the buffer `rd_format_hex_array` allocates. -/
def hexBufMax (size : Nat) : Nat := (size * 3) % 2 ^ 64

/-- The indices of `buf` that `rd_format_hex_array` writes, in order: the groups of
the loop, then the terminator `buf[buf_size] = 0`. -/
def hexWrites (size : Nat) : List Nat :=
  (hexLoop (hexBufMax size) size 0 0).1 ++ [(hexLoop (hexBufMax size) size 0 0).2]

/-- The size of the string `rd_format_hex_array` returns, `buf_size` after the loop. -/
def hexResultSize (size : Nat) : Nat := (hexLoop (hexBufMax size) size 0 0).2

/-! ## Vocabulary of the statements about the resolver -/

/-- Rewrite of one reference by a forward map, as a total function: the mapped
target when the entry is non-null, the reference itself otherwise. -/
def fwdApply (fwd_map : List Nat) (ref : Nat) : Nat :=
  if fwd_map.getD ref 0 ≠ 0 then fwd_map.getD ref 0 else ref

/-- Every reference held by a type is null or the index of one of `n` types. -/
def TypeRefsInRange (n : Nat) (t : RDIM_Type) : Prop :=
  t.direct_type ≤ n ∧ ∀ r ∈ t.param_types.getD [], r ≤ n

/-- Every reference held by a UDT is null or the index of one of `n` types. -/
def UDTRefsInRange (n : Nat) (u : RDIM_UDT) : Prop :=
  u.self_type ≤ n ∧ ∀ m ∈ u.members, m.type ≤ n

/-- Every reference of the two lists is null or targets a type of the type list. -/
def RefsInRange (types : List RDIM_Type) (udts : List RDIM_UDT) : Prop :=
  (∀ t ∈ types, TypeRefsInRange types.length t) ∧ (∀ u ∈ udts, UDTRefsInRange types.length u)

instance (n : Nat) (t : RDIM_Type) : Decidable (TypeRefsInRange n t) :=
  inferInstanceAs (Decidable (t.direct_type ≤ n ∧ ∀ r ∈ t.param_types.getD [], r ≤ n))

instance (n : Nat) (u : RDIM_UDT) : Decidable (UDTRefsInRange n u) :=
  inferInstanceAs (Decidable (u.self_type ≤ n ∧ ∀ m ∈ u.members, m.type ≤ n))

instance (types : List RDIM_Type) (udts : List RDIM_UDT) : Decidable (RefsInRange types udts) :=
  inferInstanceAs (Decidable ((∀ t ∈ types, TypeRefsInRange types.length t) ∧
    (∀ u ∈ udts, UDTRefsInRange types.length u)))

/-- The type the forward-map pass leaves in place of `t`: its kind is overwritten
with the null kind exactly when `t` is incomplete and its lookup found a match. -/
def supersede (K : TypeKindConsts) (name_ht : List (Option HtEntry)) (n : Nat)
    (t : RDIM_Type) : RDIM_Type :=
  if isIncompleteKind K t.kind = true ∧ (findMatch name_ht n t).isSome = true
  then { t with kind := K.NULL } else t

/-- The entry the forward-map pass leaves in `fwd_map` at the index of `t`. -/
def fwdEntry (K : TypeKindConsts) (name_ht : List (Option HtEntry)) (n : Nat)
    (t : RDIM_Type) : Nat :=
  if isIncompleteKind K t.kind then
    match findMatch name_ht n t with
    | some m => m.idx
    | none => 0
  else 0

/-- The name an entry of the name table was hashed by. -/
def entryName (e : HtEntry) : String8 :=
  if e.link_name.length ≠ 0 then e.link_name else e.name

/-- The resolver recorded a forward mapping for the type of index `r`. -/
def superseded (K : TypeKindConsts) (types : List RDIM_Type) (r : Nat) : Prop :=
  (fwdPass K types).2.getD r 0 ≠ 0

/-- The reference the resolve pass writes in place of `r`. -/
def rewritten (K : TypeKindConsts) (types : List RDIM_Type) (r : Nat) : Nat :=
  fwdApply (fwdPass K types).2 r

/-- Position by position, an array of references `new` holds `b` wherever `old` held `a`. -/
def RedirectedRefs (old new : List Nat) (a b : Nat) : Prop :=
  old.length = new.length ∧ ∀ j : Nat, old[j]? = some a → new[j]? = some b

/-- Every direct-type, parameter-type, UDT self-type and UDT member-type
reference that was `a` before the call is `b` after it. -/
def Redirected (types types' : List RDIM_Type) (udts udts' : List RDIM_UDT) (a b : Nat) : Prop :=
  RedirectedRefs (types.map (·.direct_type)) (types'.map (·.direct_type)) a b ∧
  List.Forall₂ (fun t t' => t.param_types.isSome = t'.param_types.isSome ∧
    RedirectedRefs (t.param_types.getD []) (t'.param_types.getD []) a b) types types' ∧
  RedirectedRefs (udts.map (·.self_type)) (udts'.map (·.self_type)) a b ∧
  List.Forall₂ (fun u u' =>
    RedirectedRefs (u.members.map (·.type)) (u'.members.map (·.type)) a b) udts udts'

/-- The kind values of the RDI format header, which is not among the translated
sources, used to evaluate the resolver on concrete inputs: null 0, records
`Struct` 0x2000 to `Union` 0x2002, incomplete kinds `IncompleteStruct` 0x2005
to `IncompleteEnum` 0x2008.  The evaluations below only rely on the null
kind, the record kinds and the incomplete kinds being three disjoint sets. -/
def rdiKinds : TypeKindConsts :=
  { NULL := 0, FirstUserDefined := 0x2000, LastRecord := 0x2002,
    FirstIncomplete := 0x2005, LastIncomplete := 0x2008 }

/-- Sample type list: a complete struct `Foo`, an incomplete struct `Foo`, and a
function type whose direct type and parameters refer to both. -/
def sampleTypes : List RDIM_Type :=
  [ { kind := 0x2000, name := [70, 111, 111], link_name := [], direct_type := 0,
      param_types := none },
    { kind := 0x2005, name := [70, 111, 111], link_name := [], direct_type := 0,
      param_types := none },
    { kind := 0x1005, name := [], link_name := [], direct_type := 2,
      param_types := some [2, 1, 0] } ]

/-- Sample UDT list over `sampleTypes`: one UDT whose self type and one member
refer to the incomplete struct. -/
def sampleUDTs : List RDIM_UDT :=
  [ { self_type := 2, members := [{ type := 2 }, { type := 3 }] } ]

/-- Input on which a name match does not resolve: a complete struct named `Foo`
with link name `L`, an incomplete struct named `Foo` without link name, and a
pointer type, a parameter list and a UDT that refer to the incomplete struct. -/
def linkedTypes : List RDIM_Type :=
  [ { kind := 0x2000, name := [70, 111, 111], link_name := [76], direct_type := 0,
      param_types := none },
    { kind := 0x2005, name := [70, 111, 111], link_name := [], direct_type := 0,
      param_types := none },
    { kind := 0x1001, name := [], link_name := [], direct_type := 2,
      param_types := some [2] } ]

/-- UDT list over `linkedTypes`: self type and member refer to the incomplete struct. -/
def linkedUDTs : List RDIM_UDT :=
  [ { self_type := 2, members := [{ type := 2 }] } ]

/-- Input with an incomplete struct that has no complete counterpart, and a pointer
to it. -/
def lonelyTypes : List RDIM_Type :=
  [ { kind := 0x2005, name := [70, 111, 111], link_name := [], direct_type := 0,
      param_types := none },
    { kind := 0x1001, name := [], link_name := [], direct_type := 1,
      param_types := none } ]

/-- Input with two complete structs of resolving name `X`: the first is named `X`
and has no link name, the second is named `Y` with link name `X`; an
incomplete struct named `Y` with link name `X`; and a pointer to it. -/
def sharedNameTypes : List RDIM_Type :=
  [ { kind := 0x2000, name := [88], link_name := [], direct_type := 0, param_types := none },
    { kind := 0x2000, name := [89], link_name := [88], direct_type := 0, param_types := none },
    { kind := 0x2005, name := [89], link_name := [88], direct_type := 0, param_types := none },
    { kind := 0x1001, name := [], link_name := [], direct_type := 3, param_types := some [3] } ]

/-- Input on which an incomplete type is mapped to a record of another resolving
name: a complete struct named `A` without link name, an incomplete struct
named `A` with link name `D` (both names hash to slot 2 of 3), and a pointer
to the incomplete struct. -/
def crossNameTypes : List RDIM_Type :=
  [ { kind := 0x2000, name := [65], link_name := [], direct_type := 0, param_types := none },
    { kind := 0x2005, name := [65], link_name := [68], direct_type := 0, param_types := none },
    { kind := 0x1001, name := [], link_name := [], direct_type := 2, param_types := none } ]

/-- Input with a tie: a pointer to the incomplete struct, then a complete struct
named `X` and a complete union named `X`, both without link name, then an
incomplete struct named `X` without link name. -/
def tiedTypes : List RDIM_Type :=
  [ { kind := 0x1001, name := [], link_name := [], direct_type := 4, param_types := none },
    { kind := 0x2000, name := [88], link_name := [], direct_type := 0, param_types := none },
    { kind := 0x2002, name := [88], link_name := [], direct_type := 0, param_types := none },
    { kind := 0x2005, name := [88], link_name := [], direct_type := 0, param_types := none } ]

/-- UDT list over `tiedTypes`: a UDT of the union with a member of the incomplete
struct type. -/
def tiedUDTs : List RDIM_UDT :=
  [ { self_type := 3, members := [{ type := 4 }] } ]

/-- Input on which a complete struct is shadowed in the name table: a complete
struct named `Y` with link name `X`, a complete struct named `X` without
link name, an incomplete struct named `X` without link name, and a pointer
to the incomplete struct. -/
def shadowedTypes : List RDIM_Type :=
  [ { kind := 0x2000, name := [89], link_name := [88], direct_type := 0, param_types := none },
    { kind := 0x2000, name := [88], link_name := [], direct_type := 0, param_types := none },
    { kind := 0x2005, name := [88], link_name := [], direct_type := 0, param_types := none },
    { kind := 0x1001, name := [], link_name := [], direct_type := 3, param_types := none } ]

/-- UDT list over `shadowedTypes`: a UDT with a member of the incomplete struct type. -/
def shadowedUDTs : List RDIM_UDT :=
  [ { self_type := 1, members := [{ type := 3 }] } ]

/-- The types of `shadowedTypes` with the two complete structs in the other order. -/
def swappedTypes : List RDIM_Type :=
  [ { kind := 0x2000, name := [88], link_name := [], direct_type := 0, param_types := none },
    { kind := 0x2000, name := [89], link_name := [88], direct_type := 0, param_types := none },
    { kind := 0x2005, name := [88], link_name := [], direct_type := 0, param_types := none },
    { kind := 0x1001, name := [], link_name := [], direct_type := 3, param_types := none } ]

end RDIM

namespace RDIM

/-! ## The resolve pass as a rewrite by the forward map -/

theorem fwdRef_eq (fwd : List Nat) (r : Nat) (h : r < fwd.length) :
    fwdRef fwd r = some (fwdApply fwd r) := by
  unfold fwdRef fwdApply
  rw [List.getD_eq_getElem?_getD, List.getElem?_eq_getElem h]
  simp only [Option.getD_some]
  split <;> rfl

theorem fwdRefs_eq (fwd : List Nat) (rs : List Nat) (h : ∀ r ∈ rs, r < fwd.length) :
    fwdRefs fwd rs = some (rs.map (fwdApply fwd)) := by
  induction rs with
  | nil => rfl
  | cons r rs ih =>
    have h1 : r < fwd.length := h r (List.mem_cons_self _ _)
    have h2 : ∀ x ∈ rs, x < fwd.length := fun x hx => h x (List.mem_cons_of_mem _ hx)
    simp only [fwdRefs, fwdRef_eq fwd r h1, ih h2, List.map_cons]

/-- The type the resolve pass leaves in place of `t`. -/
theorem resolveType_eq (fwd : List Nat) (n : Nat) (t : RDIM_Type) (hn : n < fwd.length)
    (h0 : fwd.getD 0 0 = 0) (ht : TypeRefsInRange n t) :
    resolveType fwd t = some { t with direct_type := fwdApply fwd t.direct_type,
                                      param_types := t.param_types.map (List.map (fwdApply fwd)) } := by
  obtain ⟨hd, hp⟩ := ht
  have hd' : (if t.direct_type ≠ 0 then fwdRef fwd t.direct_type else some t.direct_type)
      = some (fwdApply fwd t.direct_type) := by
    by_cases hz : t.direct_type = 0
    · rw [List.getD_eq_getElem?_getD] at h0
      simp [hz, fwdApply, h0]
    · simp only [ne_eq, hz, not_false_eq_true, if_true]
      exact fwdRef_eq fwd _ (by omega)
  unfold resolveType
  rw [hd']
  cases hps : t.param_types with
  | none => simp
  | some ps =>
    have : ∀ r ∈ ps, r < fwd.length := by
      intro r hr
      have := hp r (by simp [hps, hr])
      omega
    simp [fwdRefs_eq fwd ps this]

theorem resolveTypes_eq (fwd : List Nat) (n : Nat) (ts : List RDIM_Type) (hn : n < fwd.length)
    (h0 : fwd.getD 0 0 = 0) (hts : ∀ t ∈ ts, TypeRefsInRange n t) :
    resolveTypes fwd ts = some (ts.map (fun t =>
      { t with direct_type := fwdApply fwd t.direct_type,
               param_types := t.param_types.map (List.map (fwdApply fwd)) })) := by
  induction ts with
  | nil => rfl
  | cons t ts ih =>
    have h1 := resolveType_eq fwd n t hn h0 (hts t (List.mem_cons_self _ _))
    have h2 := ih (fun x hx => hts x (List.mem_cons_of_mem _ hx))
    simp only [resolveTypes, h1, h2, List.map_cons]

theorem resolveMembers_eq (fwd : List Nat) (ms : List RDIM_UDTMember)
    (h : ∀ m ∈ ms, m.type < fwd.length) :
    resolveMembers fwd ms = some (ms.map (fun m => { m with type := fwdApply fwd m.type })) := by
  induction ms with
  | nil => rfl
  | cons m ms ih =>
    have h1 : m.type < fwd.length := h m (List.mem_cons_self _ _)
    have h2 := ih (fun x hx => h x (List.mem_cons_of_mem _ hx))
    simp only [resolveMembers, fwdRef_eq fwd _ h1, h2, List.map_cons]

theorem resolveUDTs_eq (fwd : List Nat) (n : Nat) (us : List RDIM_UDT) (hn : n < fwd.length)
    (hus : ∀ u ∈ us, UDTRefsInRange n u) :
    resolveUDTs fwd us = some (us.map (fun u =>
      { self_type := fwdApply fwd u.self_type,
        members := u.members.map (fun m => { m with type := fwdApply fwd m.type }) })) := by
  induction us with
  | nil => rfl
  | cons u us ih =>
    obtain ⟨hs, hm⟩ := hus u (List.mem_cons_self _ _)
    have h1 : fwdRef fwd u.self_type = some (fwdApply fwd u.self_type) :=
      fwdRef_eq fwd _ (by omega)
    have h2 := resolveMembers_eq fwd u.members (fun m hm' => by have := hm m hm'; omega)
    have h3 := ih (fun x hx => hus x (List.mem_cons_of_mem _ hx))
    simp only [resolveUDTs, resolveUDT, h1, h2, h3, List.map_cons]

/-! ## The forward-map pass -/

theorem getD_set_self (l : List Nat) (k v : Nat) (h : k < l.length) :
    (l.set k v).getD k 0 = v := by
  rw [List.getD_eq_getElem?_getD, List.getElem?_set]
  simp [h]

theorem getD_set_ne (l : List Nat) (k j v : Nat) (h : k ≠ j) :
    (l.set k v).getD j 0 = l.getD j 0 := by
  rw [List.getD_eq_getElem?_getD, List.getD_eq_getElem?_getD, List.getElem?_set]
  simp [h]

theorem makeFwdMap_fst (K : TypeKindConsts) (ht : List (Option HtEntry)) (n : Nat)
    (ts : List RDIM_Type) (i : Nat) (fwd : List Nat) :
    (makeFwdMap K ht n ts i fwd).1 = ts.map (supersede K ht n) := by
  induction ts generalizing i fwd with
  | nil => rfl
  | cons t rest ih =>
    unfold makeFwdMap
    by_cases hk : isIncompleteKind K t.kind = true
    · cases hm : findMatch ht n t with
      | none => simp [hk, hm, ih, supersede]
      | some m => simp [hk, hm, ih, supersede]
    · simp [hk, ih, supersede]

theorem makeFwdMap_snd_length (K : TypeKindConsts) (ht : List (Option HtEntry)) (n : Nat)
    (ts : List RDIM_Type) (i : Nat) (fwd : List Nat) :
    (makeFwdMap K ht n ts i fwd).2.length = fwd.length := by
  induction ts generalizing i fwd with
  | nil => rfl
  | cons t rest ih =>
    unfold makeFwdMap
    by_cases hk : isIncompleteKind K t.kind = true
    · cases hm : findMatch ht n t with
      | none => simp [hk, ih]
      | some m => simp [hk, ih]
    · simp [hk, ih]

theorem makeFwdMap_snd_low (K : TypeKindConsts) (ht : List (Option HtEntry)) (n : Nat)
    (ts : List RDIM_Type) (i : Nat) (fwd : List Nat) (k : Nat) (hk : k ≤ i) :
    (makeFwdMap K ht n ts i fwd).2.getD k 0 = fwd.getD k 0 := by
  induction ts generalizing i fwd with
  | nil => rfl
  | cons t rest ih =>
    unfold makeFwdMap
    by_cases hkind : isIncompleteKind K t.kind = true
    · cases hm : findMatch ht n t with
      | none => simp only [hkind, if_true]; exact ih (i + 1) fwd (by omega)
      | some m =>
        simp only [hkind, if_true]
        rw [ih (i + 1) _ (by omega)]
        exact getD_set_ne fwd (i + 1) k m.idx (by omega)
    · simp only [hkind]; exact ih (i + 1) fwd (by omega)

theorem makeFwdMap_snd_at (K : TypeKindConsts) (ht : List (Option HtEntry)) (n : Nat)
    (ts : List RDIM_Type) (i : Nat) (fwd : List Nat) (hlen : i + ts.length < fwd.length)
    (hz : ∀ k, i < k → fwd.getD k 0 = 0) (j : Nat) (t : RDIM_Type) (hj : ts[j]? = some t) :
    (makeFwdMap K ht n ts i fwd).2.getD (i + 1 + j) 0 = fwdEntry K ht n t := by
  induction ts generalizing i fwd j with
  | nil => simp at hj
  | cons t0 rest ih =>
    simp only [List.length_cons] at hlen
    cases j with
    | zero =>
      simp only [List.getElem?_cons_zero, Option.some.injEq] at hj
      subst hj
      unfold makeFwdMap fwdEntry
      by_cases hkind : isIncompleteKind K t0.kind = true
      · cases hm : findMatch ht n t0 with
        | none =>
          simp only [hkind, if_true]
          rw [makeFwdMap_snd_low K ht n rest (i + 1) fwd (i + 1 + 0) (by omega)]
          exact hz _ (by omega)
        | some m =>
          simp only [hkind, if_true]
          rw [makeFwdMap_snd_low K ht n rest (i + 1) _ (i + 1 + 0) (by omega)]
          exact getD_set_self fwd (i + 1) m.idx (by omega)
      · simp only [hkind, Bool.false_eq_true, if_false]
        rw [makeFwdMap_snd_low K ht n rest (i + 1) fwd (i + 1 + 0) (by omega)]
        exact hz _ (by omega)
    | succ j =>
      simp only [List.getElem?_cons_succ] at hj
      have e : i + 1 + (j + 1) = (i + 1) + 1 + j := by omega
      rw [e]
      unfold makeFwdMap
      by_cases hkind : isIncompleteKind K t0.kind = true
      · cases hm : findMatch ht n t0 with
        | none =>
          simp only [hkind, if_true]
          exact ih (i + 1) fwd (by omega) (fun k hk => hz k (by omega)) j hj
        | some m =>
          simp only [hkind, if_true]
          refine ih (i + 1) _ (by simp; omega) (fun k hk => ?_) j hj
          rw [getD_set_ne fwd (i + 1) k m.idx (by omega)]
          exact hz k (by omega)
      · simp only [hkind]
        exact ih (i + 1) fwd (by omega) (fun k hk => hz k (by omega)) j hj

theorem getD_replicate_zero (m k : Nat) : (List.replicate m 0).getD k 0 = 0 := by
  rw [List.getD_eq_getElem?_getD, List.getElem?_replicate]
  split <;> rfl

theorem fwdPass_fst (K : TypeKindConsts) (types : List RDIM_Type) :
    (fwdPass K types).1 = types.map (supersede K (nameTable K types) types.length) :=
  makeFwdMap_fst K _ _ types 0 _

theorem fwdPass_snd_length (K : TypeKindConsts) (types : List RDIM_Type) :
    (fwdPass K types).2.length = types.length + 1 := by
  unfold fwdPass
  rw [makeFwdMap_snd_length]
  simp

theorem fwdPass_snd_zero (K : TypeKindConsts) (types : List RDIM_Type) :
    (fwdPass K types).2.getD 0 0 = 0 := by
  unfold fwdPass
  rw [makeFwdMap_snd_low K _ _ types 0 _ 0 (le_refl 0)]
  exact getD_replicate_zero _ _

theorem fwdPass_snd_at (K : TypeKindConsts) (types : List RDIM_Type) (j : Nat) (t : RDIM_Type)
    (hj : types[j]? = some t) :
    (fwdPass K types).2.getD (j + 1) 0 = fwdEntry K (nameTable K types) types.length t := by
  have h := makeFwdMap_snd_at K (nameTable K types) types.length types 0
    (List.replicate (types.length + 1) 0) (by simp) (fun k _ => getD_replicate_zero _ k) j t hj
  have e : 0 + 1 + j = j + 1 := by omega
  rw [e] at h
  exact h

theorem fwdPass_snd_high (K : TypeKindConsts) (types : List RDIM_Type) (k : Nat)
    (hk : types.length < k) : (fwdPass K types).2.getD k 0 = 0 := by
  rw [List.getD_eq_getElem?_getD, List.getElem?_eq_none]
  · rfl
  · rw [fwdPass_snd_length]; omega

/-- The resolver returns whenever every reference is in range, and its result is
the forward-map pass followed by the rewrite of every reference. -/
theorem resolve_eq_some (K : TypeKindConsts) (types : List RDIM_Type) (udts : List RDIM_UDT)
    (h : RefsInRange types udts) :
    rdim_local_resolve_incomplete_types K types udts = some
      ((types.map (supersede K (nameTable K types) types.length)).map (fun t =>
          { t with direct_type := rewritten K types t.direct_type,
                   param_types := t.param_types.map (List.map (rewritten K types)) }),
       udts.map (fun u =>
          { self_type := rewritten K types u.self_type,
            members := u.members.map (fun m => { m with type := rewritten K types m.type }) })) := by
  have hlen : types.length < (fwdPass K types).2.length := by rw [fwdPass_snd_length]; omega
  have hT : ∀ t ∈ (fwdPass K types).1, TypeRefsInRange types.length t := by
    intro t ht
    rw [fwdPass_fst, List.mem_map] at ht
    obtain ⟨t0, ht0, rfl⟩ := ht
    have := h.1 t0 ht0
    unfold supersede
    split
    · exact this
    · exact this
  unfold rdim_local_resolve_incomplete_types
  rw [resolveTypes_eq _ types.length _ hlen (fwdPass_snd_zero K types) hT,
    resolveUDTs_eq _ types.length _ hlen h.2, fwdPass_fst]
  rfl

/-! ## The name table -/

theorem optGetD_set_self (l : List (Option HtEntry)) (k : Nat) (v : Option HtEntry)
    (h : k < l.length) : (l.set k v).getD k none = v := by
  rw [List.getD_eq_getElem?_getD, List.getElem?_set]
  simp [h]

theorem optGetD_set_ne (l : List (Option HtEntry)) (k j : Nat) (v : Option HtEntry)
    (h : k ≠ j) : (l.set k v).getD j none = l.getD j none := by
  rw [List.getD_eq_getElem?_getD, List.getD_eq_getElem?_getD, List.getElem?_set]
  simp [h]

theorem optGetD_replicate (m k : Nat) :
    (List.replicate m (none : Option HtEntry)).getD k none = none := by
  rw [List.getD_eq_getElem?_getD, List.getElem?_replicate]
  split <;> rfl

theorem optGetD_lt_of_some (l : List (Option HtEntry)) (k : Nat) (e : HtEntry)
    (h : l.getD k none = some e) : k < l.length := by
  by_contra hc
  rw [List.getD_eq_getElem?_getD, List.getElem?_eq_none (by omega)] at h
  simp at h

/-- A match returned by the lookup probe is an entry of the table that passes
the match test. -/
theorem lookupProbe_some (ht : List (Option HtEntry)) (m best : Nat) (t : RDIM_Type)
    (fuel slot : Nat) (e : HtEntry) (h : lookupProbe ht m best t fuel slot = some e) :
    ∃ s, ht.getD s none = some e ∧ lookupMatches e t = true := by
  induction fuel generalizing slot with
  | zero => simp [lookupProbe] at h
  | succ fuel ih =>
    unfold lookupProbe at h
    cases hs : ht.getD slot none with
    | none => rw [hs] at h; cases h
    | some s0 =>
      simp only [hs] at h
      by_cases hm : lookupMatches s0 t = true
      · simp only [hm, if_true, Option.some.injEq] at h
        subst h
        exact ⟨slot, hs, hm⟩
      · simp only [hm, Bool.false_eq_true, if_false] at h
        by_cases hw : (slot + 1) % m ≠ best
        · simp only [hw, ne_eq, not_false_eq_true, if_true] at h
          exact ih _ h
        · simp [hw] at h

theorem buildHashTable_length (K : TypeKindConsts) (n : Nat) (ts : List RDIM_Type) (i : Nat)
    (ht : List (Option HtEntry)) : (buildHashTable K n ts i ht).length = ht.length := by
  induction ts generalizing i ht with
  | nil => rfl
  | cons t rest ih =>
    unfold buildHashTable
    simp only
    split
    · split
      · rw [ih]; simp
      · rw [ih]
    · rw [ih]

/-- An occupied slot is never overwritten by the table-building pass. -/
theorem buildHashTable_mono (K : TypeKindConsts) (n : Nat) (ts : List RDIM_Type) (i : Nat)
    (ht : List (Option HtEntry)) (s : Nat) (e : HtEntry) (h : ht.getD s none = some e) :
    (buildHashTable K n ts i ht).getD s none = some e := by
  induction ts generalizing i ht with
  | nil => exact h
  | cons t rest ih =>
    unfold buildHashTable
    simp only
    split
    · split
      · rename_i hempty
        apply ih
        rw [optGetD_set_ne]
        · exact h
        · intro hc
          rw [hc, h] at hempty
          simp at hempty
      · exact ih _ _ h
    · exact ih _ _ h

/-- Every entry of the table after the pass was there before it or is the entry
of a type of record kind met by the pass. -/
theorem buildHashTable_entries (K : TypeKindConsts) (n : Nat) (ts : List RDIM_Type) (i : Nat)
    (ht : List (Option HtEntry)) (s : Nat) (e : HtEntry)
    (h : (buildHashTable K n ts i ht).getD s none = some e) :
    ht.getD s none = some e ∨
      ∃ j t, ts[j]? = some t ∧ isRecordKind K t.kind = true ∧
        e = ⟨i + j + 1, t.name, t.link_name⟩ := by
  induction ts generalizing i ht with
  | nil => exact Or.inl h
  | cons t rest ih =>
    unfold buildHashTable at h
    simp only at h
    have lift : ∀ ht0 : List (Option HtEntry), (ht0.getD s none = some e ∨
        ∃ j t, rest[j]? = some t ∧ isRecordKind K t.kind = true ∧
          e = ⟨i + 1 + j + 1, t.name, t.link_name⟩) →
        (ht0.getD s none = some e ∨
          ∃ j t', (t :: rest)[j]? = some t' ∧ isRecordKind K t'.kind = true ∧
            e = ⟨i + j + 1, t'.name, t'.link_name⟩) := by
      intro ht0 h0
      rcases h0 with h0 | ⟨j, t', h1, h2, h3⟩
      · exact Or.inl h0
      · refine Or.inr ⟨j + 1, t', by simpa using h1, h2, ?_⟩
        rw [h3]
        have : i + 1 + j + 1 = i + (j + 1) + 1 := by omega
        rw [this]
    by_cases hk : isRecordKind K t.kind = true
    · simp only [hk, if_true] at h
      split at h
      · rcases lift _ (ih _ _ h) with h0 | h0
        · by_cases hs : insertProbe ht (n + 1) (rdim_local_hash (resolvingName t) % n) t
              (resolvingName t) (n + 1) (rdim_local_hash (resolvingName t) % n) = s
          · right
            refine ⟨0, t, by simp, hk, ?_⟩
            have hlt : s < ht.length := by
              have := optGetD_lt_of_some _ _ _ h0
              simpa using this
            rw [hs, optGetD_set_self _ _ _ hlt] at h0
            simp only [Option.some.injEq] at h0
            rw [← h0]
          · left
            rw [optGetD_set_ne _ _ _ _ hs] at h0
            exact h0
        · exact Or.inr h0
      · exact lift _ (ih _ _ h)
    · simp only [hk, Bool.false_eq_true, if_false] at h
      exact lift _ (ih _ _ h)

/-- Every entry of the name table points to a type of record kind of the list and
carries that type's names. -/
theorem nameTable_entries (K : TypeKindConsts) (types : List RDIM_Type) (s : Nat) (e : HtEntry)
    (h : (nameTable K types).getD s none = some e) :
    ∃ c t, types[c]? = some t ∧ isRecordKind K t.kind = true ∧
      e = ⟨c + 1, t.name, t.link_name⟩ := by
  rcases buildHashTable_entries K _ types 0 _ s e h with h0 | ⟨j, t, h1, h2, h3⟩
  · rw [optGetD_replicate] at h0
    simp at h0
  · refine ⟨j, t, h1, h2, ?_⟩
    rw [h3]
    simp

/-- A match found for a type is the entry of a type of record kind. -/
theorem findMatch_nameTable (K : TypeKindConsts) (types : List RDIM_Type) (t : RDIM_Type)
    (e : HtEntry) (h : findMatch (nameTable K types) types.length t = some e) :
    ∃ c tc, types[c]? = some tc ∧ isRecordKind K tc.kind = true ∧
      e = ⟨c + 1, tc.name, tc.link_name⟩ ∧ lookupMatches e t = true := by
  obtain ⟨s, hs, hm⟩ := lookupProbe_some _ _ _ _ _ _ _ h
  obtain ⟨c, tc, h1, h2, h3⟩ := nameTable_entries K types s e hs
  exact ⟨c, tc, h1, h2, h3, hm⟩

/-! ## Contract of the resolver: rewritten references and frame -/

theorem supersede_direct_type (K : TypeKindConsts) (ht : List (Option HtEntry)) (n : Nat)
    (t : RDIM_Type) : (supersede K ht n t).direct_type = t.direct_type := by
  unfold supersede; split <;> rfl

theorem supersede_param_types (K : TypeKindConsts) (ht : List (Option HtEntry)) (n : Nat)
    (t : RDIM_Type) : (supersede K ht n t).param_types = t.param_types := by
  unfold supersede; split <;> rfl

theorem supersede_name (K : TypeKindConsts) (ht : List (Option HtEntry)) (n : Nat)
    (t : RDIM_Type) : (supersede K ht n t).name = t.name := by
  unfold supersede; split <;> rfl

theorem supersede_link_name (K : TypeKindConsts) (ht : List (Option HtEntry)) (n : Nat)
    (t : RDIM_Type) : (supersede K ht n t).link_name = t.link_name := by
  unfold supersede; split <;> rfl

theorem supersede_kind (K : TypeKindConsts) (ht : List (Option HtEntry)) (n : Nat)
    (t : RDIM_Type) : (supersede K ht n t).kind =
      if isIncompleteKind K t.kind = true ∧ (findMatch ht n t).isSome = true
      then K.NULL else t.kind := by
  unfold supersede; split <;> rfl

theorem kinds_disjoint (K : TypeKindConsts)
    (hK : K.LastRecord < K.FirstIncomplete ∨ K.LastIncomplete < K.FirstUserDefined)
    (k : Nat) (h : isRecordKind K k = true) : isIncompleteKind K k = false := by
  unfold isRecordKind at h
  unfold isIncompleteKind
  simp only [Bool.and_eq_true, decide_eq_true_eq] at h
  simp only [Bool.and_eq_false_iff, decide_eq_false_iff_not]
  omega

/-- A non-null forward-map entry is the index of a type of record kind. -/
theorem fwd_entry_target (K : TypeKindConsts) (types : List RDIM_Type) (r : Nat)
    (h : (fwdPass K types).2.getD r 0 ≠ 0) :
    ∃ j T e c C, r = j + 1 ∧ types[j]? = some T ∧ isIncompleteKind K T.kind = true ∧
      findMatch (nameTable K types) types.length T = some e ∧
      (fwdPass K types).2.getD r 0 = e.idx ∧
      types[c]? = some C ∧ isRecordKind K C.kind = true ∧
      e = ⟨c + 1, C.name, C.link_name⟩ ∧ lookupMatches e T = true := by
  cases r with
  | zero => exact absurd (fwdPass_snd_zero K types) h
  | succ j =>
    by_cases hj : j < types.length
    · have hT : types[j]? = some types[j] := List.getElem?_eq_getElem hj
      have hv := fwdPass_snd_at K types j _ hT
      rw [hv] at h ⊢
      unfold fwdEntry at h ⊢
      by_cases hinc : isIncompleteKind K types[j].kind = true
      · simp only [hinc, if_true] at h ⊢
        cases hm : findMatch (nameTable K types) types.length types[j] with
        | none => rw [hm] at h; exact absurd rfl h
        | some e =>
          obtain ⟨c, C, h1, h2, h3, h4⟩ := findMatch_nameTable K types _ e hm
          exact ⟨j, _, e, c, C, rfl, hT, hinc, hm, rfl, h1, h2, h3, h4⟩
      · simp only [hinc, Bool.false_eq_true, if_false] at h
        exact absurd rfl h
    · exact absurd (fwdPass_snd_high K types (j + 1) (by omega)) h

/-- C3: when every reference is null or targets a type of the list, the resolver
returns, and in its result every direct-type, parameter-type, UDT self-type and
UDT member-type reference is the rewrite of the reference it replaces: the
mapped type, a type of record kind, when the target was superseded, the same
reference otherwise; the record kinds and the incomplete kinds being disjoint
ranges, no rewritten reference targets a superseded type. -/
theorem resolve_rewrites_superseded_refs (K : TypeKindConsts) (types : List RDIM_Type)
    (udts : List RDIM_UDT)
    (hK : K.LastRecord < K.FirstIncomplete ∨ K.LastIncomplete < K.FirstUserDefined)
    (h : RefsInRange types udts) :
    ∃ types' udts', rdim_local_resolve_incomplete_types K types udts = some (types', udts') ∧
      types'.map (·.direct_type) = types.map (fun t => rewritten K types t.direct_type) ∧
      types'.map (·.param_types)
        = types.map (fun t => t.param_types.map (List.map (rewritten K types))) ∧
      udts'.map (·.self_type) = udts.map (fun u => rewritten K types u.self_type) ∧
      udts'.map (fun u => u.members.map (·.type))
        = udts.map (fun u => u.members.map (fun m => rewritten K types m.type)) ∧
      (∀ r, superseded K types r → rewritten K types r = (fwdPass K types).2.getD r 0) ∧
      (∀ r, superseded K types r → ∃ c C, (fwdPass K types).2.getD r 0 = c + 1 ∧
        types[c]? = some C ∧ isRecordKind K C.kind = true) ∧
      (∀ r, ¬ superseded K types r → rewritten K types r = r) ∧
      (∀ r, ¬ superseded K types (rewritten K types r)) := by
  refine ⟨_, _, resolve_eq_some K types udts h, ?_, ?_, ?_, ?_, ?_, ?_, ?_, ?_⟩
  · simp [List.map_map, Function.comp_def, supersede_direct_type]
  · simp [List.map_map, Function.comp_def, supersede_param_types]
  · simp [List.map_map, Function.comp_def]
  · simp [List.map_map, Function.comp_def]
  · intro r hr
    unfold superseded at hr
    unfold rewritten fwdApply
    rw [if_pos hr]
  · intro r hr
    obtain ⟨j, T, e, c, C, _, _, _, _, hv, hC, hrec, he, _⟩ := fwd_entry_target K types r hr
    exact ⟨c, C, by rw [hv, he], hC, hrec⟩
  · intro r hr
    unfold superseded at hr
    unfold rewritten fwdApply
    rw [if_neg hr]
  · intro r
    unfold superseded rewritten fwdApply
    by_cases hr : (fwdPass K types).2.getD r 0 ≠ 0
    · rw [if_pos hr]
      obtain ⟨j, T, e, c, C, _, _, _, _, hv, hC, hrec, he, _⟩ := fwd_entry_target K types r hr
      rw [hv, he]
      simp only [ne_eq, not_not]
      rw [fwdPass_snd_at K types c C hC]
      unfold fwdEntry
      rw [kinds_disjoint K hK _ hrec]
      simp
    · rw [if_neg hr]
      exact hr

/-- Witness of C3 on the sample lists with the RDI kind values. -/
theorem resolve_rewrites_superseded_refs_witness :
    ∃ types' udts',
      rdim_local_resolve_incomplete_types rdiKinds sampleTypes sampleUDTs = some (types', udts') ∧
      types'.map (·.direct_type)
        = sampleTypes.map (fun t => rewritten rdiKinds sampleTypes t.direct_type) ∧
      types'.map (·.param_types)
        = sampleTypes.map (fun t => t.param_types.map (List.map (rewritten rdiKinds sampleTypes))) ∧
      udts'.map (·.self_type)
        = sampleUDTs.map (fun u => rewritten rdiKinds sampleTypes u.self_type) ∧
      udts'.map (fun u => u.members.map (·.type))
        = sampleUDTs.map (fun u => u.members.map (fun m => rewritten rdiKinds sampleTypes m.type)) ∧
      (∀ r, superseded rdiKinds sampleTypes r →
        rewritten rdiKinds sampleTypes r = (fwdPass rdiKinds sampleTypes).2.getD r 0) ∧
      (∀ r, superseded rdiKinds sampleTypes r →
        ∃ c C, (fwdPass rdiKinds sampleTypes).2.getD r 0 = c + 1 ∧
          sampleTypes[c]? = some C ∧ isRecordKind rdiKinds C.kind = true) ∧
      (∀ r, ¬ superseded rdiKinds sampleTypes r → rewritten rdiKinds sampleTypes r = r) ∧
      (∀ r, ¬ superseded rdiKinds sampleTypes (rewritten rdiKinds sampleTypes r)) :=
  resolve_rewrites_superseded_refs rdiKinds sampleTypes sampleUDTs (by decide) (by decide)

/-- C5: the resolver keeps the number of types and of UDTs and every name and link
name, position by position, and the kind of a type is the null kind when the
type was incomplete and its lookup found a match, and its old kind otherwise. -/
theorem resolve_frame (K : TypeKindConsts) (types : List RDIM_Type) (udts : List RDIM_UDT)
    (h : RefsInRange types udts) :
    ∃ types' udts', rdim_local_resolve_incomplete_types K types udts = some (types', udts') ∧
      types'.length = types.length ∧ udts'.length = udts.length ∧
      types'.map (·.name) = types.map (·.name) ∧
      types'.map (·.link_name) = types.map (·.link_name) ∧
      types'.map (·.kind) = types.map (fun t =>
        if isIncompleteKind K t.kind = true ∧
            (findMatch (nameTable K types) types.length t).isSome = true
        then K.NULL else t.kind) := by
  refine ⟨_, _, resolve_eq_some K types udts h, ?_, ?_, ?_, ?_, ?_⟩
  · simp
  · simp
  · simp [List.map_map, Function.comp_def, supersede_name]
  · simp [List.map_map, Function.comp_def, supersede_link_name]
  · simp [List.map_map, Function.comp_def, supersede_kind]

/-- Witness of C5 on the sample lists with the RDI kind values. -/
theorem resolve_frame_witness :
    ∃ types' udts',
      rdim_local_resolve_incomplete_types rdiKinds sampleTypes sampleUDTs = some (types', udts') ∧
      types'.length = sampleTypes.length ∧ udts'.length = sampleUDTs.length ∧
      types'.map (·.name) = sampleTypes.map (·.name) ∧
      types'.map (·.link_name) = sampleTypes.map (·.link_name) ∧
      types'.map (·.kind) = sampleTypes.map (fun t =>
        if isIncompleteKind rdiKinds t.kind = true ∧
            (findMatch (nameTable rdiKinds sampleTypes) sampleTypes.length t).isSome = true
        then rdiKinds.NULL else t.kind) :=
  resolve_frame rdiKinds sampleTypes sampleUDTs (by decide)

/-! ## Redirection of the references to one type -/

theorem redirectedRefs_map (f : Nat → Nat) (l : List Nat) (a : Nat) :
    RedirectedRefs l (l.map f) a (f a) := by
  refine ⟨by simp, fun j hj => ?_⟩
  rw [List.getElem?_map, hj]
  rfl

theorem redirectedRefs_map_map {α : Type} (g : α → Nat) (f : Nat → Nat) (l : List α) (a : Nat) :
    RedirectedRefs (l.map g) (l.map (fun x => f (g x))) a (f a) := by
  have := redirectedRefs_map f (l.map g) a
  rw [List.map_map] at this
  exact this

theorem forall₂_map_self {α : Type} (R : α → α → Prop) (f : α → α) (l : List α)
    (h : ∀ x ∈ l, R x (f x)) : List.Forall₂ R l (l.map f) := by
  induction l with
  | nil => exact List.Forall₂.nil
  | cons x xs ih =>
    exact List.Forall₂.cons (h x (List.mem_cons_self _ _))
      (ih (fun y hy => h y (List.mem_cons_of_mem _ hy)))

/-- In the result of the resolver every reference to the type of index `a` has
become the rewrite of `a`. -/
theorem redirected_of_rewritten (K : TypeKindConsts) (types : List RDIM_Type)
    (udts : List RDIM_UDT) (a : Nat) :
    Redirected types
      ((types.map (supersede K (nameTable K types) types.length)).map (fun t =>
          { t with direct_type := rewritten K types t.direct_type,
                   param_types := t.param_types.map (List.map (rewritten K types)) }))
      udts
      (udts.map (fun u =>
          { self_type := rewritten K types u.self_type,
            members := u.members.map (fun m => { m with type := rewritten K types m.type }) }))
      a (rewritten K types a) := by
  refine ⟨?_, ?_, ?_, ?_⟩
  · have := redirectedRefs_map_map (fun t : RDIM_Type => t.direct_type) (rewritten K types) types a
    simpa [List.map_map, Function.comp_def, supersede_direct_type] using this
  · rw [List.map_map]
    apply forall₂_map_self
    intro t _
    simp only [Function.comp_def, supersede_param_types]
    refine ⟨by cases t.param_types <;> rfl, ?_⟩
    cases t.param_types with
    | none => exact ⟨rfl, fun j hj => by simp at hj⟩
    | some ps => exact redirectedRefs_map _ ps a
  · have := redirectedRefs_map_map (fun u : RDIM_UDT => u.self_type) (rewritten K types) udts a
    simpa [List.map_map, Function.comp_def] using this
  · apply forall₂_map_self
    intro u _
    have := redirectedRefs_map_map (fun m : RDIM_UDTMember => m.type) (rewritten K types)
      u.members a
    simpa [List.map_map, Function.comp_def] using this

theorem resolved_kind_at (K : TypeKindConsts) (types : List RDIM_Type) (t : Nat) (T : RDIM_Type)
    (hT : types[t]? = some T) :
    (((types.map (supersede K (nameTable K types) types.length)).map (fun t =>
          { t with direct_type := rewritten K types t.direct_type,
                   param_types := t.param_types.map (List.map (rewritten K types)) }))[t]?).map
        (·.kind)
      = some (supersede K (nameTable K types) types.length T).kind := by
  simp [List.getElem?_map, hT]

/-- Contract of a found match: when the lookup of an incomplete type `T` finds an
entry, that entry is a type `C` of record kind that passes the match test
against `T`, and after the call every direct-type, parameter-type, UDT
self-type and UDT member-type reference that targeted `T` targets `C`, and
the kind of `T` is the null kind. -/
theorem resolve_matched_incomplete (K : TypeKindConsts) (types : List RDIM_Type)
    (udts : List RDIM_UDT) (t : Nat) (T : RDIM_Type) (e : HtEntry)
    (h : RefsInRange types udts) (hT : types[t]? = some T)
    (hinc : isIncompleteKind K T.kind = true)
    (hm : findMatch (nameTable K types) types.length T = some e) :
    ∃ types' udts' c C,
      rdim_local_resolve_incomplete_types K types udts = some (types', udts') ∧
      types[c]? = some C ∧ isRecordKind K C.kind = true ∧
      lookupMatches ⟨c + 1, C.name, C.link_name⟩ T = true ∧
      Redirected types types' udts udts' (t + 1) (c + 1) ∧
      (types'[t]?).map (·.kind) = some K.NULL := by
  obtain ⟨c, C, h1, h2, h3, h4⟩ := findMatch_nameTable K types T e hm
  have hrw : rewritten K types (t + 1) = c + 1 := by
    unfold rewritten fwdApply
    rw [fwdPass_snd_at K types t T hT]
    unfold fwdEntry
    simp [hinc, hm, h3]
  refine ⟨_, _, c, C, resolve_eq_some K types udts h, h1, h2, ?_, ?_, ?_⟩
  · rw [← h3]; exact h4
  · rw [← hrw]; exact redirected_of_rewritten K types udts (t + 1)
  · rw [resolved_kind_at K types t T hT, supersede_kind]
    simp [hinc, hm]

/-- The contract of a found match on the incomplete `Foo` of the sample lists. -/
theorem resolve_matched_incomplete_witness :
    ∃ types' udts' c C,
      rdim_local_resolve_incomplete_types rdiKinds sampleTypes sampleUDTs = some (types', udts') ∧
      sampleTypes[c]? = some C ∧ isRecordKind rdiKinds C.kind = true ∧
      lookupMatches ⟨c + 1, C.name, C.link_name⟩
        { kind := 0x2005, name := [70, 111, 111], link_name := [], direct_type := 0,
          param_types := none } = true ∧
      Redirected sampleTypes types' sampleUDTs udts' (1 + 1) (c + 1) ∧
      (types'[1]?).map (·.kind) = some rdiKinds.NULL :=
  resolve_matched_incomplete rdiKinds sampleTypes sampleUDTs 1
    { kind := 0x2005, name := [70, 111, 111], link_name := [], direct_type := 0,
      param_types := none }
    ⟨1, [70, 111, 111], []⟩ (by decide) (by decide) (by decide) (by decide)

/-- Evaluation on an incomplete struct named `Foo` next to a complete struct named
`Foo` that also has a link name: the call changes nothing; the incomplete
struct keeps its kind and every reference to it. -/
theorem resolve_name_match_counterexample :
    rdim_local_resolve_incomplete_types rdiKinds linkedTypes linkedUDTs
      = some (linkedTypes, linkedUDTs) ∧
    (linkedTypes[0]?).map (·.name) = (linkedTypes[1]?).map (·.name) ∧
    (linkedTypes[0]?).map (fun t => isRecordKind rdiKinds t.kind) = some true ∧
    (linkedTypes[1]?).map (fun t => isIncompleteKind rdiKinds t.kind) = some true ∧
    (linkedTypes[1]?).map (·.kind) ≠ some rdiKinds.NULL ∧
    (linkedTypes[2]?).map (·.direct_type) = some 2 := by
  decide

/-- C4 (amended): an incomplete type whose lookup finds no match keeps its kind,
and after the call every reference to it targets the same record. -/
theorem resolve_unmatched_incomplete (K : TypeKindConsts) (types : List RDIM_Type)
    (udts : List RDIM_UDT) (t : Nat) (T : RDIM_Type)
    (h : RefsInRange types udts) (hT : types[t]? = some T)
    (hinc : isIncompleteKind K T.kind = true)
    (hm : findMatch (nameTable K types) types.length T = none) :
    ∃ types' udts',
      rdim_local_resolve_incomplete_types K types udts = some (types', udts') ∧
      Redirected types types' udts udts' (t + 1) (t + 1) ∧
      (types'[t]?).map (·.kind) = some T.kind := by
  have hrw : rewritten K types (t + 1) = t + 1 := by
    unfold rewritten fwdApply
    rw [fwdPass_snd_at K types t T hT]
    unfold fwdEntry
    simp [hinc, hm]
  refine ⟨_, _, resolve_eq_some K types udts h, ?_, ?_⟩
  · have := redirected_of_rewritten K types udts (t + 1)
    rw [hrw] at this
    exact this
  · rw [resolved_kind_at K types t T hT, supersede_kind]
    simp [hm]

/-- Witness of the amended C4: the incomplete struct of `lonelyTypes`. -/
theorem resolve_unmatched_incomplete_witness :
    ∃ types' udts',
      rdim_local_resolve_incomplete_types rdiKinds lonelyTypes [] = some (types', udts') ∧
      Redirected lonelyTypes types' [] udts' (0 + 1) (0 + 1) ∧
      (types'[0]?).map (·.kind) = some 0x2005 :=
  resolve_unmatched_incomplete rdiKinds lonelyTypes [] 0
    { kind := 0x2005, name := [70, 111, 111], link_name := [], direct_type := 0,
      param_types := none }
    (by decide) (by decide) (by decide) (by decide)

/-- C4 (counterexample): an incomplete struct without a complete counterpart is
returned with its incomplete kind, which is not the null kind. -/
theorem resolve_unmatched_counterexample :
    rdim_local_resolve_incomplete_types rdiKinds lonelyTypes [] = some (lonelyTypes, []) ∧
    findMatch (nameTable rdiKinds lonelyTypes) lonelyTypes.length
      { kind := 0x2005, name := [70, 111, 111], link_name := [], direct_type := 0,
        param_types := none } = none ∧
    (lonelyTypes[0]?).map (·.kind) = some 0x2005 ∧
    (0x2005 : Nat) ≠ rdiKinds.NULL := by
  decide

/-! ## Probe sequences -/

theorem probe_step (start a m : Nat) : ((start + a) % m + 1) % m = (start + (a + 1)) % m := by
  rw [Nat.mod_add_mod, Nat.add_assoc]

theorem probe_ne_start (start j m : Nat) (hs : start < m) (h0 : 0 < j) (hj : j < m) :
    (start + j) % m ≠ start := by
  by_cases h : start + j < m
  · rw [Nat.mod_eq_of_lt h]; omega
  · rw [Nat.mod_eq_sub_mod (by omega), Nat.mod_eq_of_lt (by omega)]; omega

/-- The insertion probe stops at the first empty slot of the probe sequence when
no occupied slot before it passes a `break` test. -/
theorem insertProbe_path (ht : List (Option HtEntry)) (m start : Nat) (type : RDIM_Type)
    (name : String8) (hstart : start < m) (k : Nat) (hk : k < m)
    (hocc : ∀ k', k' < k → ∃ e, ht.getD ((start + k') % m) none = some e ∧
      insertBreaks e type name = false)
    (hempty : ht.getD ((start + k) % m) none = none) (fuel a : Nat) (ha : a ≤ k)
    (hfuel : k - a < fuel) :
    insertProbe ht m start type name fuel ((start + a) % m) = (start + k) % m := by
  induction fuel generalizing a with
  | zero => omega
  | succ fuel ih =>
    unfold insertProbe
    by_cases hak : a = k
    · subst hak
      rw [hempty]
    · obtain ⟨e, he, hb⟩ := hocc a (by omega)
      rw [he]
      simp only [hb, Bool.false_eq_true, if_false]
      rw [probe_step]
      have hne : (start + (a + 1)) % m ≠ start := probe_ne_start start (a + 1) m hstart (by omega) (by omega)
      rw [if_pos hne]
      exact ih (a + 1) (by omega) (by omega)

/-- The lookup probe returns the first entry of the probe sequence that passes the
match test when every slot before it is occupied. -/
theorem lookupProbe_path (ht : List (Option HtEntry)) (m start : Nat) (t : RDIM_Type)
    (hstart : start < m) (k : Nat) (hk : k < m) (ec : HtEntry)
    (hocc : ∀ k', k' < k → ∃ e, ht.getD ((start + k') % m) none = some e ∧
      lookupMatches e t = false)
    (hfound : ht.getD ((start + k) % m) none = some ec) (hmatch : lookupMatches ec t = true)
    (fuel a : Nat) (ha : a ≤ k) (hfuel : k - a < fuel) :
    lookupProbe ht m start t fuel ((start + a) % m) = some ec := by
  induction fuel generalizing a with
  | zero => omega
  | succ fuel ih =>
    unfold lookupProbe
    by_cases hak : a = k
    · subst hak
      rw [hfound]
      simp only [hmatch, if_true]
    · obtain ⟨e, he, hb⟩ := hocc a (by omega)
      rw [he]
      simp only [hb, Bool.false_eq_true, if_false]
      rw [probe_step]
      have hne : (start + (a + 1)) % m ≠ start := probe_ne_start start (a + 1) m hstart (by omega) (by omega)
      rw [if_pos hne]
      exact ih (a + 1) (by omega) (by omega)

/-! ## The bound on the number of probe steps -/

theorem probe_wrap (best m : Nat) (hb : best < m) : (best + m) % m = best := by
  rw [Nat.add_mod_right, Nat.mod_eq_of_lt hb]

/-- The insertion probe started `a` steps after its start slot runs at most `m - a`
loop bodies: any larger bound gives the same result. -/
theorem insertProbe_fuel (ht : List (Option HtEntry)) (m best : Nat) (type : RDIM_Type)
    (name : String8) (hb : best < m) (fuel a : Nat) (ha : a < m) (hf : m - a ≤ fuel) :
    insertProbe ht m best type name fuel ((best + a) % m)
      = insertProbe ht m best type name (m - a) ((best + a) % m) := by
  induction fuel generalizing a with
  | zero => omega
  | succ fuel ih =>
    by_cases he : m - a = fuel + 1
    · rw [he]
    · obtain ⟨k, hk⟩ : ∃ k, m - a = k + 1 := ⟨m - a - 1, by omega⟩
      rw [hk]
      unfold insertProbe
      cases hs : ht.getD ((best + a) % m) none with
      | none => rfl
      | some s0 =>
        simp only
        split
        · rfl
        · rw [probe_step]
          by_cases hw : a + 1 = m
          · rw [hw, probe_wrap best m hb]
            simp
          · have hk' : k = m - (a + 1) := by omega
            rw [hk', ih (a + 1) (by omega) (by omega)]

/-- The lookup probe started `a` steps after its start slot runs at most `m - a`
loop bodies: any larger bound gives the same result. -/
theorem lookupProbe_fuel (ht : List (Option HtEntry)) (m best : Nat) (t : RDIM_Type)
    (hb : best < m) (fuel a : Nat) (ha : a < m) (hf : m - a ≤ fuel) :
    lookupProbe ht m best t fuel ((best + a) % m)
      = lookupProbe ht m best t (m - a) ((best + a) % m) := by
  induction fuel generalizing a with
  | zero => omega
  | succ fuel ih =>
    by_cases he : m - a = fuel + 1
    · rw [he]
    · obtain ⟨k, hk⟩ : ∃ k, m - a = k + 1 := ⟨m - a - 1, by omega⟩
      rw [hk]
      unfold lookupProbe
      cases hs : ht.getD ((best + a) % m) none with
      | none => rfl
      | some s0 =>
        simp only
        split
        · rfl
        · rw [probe_step]
          by_cases hw : a + 1 = m
          · rw [hw, probe_wrap best m hb]
            simp
          · have hk' : k = m - (a + 1) := by omega
            rw [hk', ih (a + 1) (by omega) (by omega)]

/-! ## Occupancy of the name table -/

theorem exists_none_of_countP (l : List (Option HtEntry))
    (h : l.countP Option.isSome < l.length) : ∃ s, s < l.length ∧ l.getD s none = none := by
  induction l with
  | nil => simp at h
  | cons x xs ih =>
    cases x with
    | none => exact ⟨0, by simp, rfl⟩
    | some e =>
      rw [List.countP_cons] at h
      simp only [Option.isSome_some, if_true, List.length_cons] at h
      obtain ⟨s, hs, hn⟩ := ih (by omega)
      exact ⟨s + 1, by simp; omega, by simpa using hn⟩

theorem countP_set_some (l : List (Option HtEntry)) (s : Nat) (e : HtEntry) :
    (l.set s (some e)).countP Option.isSome ≤ l.countP Option.isSome + 1 := by
  induction l generalizing s with
  | nil => simp
  | cons x xs ih =>
    cases s with
    | zero =>
      simp only [List.set_cons_zero, List.countP_cons, Option.isSome_some, if_true]
      omega
    | succ s =>
      simp only [List.set_cons_succ, List.countP_cons]
      have := ih s
      omega

theorem buildHashTable_countP (K : TypeKindConsts) (n : Nat) (ts : List RDIM_Type) (i : Nat)
    (ht : List (Option HtEntry)) :
    (buildHashTable K n ts i ht).countP Option.isSome ≤ ht.countP Option.isSome + ts.length := by
  induction ts generalizing i ht with
  | nil => simp [buildHashTable]
  | cons t rest ih =>
    unfold buildHashTable
    simp only [List.length_cons]
    split
    · split
      · have h1 := ih (i + 1) (ht.set (insertProbe ht (n + 1) (rdim_local_hash (resolvingName t) % n)
          t (resolvingName t) (n + 1) (rdim_local_hash (resolvingName t) % n))
          (some ⟨i + 1, t.name, t.link_name⟩))
        have h2 := countP_set_some ht (insertProbe ht (n + 1) (rdim_local_hash (resolvingName t) % n)
          t (resolvingName t) (n + 1) (rdim_local_hash (resolvingName t) % n))
          ⟨i + 1, t.name, t.link_name⟩
        omega
      · have := ih (i + 1) ht
        omega
    · have := ih (i + 1) ht
      omega

/-- From any start slot the probe sequence reaches an empty slot, all slots before
the first such being occupied, as soon as the table has an empty slot. -/
theorem exists_first_empty (ht : List (Option HtEntry)) (m start : Nat) (hm : ht.length = m)
    (hstart : start < m) (hcount : ht.countP Option.isSome < m) :
    ∃ k, k < m ∧ ht.getD ((start + k) % m) none = none ∧
      ∀ k', k' < k → ∃ e, ht.getD ((start + k') % m) none = some e := by
  obtain ⟨s, hs, hn⟩ := exists_none_of_countP ht (by omega)
  rw [hm] at hs
  have hex : ∃ k, k < m ∧ ht.getD ((start + k) % m) none = none := by
    refine ⟨(s + m - start) % m, Nat.mod_lt _ (by omega), ?_⟩
    rw [Nat.add_mod_mod]
    have : start + (s + m - start) = s + m := by omega
    rw [this, Nat.add_mod_right, Nat.mod_eq_of_lt hs]
    exact hn
  refine ⟨Nat.find hex, (Nat.find_spec hex).1, (Nat.find_spec hex).2, ?_⟩
  intro k' hk'
  have hmin := Nat.find_min hex hk'
  have hlt : k' < m := lt_trans hk' (Nat.find_spec hex).1
  cases hc : ht.getD ((start + k') % m) none with
  | none => exact absurd ⟨hlt, hc⟩ hmin
  | some e => exact ⟨e, rfl⟩

theorem buildHashTable_append (K : TypeKindConsts) (n : Nat) (l1 l2 : List RDIM_Type) (i : Nat)
    (ht : List (Option HtEntry)) :
    buildHashTable K n (l1 ++ l2) i ht
      = buildHashTable K n l2 (i + l1.length) (buildHashTable K n l1 i ht) := by
  induction l1 generalizing i ht with
  | nil => rfl
  | cons t rest ih =>
    have e : i + (t :: rest).length = i + 1 + rest.length := by simp; omega
    rw [e]
    simp only [List.cons_append, buildHashTable]
    split
    · split
      · exact ih _ _
      · exact ih _ _
    · exact ih _ _

/-! ## The first record of a name wins -/

theorem countP_replicate_none (m : Nat) :
    (List.replicate m (none : Option HtEntry)).countP Option.isSome = 0 := by
  induction m with
  | zero => rfl
  | succ m ih => rw [List.replicate_succ, List.countP_cons, ih]; rfl

theorem insertBreaks_of_entryName_ne (e : HtEntry) (C : RDIM_Type)
    (h : entryName e ≠ C.name) : insertBreaks e C C.name = false := by
  unfold entryName at h
  unfold insertBreaks str8_match
  by_cases hl : e.link_name.length ≠ 0
  · rw [if_pos hl] at h
    rw [if_pos hl]
    exact decide_eq_false h
  · rw [if_neg hl] at h
    rw [if_neg hl]
    split
    · exact decide_eq_false h
    · rfl

theorem lookupMatches_of_entryName_ne (e : HtEntry) (T : RDIM_Type) (N : String8)
    (hTlink : T.link_name = []) (hTname : T.name = N) (h : entryName e ≠ N) :
    lookupMatches e T = false := by
  unfold entryName at h
  unfold lookupMatches str8_match
  by_cases hl : e.link_name.length ≠ 0
  · rw [if_pos hl, hTlink]
    apply decide_eq_false
    intro hc
    rw [hc] at hl
    exact hl rfl
  · rw [if_neg hl] at h
    rw [if_neg hl, hTname]
    exact decide_eq_false h

theorem findMatch_first_record_aux (K : TypeKindConsts) (n : Nat) (pre post : List RDIM_Type)
    (C T : RDIM_Type) (hn : pre.length < n) (hrec : isRecordKind K C.kind = true)
    (hClink : C.link_name = [])
    (hpre : ∀ X ∈ pre, isRecordKind K X.kind = true → resolvingName X ≠ C.name)
    (hTlink : T.link_name = []) (hTname : T.name = C.name) :
    findMatch (buildHashTable K n (pre ++ C :: post) 0 (List.replicate (n + 1) none)) n T
      = some ⟨pre.length + 1, C.name, C.link_name⟩ := by
  rw [buildHashTable_append, Nat.zero_add]
  have hlen1 : (buildHashTable K n pre 0 (List.replicate (n + 1) none)).length = n + 1 := by
    rw [buildHashTable_length]; simp
  have hcnt1 : (buildHashTable K n pre 0 (List.replicate (n + 1) none)).countP Option.isSome
      < n + 1 := by
    have := buildHashTable_countP K n pre 0 (List.replicate (n + 1) none)
    rw [countP_replicate_none] at this
    omega
  have hent1 : ∀ s e, (buildHashTable K n pre 0 (List.replicate (n + 1) none)).getD s none
      = some e → entryName e ≠ C.name := by
    intro s e he
    rcases buildHashTable_entries K n pre 0 _ s e he with h0 | ⟨j, X, h1, h2, h3⟩
    · rw [optGetD_replicate] at h0
      cases h0
    · obtain ⟨hj, hje⟩ := List.getElem?_eq_some.mp h1
      have hX : X ∈ pre := by rw [← hje]; exact List.getElem_mem hj
      have := hpre X hX h2
      rw [h3]
      exact this
  generalize buildHashTable K n pre 0 (List.replicate (n + 1) none) = ht1 at hlen1 hcnt1 hent1
  have hn0 : 0 < n := by omega
  have hstart : rdim_local_hash C.name % n < n + 1 := by
    have := Nat.mod_lt (rdim_local_hash C.name) hn0
    omega
  have hzero : (rdim_local_hash C.name % n + 0) % (n + 1) = rdim_local_hash C.name % n := by
    rw [Nat.add_zero]
    exact Nat.mod_eq_of_lt hstart
  obtain ⟨k, hk, hempty, hocc⟩ :=
    exists_first_empty ht1 (n + 1) (rdim_local_hash C.name % n) hlen1 hstart hcnt1
  have hprobe : insertProbe ht1 (n + 1) (rdim_local_hash C.name % n) C C.name (n + 1)
      (rdim_local_hash C.name % n) = (rdim_local_hash C.name % n + k) % (n + 1) := by
    have := insertProbe_path ht1 (n + 1) (rdim_local_hash C.name % n) C C.name hstart k hk
      (fun k' hk' => by
        obtain ⟨e, he⟩ := hocc k' hk'
        exact ⟨e, he, insertBreaks_of_entryName_ne e C (hent1 _ e he)⟩)
      hempty (n + 1) 0 (by omega) (by omega)
    rwa [hzero] at this
  have hrn : resolvingName C = C.name := by
    unfold resolvingName
    simp [hClink]
  have hstep : buildHashTable K n (C :: post) pre.length ht1
      = buildHashTable K n post (pre.length + 1)
          (ht1.set ((rdim_local_hash C.name % n + k) % (n + 1))
            (some ⟨pre.length + 1, C.name, C.link_name⟩)) := by
    simp only [buildHashTable, hrec, if_true, hrn, hprobe, hempty]
  rw [hstep]
  have hs1 : (rdim_local_hash C.name % n + k) % (n + 1) < ht1.length := by
    rw [hlen1]
    exact Nat.mod_lt _ (by omega)
  have hfin_k := buildHashTable_mono K n post (pre.length + 1) _ _ _
    (optGetD_set_self ht1 _ (some ⟨pre.length + 1, C.name, C.link_name⟩) hs1)
  have hmatchC : lookupMatches ⟨pre.length + 1, C.name, C.link_name⟩ T = true := by
    unfold lookupMatches str8_match
    simp [hClink, hTname]
  have hrnT : resolvingName T = C.name := by
    unfold resolvingName
    simp [hTlink, hTname]
  unfold findMatch
  simp only [hrnT]
  have := lookupProbe_path _ (n + 1) (rdim_local_hash C.name % n) T hstart k hk _
    (fun k' hk' => by
      obtain ⟨e, he⟩ := hocc k' hk'
      refine ⟨e, buildHashTable_mono K n post (pre.length + 1) _ _ _ ?_,
        lookupMatches_of_entryName_ne e T C.name hTlink hTname (hent1 _ e he)⟩
      rw [optGetD_set_ne]
      · exact he
      · intro hc
        rw [← hc, hempty] at he
        cases he)
    hfin_k hmatchC (n + 1) 0 (by omega) (by omega)
  rwa [hzero] at this

/-- The lookup of an incomplete type without link name finds the first type of
record kind hashed by its name, when that type has no link name. -/
theorem findMatch_first_record (K : TypeKindConsts) (types : List RDIM_Type) (c : Nat)
    (C T : RDIM_Type) (hC : types[c]? = some C) (hrec : isRecordKind K C.kind = true)
    (hClink : C.link_name = [])
    (hfirst : ∀ j X, j < c → types[j]? = some X → isRecordKind K X.kind = true →
      resolvingName X ≠ C.name)
    (hTlink : T.link_name = []) (hTname : T.name = C.name) :
    findMatch (nameTable K types) types.length T = some ⟨c + 1, C.name, C.link_name⟩ := by
  obtain ⟨hc, hCe⟩ := List.getElem?_eq_some.mp hC
  have hsplit : types.take c ++ C :: types.drop (c + 1) = types := by
    rw [← hCe, ← List.drop_eq_getElem_cons hc, List.take_append_drop]
  have hlen : (types.take c).length = c := by
    rw [List.length_take]; omega
  have hpre : ∀ X ∈ types.take c, isRecordKind K X.kind = true → resolvingName X ≠ C.name := by
    intro X hX hXrec
    obtain ⟨j, hj, hjX⟩ := List.getElem_of_mem hX
    have hjc : j < c := by rw [hlen] at hj; exact hj
    refine hfirst j X hjc ?_ hXrec
    rw [← hjX, List.getElem_take]
    exact List.getElem?_eq_getElem _
  have := findMatch_first_record_aux K types.length (types.take c) (types.drop (c + 1)) C T
    (by rw [hlen]; exact hc) hrec hClink hpre hTlink hTname
  rw [hsplit, hlen] at this
  exact this

/-- C6 (amended): when the first type of record kind, in the iteration order of the
type list, that is hashed by a given name has no link name, the resolver maps
every incomplete type without link name and of that name to it, whatever
other record types share the name: the forward-map entry of the incomplete
type is the index of that first record, every reference to the incomplete
type is redirected to it, and the incomplete type gets the null kind. -/
theorem resolve_first_inserted_wins (K : TypeKindConsts) (types : List RDIM_Type)
    (udts : List RDIM_UDT) (c t : Nat) (C T : RDIM_Type)
    (h : RefsInRange types udts)
    (hC : types[c]? = some C) (hrec : isRecordKind K C.kind = true)
    (hClink : C.link_name = [])
    (hfirst : ∀ j X, j < c → types[j]? = some X → isRecordKind K X.kind = true →
      resolvingName X ≠ resolvingName C)
    (hT : types[t]? = some T) (hinc : isIncompleteKind K T.kind = true)
    (hTlink : T.link_name = []) (hTname : resolvingName T = resolvingName C) :
    ∃ types' udts',
      rdim_local_resolve_incomplete_types K types udts = some (types', udts') ∧
      (fwdPass K types).2.getD (t + 1) 0 = c + 1 ∧
      Redirected types types' udts udts' (t + 1) (c + 1) ∧
      (types'[t]?).map (·.kind) = some K.NULL := by
  have hrnC : resolvingName C = C.name := by unfold resolvingName; simp [hClink]
  have hrnT : resolvingName T = T.name := by unfold resolvingName; simp [hTlink]
  rw [hrnC] at hfirst hTname
  rw [hrnT] at hTname
  have hm := findMatch_first_record K types c C T hC hrec hClink hfirst hTlink hTname
  have hfwd : (fwdPass K types).2.getD (t + 1) 0 = c + 1 := by
    rw [fwdPass_snd_at K types t T hT]
    unfold fwdEntry
    simp [hinc, hm]
  have hrw : rewritten K types (t + 1) = c + 1 := by
    unfold rewritten fwdApply
    rw [hfwd]
    simp
  refine ⟨_, _, resolve_eq_some K types udts h, hfwd, ?_, ?_⟩
  · rw [← hrw]; exact redirected_of_rewritten K types udts (t + 1)
  · rw [resolved_kind_at K types t T hT, supersede_kind]
    simp [hinc, hm]

/-- Witness of the amended C6 on a list with a tie: the struct `X` at position 1
and the union `X` at position 2 share the name of the incomplete struct at
position 3; the struct is the first type of record kind (the type before it
is a pointer), and the incomplete struct is mapped to it. -/
theorem resolve_first_inserted_wins_witness :
    (tiedTypes.map resolvingName = [[], [88], [88], [88]] ∧
      tiedTypes.map (fun x => isRecordKind rdiKinds x.kind) = [false, true, true, false]) ∧
    ∃ types' udts',
      rdim_local_resolve_incomplete_types rdiKinds tiedTypes tiedUDTs = some (types', udts') ∧
      (fwdPass rdiKinds tiedTypes).2.getD (3 + 1) 0 = 1 + 1 ∧
      Redirected tiedTypes types' tiedUDTs udts' (3 + 1) (1 + 1) ∧
      (types'[3]?).map (·.kind) = some rdiKinds.NULL :=
  ⟨by decide,
   resolve_first_inserted_wins rdiKinds tiedTypes tiedUDTs 1 3
    { kind := 0x2000, name := [88], link_name := [], direct_type := 0, param_types := none }
    { kind := 0x2005, name := [88], link_name := [], direct_type := 0, param_types := none }
    (by decide) (by decide) (by decide) (by decide)
    (fun j X hj hX hrec => by
      have hj0 : j = 0 := by omega
      subst hj0
      simp only [tiedTypes, List.getElem?_cons_zero, Option.some.injEq] at hX
      subst hX
      exact absurd hrec (by decide))
    (by decide) (by decide) (by decide) (by decide)⟩

/-- C6 (counterexample): two complete structs and an incomplete struct share the
resolving name `X`; the incomplete struct is mapped to the second complete
struct (index 2), not to the first (index 1). -/
theorem resolve_first_inserted_counterexample :
    sharedNameTypes.map resolvingName = [[88], [88], [88], []] ∧
    sharedNameTypes.map (fun t => isRecordKind rdiKinds t.kind) = [true, true, false, false] ∧
    sharedNameTypes.map (fun t => isIncompleteKind rdiKinds t.kind)
      = [false, false, true, false] ∧
    (fwdPass rdiKinds sharedNameTypes).2 = [0, 0, 0, 2, 0] ∧
    rdim_local_resolve_incomplete_types rdiKinds sharedNameTypes [] = some
      ([ { kind := 0x2000, name := [88], link_name := [], direct_type := 0, param_types := none },
         { kind := 0x2000, name := [89], link_name := [88], direct_type := 0,
           param_types := none },
         { kind := 0, name := [89], link_name := [88], direct_type := 0, param_types := none },
         { kind := 0x1001, name := [], link_name := [], direct_type := 2,
           param_types := some [2] } ], []) := by
  decide

/-- C2: for every name `N`, when the only type of record kind is a struct named `N`
without link name, and `T` is an incomplete type named `N` without link
name, the resolver returns, every reference to `T` (every `param_types` entry
in particular) has become a reference to the struct, and the kind of `T` is
the null kind. -/
theorem resolve_example_scenario (K : TypeKindConsts) (types : List RDIM_Type)
    (udts : List RDIM_UDT) (N : String8) (s t : Nat) (S T : RDIM_Type)
    (h : RefsInRange types udts)
    (hS : types[s]? = some S) (hrec : isRecordKind K S.kind = true)
    (hSname : S.name = N) (hSlink : S.link_name = [])
    (honly : ∀ j X, types[j]? = some X → isRecordKind K X.kind = true → j = s)
    (hT : types[t]? = some T) (hinc : isIncompleteKind K T.kind = true)
    (hTname : T.name = N) (hTlink : T.link_name = []) :
    ∃ types' udts',
      rdim_local_resolve_incomplete_types K types udts = some (types', udts') ∧
      List.Forall₂ (fun x x' => x.param_types.isSome = x'.param_types.isSome ∧
        RedirectedRefs (x.param_types.getD []) (x'.param_types.getD []) (t + 1) (s + 1))
        types types' ∧
      Redirected types types' udts udts' (t + 1) (s + 1) ∧
      (types'[t]?).map (·.kind) = some K.NULL := by
  have hm := findMatch_first_record K types s S T hS hrec hSlink
    (fun j X hj hX hXrec => absurd (honly j X hX hXrec) (by omega)) hTlink (by rw [hTname, hSname])
  have hrw : rewritten K types (t + 1) = s + 1 := by
    unfold rewritten fwdApply
    rw [fwdPass_snd_at K types t T hT]
    unfold fwdEntry
    simp [hinc, hm]
  have hred := redirected_of_rewritten K types udts (t + 1)
  rw [hrw] at hred
  refine ⟨_, _, resolve_eq_some K types udts h, hred.2.1, hred, ?_⟩
  rw [resolved_kind_at K types t T hT, supersede_kind]
  simp [hinc, hm]

/-- Witness of C2 on the sample lists: `Foo` is the only struct, and the incomplete
`Foo` is resolved to it. -/
theorem resolve_example_scenario_witness :
    ∃ types' udts',
      rdim_local_resolve_incomplete_types rdiKinds sampleTypes sampleUDTs = some (types', udts') ∧
      List.Forall₂ (fun x x' => x.param_types.isSome = x'.param_types.isSome ∧
        RedirectedRefs (x.param_types.getD []) (x'.param_types.getD []) (1 + 1) (0 + 1))
        sampleTypes types' ∧
      Redirected sampleTypes types' sampleUDTs udts' (1 + 1) (0 + 1) ∧
      (types'[1]?).map (·.kind) = some rdiKinds.NULL :=
  resolve_example_scenario rdiKinds sampleTypes sampleUDTs [70, 111, 111] 0 1
    { kind := 0x2000, name := [70, 111, 111], link_name := [], direct_type := 0,
      param_types := none }
    { kind := 0x2005, name := [70, 111, 111], link_name := [], direct_type := 0,
      param_types := none }
    (by decide) (by decide) (by decide) rfl rfl
    (fun j X hX hrec => by
      rcases j with _ | _ | _ | j
      · rfl
      · simp only [sampleTypes, zero_add, List.getElem?_cons_succ, List.getElem?_cons_zero,
          Option.some.injEq] at hX
        subst hX
        exact absurd hrec (by decide)
      · simp only [sampleTypes, zero_add, List.getElem?_cons_succ, List.getElem?_cons_zero,
          Option.some.injEq] at hX
        subst hX
        exact absurd hrec (by decide)
      · simp [sampleTypes] at hX)
    (by decide) (by decide) rfl rfl

/-! ## `rdim_make_top_level_info` and `rdim_compress` -/

theorem foldl_Max_ge_init (l : List RDIM_BinarySection) (a : Nat) :
    a ≤ l.foldl (fun m s => Max m s.voff_opl) a := by
  induction l generalizing a with
  | nil => exact le_refl a
  | cons x xs ih =>
    refine le_trans ?_ (ih (Max a x.voff_opl))
    unfold Max; split <;> omega

theorem foldl_Max_ge (l : List RDIM_BinarySection) (a : Nat) :
    ∀ s ∈ l, s.voff_opl ≤ l.foldl (fun m s => Max m s.voff_opl) a := by
  induction l generalizing a with
  | nil => intro s hs; cases hs
  | cons x xs ih =>
    intro s hs
    rcases List.mem_cons.mp hs with rfl | hs'
    · refine le_trans ?_ (foldl_Max_ge_init xs (Max a s.voff_opl))
      unfold Max; split <;> omega
    · exact ih (Max a x.voff_opl) s hs'

theorem foldl_Max_mem (l : List RDIM_BinarySection) (a : Nat) :
    l.foldl (fun m s => Max m s.voff_opl) a = a ∨
      ∃ s ∈ l, l.foldl (fun m s => Max m s.voff_opl) a = s.voff_opl := by
  induction l generalizing a with
  | nil => exact Or.inl rfl
  | cons x xs ih =>
    rcases ih (Max a x.voff_opl) with h | ⟨s, hs, h⟩
    · by_cases hax : a > x.voff_opl
      · left
        simp only [List.foldl_cons]
        rw [h]; unfold Max; rw [if_pos hax]
      · right
        refine ⟨x, List.mem_cons_self _ _, ?_⟩
        simp only [List.foldl_cons]
        rw [h]; unfold Max; rw [if_neg hax]
    · exact Or.inr ⟨s, List.mem_cons_of_mem _ hs, h⟩

/-- C10: for a handled architecture `rdim_make_top_level_info` returns a record whose
`exe_hash` is the given one and whose `voff_max` is the maximum of `voff_opl`
over the sections: at least every section's `voff_opl`, 0 for the empty
list, and the `voff_opl` of one of the sections for a non-empty list. -/
theorem rdim_make_top_level_info_voff_max (build_title image_name : String8) (arch : Arch)
    (exe_hash : Nat) (sections : List RDIM_BinarySection) (harch : arch ≠ Arch.other) :
    ∃ info, rdim_make_top_level_info build_title image_name arch exe_hash sections = some info ∧
      info.exe_hash = exe_hash ∧
      (∀ s ∈ sections, s.voff_opl ≤ info.voff_max) ∧
      (sections = [] → info.voff_max = 0) ∧
      (sections ≠ [] → ∃ s ∈ sections, info.voff_max = s.voff_opl) := by
  have key : (∀ s ∈ sections, s.voff_opl ≤ sections.foldl (fun m s => Max m s.voff_opl) 0) ∧
      (sections = [] → sections.foldl (fun m s => Max m s.voff_opl) 0 = 0) ∧
      (sections ≠ [] →
        ∃ s ∈ sections, sections.foldl (fun m s => Max m s.voff_opl) 0 = s.voff_opl) := by
    refine ⟨foldl_Max_ge sections 0, ?_, ?_⟩
    · intro h; rw [h]; rfl
    · intro hne
      rcases foldl_Max_mem sections 0 with h | h
      · cases hs : sections with
        | nil => exact absurd hs hne
        | cons x xs =>
          refine ⟨x, List.mem_cons_self _ _, ?_⟩
          have hx := foldl_Max_ge sections 0 x (by rw [hs]; exact List.mem_cons_self _ _)
          rw [← hs, h]
          rw [h] at hx
          omega
      · exact h
  cases arch with
  | Null => exact ⟨_, rfl, rfl, key⟩
  | x64 => exact ⟨_, rfl, rfl, key⟩
  | x86 => exact ⟨_, rfl, rfl, key⟩
  | other => exact absurd rfl harch

/-- Witness of C10: three sections on x64. -/
theorem rdim_make_top_level_info_voff_max_witness :
    ∃ info, rdim_make_top_level_info [114, 97, 100] [97] Arch.x64 77
        [⟨0x1000, 0x3000⟩, ⟨0x3000, 0x9000⟩, ⟨0x9000, 0x9800⟩] = some info ∧
      info.exe_hash = 77 ∧
      (∀ s ∈ [(⟨0x1000, 0x3000⟩ : RDIM_BinarySection), ⟨0x3000, 0x9000⟩, ⟨0x9000, 0x9800⟩],
        s.voff_opl ≤ info.voff_max) ∧
      ([(⟨0x1000, 0x3000⟩ : RDIM_BinarySection), ⟨0x3000, 0x9000⟩, ⟨0x9000, 0x9800⟩] = [] →
        info.voff_max = 0) ∧
      ([(⟨0x1000, 0x3000⟩ : RDIM_BinarySection), ⟨0x3000, 0x9000⟩, ⟨0x9000, 0x9800⟩] ≠ [] →
        ∃ s ∈ [(⟨0x1000, 0x3000⟩ : RDIM_BinarySection), ⟨0x3000, 0x9000⟩, ⟨0x9000, 0x9800⟩],
          info.voff_max = s.voff_opl) :=
  rdim_make_top_level_info_voff_max [114, 97, 100] [97] Arch.x64 77
    [⟨0x1000, 0x3000⟩, ⟨0x3000, 0x9000⟩, ⟨0x9000, 0x9800⟩] (by decide)

theorem compress_fold_spec (lzb : Nat) (encode : String8 → Nat → Nat × String8)
    (sections : List RDIM_SerializedSection) (n : Nat) (out : List RDIM_SerializedSection) :
    ((List.range n).foldl
      (fun out k => out.set k (compressSection lzb encode (sections.getD k zeroSection)))
      out).length = out.length ∧
    ∀ k, k < out.length →
      ((List.range n).foldl
        (fun out k => out.set k (compressSection lzb encode (sections.getD k zeroSection)))
        out)[k]? =
      if k < n then some (compressSection lzb encode (sections.getD k zeroSection))
      else out[k]? := by
  induction n with
  | zero => simp
  | succ n ih =>
    rw [List.range_succ, List.foldl_append]
    simp only [List.foldl_cons, List.foldl_nil, List.length_set]
    refine ⟨ih.1, fun k hk => ?_⟩
    rw [List.getElem?_set]
    by_cases hkn : n = k
    · subst hkn
      rw [if_pos rfl, if_pos (by rw [ih.1]; exact hk), if_pos (Nat.lt_succ_self n)]
    · rw [if_neg hkn, ih.2 k hk]
      by_cases h1 : k < n
      · rw [if_pos h1, if_pos (by omega)]
      · rw [if_neg h1, if_neg (by omega)]

/-- C9: the output of `rdim_compress` has one section per section kind, and for
every kind `k` its section `k` is made from the input section `k`: the
encoding is LZB, the unpacked size is the input's encoded size, and the
encoded size and the data are what the encoder returns on the input's data
and encoded size. -/
theorem rdim_compress_sections (count lzb : Nat) (encode : String8 → Nat → Nat × String8)
    (sections : List RDIM_SerializedSection) (hlen : sections.length = count) :
    (rdim_compress count lzb encode sections).length = count ∧
    ∀ (k : Nat) (src : RDIM_SerializedSection), sections[k]? = some src →
      (rdim_compress count lzb encode sections)[k]? = some
        ({ data := (encode src.data src.encoded_size).2,
           encoded_size := (encode src.data src.encoded_size).1,
           unpacked_size := src.encoded_size,
           encoding := lzb } : RDIM_SerializedSection) := by
  have h := compress_fold_spec lzb encode sections count (List.replicate count zeroSection)
  refine ⟨by simpa [rdim_compress] using h.1, fun k src hk => ?_⟩
  obtain ⟨hklt, hke⟩ := List.getElem?_eq_some.mp hk
  have hkc : k < count := by omega
  have h2 := h.2 k (by simpa using hkc)
  rw [if_pos hkc] at h2
  unfold rdim_compress
  rw [h2, List.getD_eq_getElem?_getD, hk]
  rfl

/-- Witness of C9: a bundle of two sections and the copying encoder. -/
theorem rdim_compress_sections_witness :
    (rdim_compress 2 1 copyEncoder [⟨[1, 2, 3], 3, 3, 0⟩, ⟨[], 0, 0, 0⟩]).length = 2 ∧
    ∀ (k : Nat) (src : RDIM_SerializedSection),
      [(⟨[1, 2, 3], 3, 3, 0⟩ : RDIM_SerializedSection), ⟨[], 0, 0, 0⟩][k]? = some src →
      (rdim_compress 2 1 copyEncoder [⟨[1, 2, 3], 3, 3, 0⟩, ⟨[], 0, 0, 0⟩])[k]? = some
        ({ data := (copyEncoder src.data src.encoded_size).2,
           encoded_size := (copyEncoder src.data src.encoded_size).1,
           unpacked_size := src.encoded_size,
           encoding := 1 } : RDIM_SerializedSection) :=
  rdim_compress_sections 2 1 copyEncoder [⟨[1, 2, 3], 3, 3, 0⟩, ⟨[], 0, 0, 0⟩] rfl

/-! ## The join task -/

theorem slotGetD_set_self (l : List (Option (List String8))) (k : Nat)
    (v : Option (List String8)) (h : k < l.length) : (l.set k v).getD k none = v := by
  rw [List.getD_eq_getElem?_getD, List.getElem?_set]
  simp [h]

theorem slotGetD_set_ne (l : List (Option (List String8))) (k j : Nat)
    (v : Option (List String8)) (h : k ≠ j) : (l.set k v).getD j none = l.getD j none := by
  rw [List.getD_eq_getElem?_getD, List.getD_eq_getElem?_getD, List.getElem?_set]
  simp [h]

theorem slotGetD_replicate (m k : Nat) :
    (List.replicate m (none : Option (List String8))).getD k none = none := by
  rw [List.getD_eq_getElem?_getD, List.getElem?_replicate]
  split <;> rfl

theorem joinSlot_length (src : Option RDIM_BakeStringMapLoose)
    (dst : List (Option (List String8))) (j : Nat) : (joinSlot src dst j).length = dst.length := by
  unfold joinSlot
  split
  · rfl
  · split
    · rfl
    · split
      · simp
      · split
        · simp
        · rfl

theorem joinSlot_other (src : Option RDIM_BakeStringMapLoose)
    (dst : List (Option (List String8))) (j i : Nat) (h : j ≠ i) :
    (joinSlot src dst j).getD i none = dst.getD i none := by
  unfold joinSlot
  split
  · rfl
  · split
    · rfl
    · split
      · exact slotGetD_set_ne _ _ _ _ h
      · split
        · exact slotGetD_set_ne _ _ _ _ h
        · rfl

theorem joinSlot_strings (src : Option RDIM_BakeStringMapLoose)
    (dst : List (Option (List String8))) (j : Nat) (h : j < dst.length) :
    slotStrings ((joinSlot src dst j).getD j none)
      = slotStrings (dst.getD j none) ++ srcSlotStrings src j := by
  cases src with
  | none => simp only [joinSlot, srcSlotStrings, List.append_nil]
  | some m =>
    rcases m with ⟨slots⟩
    cases slots with
    | none => simp only [joinSlot, srcSlotStrings, List.append_nil]
    | some ss =>
      simp only [joinSlot, srcSlotStrings]
      cases hd : dst.getD j none with
      | none =>
        simp only
        rw [slotGetD_set_self _ _ _ h]
        rfl
      | some d =>
        simp only
        cases hl : ss.getD j none with
        | none =>
          simp only
          rw [hd]
          simp only [slotStrings, Option.getD_some, Option.getD_none, List.append_nil]
        | some l =>
          simp only
          rw [slotGetD_set_self _ _ _ h]
          rfl

theorem joinInner_spec (src : Option RDIM_BakeStringMapLoose) (len a : Nat)
    (dst : List (Option (List String8))) :
    ((List.range' a len).foldl (fun dst i => joinSlot src dst i) dst).length = dst.length ∧
    (∀ i, (i < a ∨ a + len ≤ i) →
      ((List.range' a len).foldl (fun dst i => joinSlot src dst i) dst).getD i none
        = dst.getD i none) ∧
    (∀ i, a ≤ i → i < a + len → i < dst.length →
      slotStrings (((List.range' a len).foldl (fun dst i => joinSlot src dst i) dst).getD i none)
        = slotStrings (dst.getD i none) ++ srcSlotStrings src i) := by
  induction len generalizing a dst with
  | zero =>
    refine ⟨rfl, fun _ _ => rfl, fun i h1 h2 _ => ?_⟩
    omega
  | succ len ih =>
    rw [List.range'_succ, List.foldl_cons]
    obtain ⟨h1, h2, h3⟩ := ih (a + 1) (joinSlot src dst a)
    refine ⟨by rw [h1, joinSlot_length], ?_, ?_⟩
    · intro i hi
      rw [h2 i (by omega), joinSlot_other _ _ _ _ (by omega)]
    · intro i hia hil hid
      by_cases hi : i = a
      · subst hi
        rw [h2 i (by omega), joinSlot_strings _ _ _ hid]
      · rw [h3 i (by omega) (by omega) (by rw [joinSlot_length]; exact hid),
          joinSlot_other _ _ _ _ (by omega)]

/-- What `rdim_bake_string_map_join_work` does to the destination slots: a slot of
the range gets the strings of that slot of every source map appended, in
source-map order; a slot outside the range is left as it is. -/
theorem join_work_spec (src_maps : List (Option RDIM_BakeStringMapLoose)) (lo hi : Nat)
    (dst : List (Option (List String8))) :
    (rdim_bake_string_map_join_work src_maps dst lo hi).length = dst.length ∧
    (∀ i, (i < lo ∨ hi ≤ i) →
      (rdim_bake_string_map_join_work src_maps dst lo hi).getD i none = dst.getD i none) ∧
    (∀ i, lo ≤ i → i < hi → i < dst.length →
      slotStrings ((rdim_bake_string_map_join_work src_maps dst lo hi).getD i none)
        = slotStrings (dst.getD i none) ++ (src_maps.map (fun m => srcSlotStrings m i)).flatten) := by
  unfold rdim_bake_string_map_join_work
  induction src_maps generalizing dst with
  | nil =>
    refine ⟨rfl, fun _ _ => rfl, fun i _ _ _ => ?_⟩
    simp
  | cons m ms ih =>
    rw [List.foldl_cons]
    obtain ⟨g1, g2, g3⟩ := joinInner_spec m (hi - lo) lo dst
    obtain ⟨h1, h2, h3⟩ := ih ((List.range' lo (hi - lo)).foldl (fun dst i => joinSlot m dst i) dst)
    refine ⟨by rw [h1, g1], ?_, ?_⟩
    · intro i hi'
      rw [h2 i hi', g2 i (by omega)]
    · intro i hlo hhi hid
      rw [h3 i hlo hhi (by rw [g1]; exact hid), g3 i hlo (by omega) hid]
      simp [List.append_assoc]

/-! ## Stages made of tasks over consecutive slot ranges -/

/-- A stage that starts from `sc` default slots and runs the tasks `0 .. T-1`, task
`t` writing only slots of `[t*S, t*S+S)`: after it, every slot below both
`sc` and `T*S` satisfies what its task establishes on a default slot, and
every slot from `T*S` on is still the default. -/
theorem tasks_fold_spec {α : Type} (d : α) (S sc : Nat) (step : Nat → List α → List α)
    (Q : Nat → α → Prop) (T : Nat)
    (hlen : ∀ t dst, t < T → (step t dst).length = dst.length)
    (hout : ∀ t dst i, t < T → (i < t * S ∨ t * S + S ≤ i) →
      (step t dst).getD i d = dst.getD i d)
    (hin : ∀ t dst i, t < T → t * S ≤ i → i < t * S + S → i < sc → dst.length = sc →
      dst.getD i d = d → Q i ((step t dst).getD i d)) :
    ((List.range T).foldl (fun dst t => step t dst) (List.replicate sc d)).length = sc ∧
    ∀ i, i < sc →
      (i < T * S → Q i (((List.range T).foldl (fun dst t => step t dst)
        (List.replicate sc d)).getD i d)) ∧
      (T * S ≤ i → ((List.range T).foldl (fun dst t => step t dst)
        (List.replicate sc d)).getD i d = d) := by
  induction T with
  | zero =>
    refine ⟨by simp, fun i hi => ⟨fun h => by omega, fun _ => ?_⟩⟩
    simp only [List.range_zero, List.foldl_nil]
    rw [List.getD_eq_getElem?_getD, List.getElem?_replicate]
    split <;> rfl
  | succ T ih =>
    obtain ⟨h1, h2⟩ := ih (fun t dst ht => hlen t dst (by omega))
      (fun t dst i ht => hout t dst i (by omega))
      (fun t dst i ht => hin t dst i (by omega))
    rw [List.range_succ, List.foldl_append]
    simp only [List.foldl_cons, List.foldl_nil]
    refine ⟨by rw [hlen T _ (by omega), h1], fun i hi => ⟨fun hlt => ?_, fun hge => ?_⟩⟩
    · by_cases hiT : i < T * S
      · rw [hout T _ i (by omega) (Or.inl hiT)]
        exact (h2 i hi).1 hiT
      · have e : (T + 1) * S = T * S + S := by rw [Nat.add_mul, Nat.one_mul]
        exact hin T _ i (by omega) (by omega) (by omega) hi h1 ((h2 i hi).2 (by omega))
    · have e : (T + 1) * S = T * S + S := by rw [Nat.add_mul, Nat.one_mul]
      rw [hout T _ i (by omega) (Or.inr (by omega))]
      exact (h2 i hi).2 (by omega)

/-- After the join stage every slot holds the strings of that slot of every source
map, in source-map order. -/
theorem joinStage_spec (slots_count : Nat) (src_maps : List (Option RDIM_BakeStringMapLoose))
    (hsc : slots_count + 16384 ≤ 2 ^ 64) :
    (joinStage slots_count src_maps).length = slots_count ∧
    ∀ i, i < slots_count →
      slotStrings ((joinStage slots_count src_maps).getD i none)
        = (src_maps.map (fun m => srcSlotStrings m i)).flatten := by
  have hT : ((slots_count + 16384 - 1) % 2 ^ 64) / 16384 = (slots_count + 16383) / 16384 := by
    have e : slots_count + 16384 - 1 = slots_count + 16383 := by omega
    rw [e, Nat.mod_eq_of_lt (by omega)]
  have hnow : ∀ t, t < (slots_count + 16383) / 16384 →
      (t * 16384) % 2 ^ 64 = t * 16384 ∧ (t * 16384 + 16384) % 2 ^ 64 = t * 16384 + 16384 := by
    intro t ht
    have : t * 16384 < slots_count := by omega
    exact ⟨Nat.mod_eq_of_lt (by omega), Nat.mod_eq_of_lt (by omega)⟩
  have h := tasks_fold_spec (none : Option (List String8)) 16384 slots_count
    (fun t dst => joinTask slots_count src_maps t dst)
    (fun i slot => slotStrings slot = (src_maps.map (fun m => srcSlotStrings m i)).flatten)
    ((slots_count + 16383) / 16384)
    (fun t dst _ => (join_work_spec src_maps _ _ dst).1)
    (fun t dst i ht hi => by
      obtain ⟨e1, e2⟩ := hnow t ht
      refine (join_work_spec src_maps _ _ dst).2.1 i ?_
      rw [e1, e2]
      rcases hi with hi | hi
      · exact Or.inl hi
      · right
        exact le_trans (Nat.min_le_left _ _) hi)
    (fun t dst i ht h1 h2 h3 h4 h5 => by
      obtain ⟨e1, e2⟩ := hnow t ht
      have := (join_work_spec src_maps ((t * 16384) % 2 ^ 64)
        (Nat.min ((t * 16384 + 16384) % 2 ^ 64) slots_count) dst).2.2 i
        (by rw [e1]; exact h1)
        (by rw [e2]; exact Nat.lt_min.mpr ⟨h2, h3⟩)
        (by rw [h4]; exact h3)
      rw [h5] at this
      simpa [slotStrings, joinTask] using this)
  unfold joinStage rdim_bake_string_map_loose_make
  rw [hT]
  refine ⟨h.1, fun i hi => (h.2 i hi).1 ?_⟩
  omega

/-! ## The sort task and the sort stage -/

theorem sortSlot_length (src dst : List (Option (List String8))) (j : Nat) :
    (sortSlot src dst j).length = dst.length := by
  unfold sortSlot
  split
  · rfl
  · split <;> simp

theorem sortSlot_other (src dst : List (Option (List String8))) (j i : Nat) (h : j ≠ i) :
    (sortSlot src dst j).getD i none = dst.getD i none := by
  unfold sortSlot
  split
  · rfl
  · split
    · exact slotGetD_set_ne _ _ _ _ h
    · exact slotGetD_set_ne _ _ _ _ h

theorem sortSlot_at (src dst : List (Option (List String8))) (j : Nat) (h : j < dst.length)
    (hd : dst.getD j none = none) :
    (sortSlot src dst j).getD j none = sortedSlot (src.getD j none) := by
  unfold sortSlot sortedSlot
  cases hs : src.getD j none with
  | none => exact hd
  | some l =>
    simp only
    split
    · rw [slotGetD_set_self _ _ _ h]
    · rw [slotGetD_set_self _ _ _ h]

/-- What `rdim_bake_string_map_sort_work` does to the destination slots: a null
slot of the range becomes the sorted form of the source slot; a slot outside
the range is left as it is. -/
theorem sort_work_spec (src : List (Option (List String8))) (len a : Nat)
    (dst : List (Option (List String8))) :
    (rdim_bake_string_map_sort_work src dst a len).length = dst.length ∧
    (∀ i, (i < a ∨ a + len ≤ i) →
      (rdim_bake_string_map_sort_work src dst a len).getD i none = dst.getD i none) ∧
    (∀ i, a ≤ i → i < a + len → i < dst.length → dst.getD i none = none →
      (rdim_bake_string_map_sort_work src dst a len).getD i none
        = sortedSlot (src.getD i none)) := by
  unfold rdim_bake_string_map_sort_work
  induction len generalizing a dst with
  | zero =>
    refine ⟨rfl, fun _ _ => rfl, fun i h1 h2 _ _ => ?_⟩
    omega
  | succ len ih =>
    rw [List.range'_succ, List.foldl_cons]
    obtain ⟨h1, h2, h3⟩ := ih (a + 1) (sortSlot src dst a)
    refine ⟨by rw [h1, sortSlot_length], ?_, ?_⟩
    · intro i hi
      rw [h2 i (by omega), sortSlot_other _ _ _ _ (by omega)]
    · intro i hia hil hid hnone
      by_cases hi : i = a
      · subst hi
        rw [h2 i (by omega), sortSlot_at _ _ _ hid hnone]
      · refine h3 i (by omega) (by omega) (by rw [sortSlot_length]; exact hid) ?_
        rw [sortSlot_other _ _ _ _ (by omega)]
        exact hnone

/-- After the sort stage every slot is the sorted form of the source slot. -/
theorem sortStage_spec (slots_count : Nat) (src : List (Option (List String8)))
    (hsc : slots_count + 16384 ≤ 2 ^ 64) :
    (sortStage slots_count src).length = slots_count ∧
    ∀ i, i < slots_count →
      (sortStage slots_count src).getD i none = sortedSlot (src.getD i none) := by
  have hT : ((slots_count + 256 - 1) % 2 ^ 64) / 256 = (slots_count + 255) / 256 := by
    have e : slots_count + 256 - 1 = slots_count + 255 := by omega
    rw [e, Nat.mod_eq_of_lt (by omega)]
  have hnow : ∀ t, t < (slots_count + 255) / 256 →
      (t * 256) % 2 ^ 64 = t * 256 ∧
      (if ((t * 256) % 2 ^ 64 + 256) % 2 ^ 64 > slots_count
        then (slots_count + 2 ^ 64 - (t * 256) % 2 ^ 64) % 2 ^ 64 else 256)
        = min 256 (slots_count - t * 256) := by
    intro t ht
    have h0 : t * 256 < slots_count := by omega
    have e1 : (t * 256) % 2 ^ 64 = t * 256 := Nat.mod_eq_of_lt (by omega)
    have e2 : (t * 256 + 256) % 2 ^ 64 = t * 256 + 256 := Nat.mod_eq_of_lt (by omega)
    have e3 : (slots_count + 2 ^ 64 - t * 256) % 2 ^ 64 = slots_count - t * 256 := by omega
    rw [e1, e2, e3]
    refine ⟨rfl, ?_⟩
    split
    · exact (Nat.min_eq_right (by omega)).symm
    · exact (Nat.min_eq_left (by omega)).symm
  have h := tasks_fold_spec (none : Option (List String8)) 256 slots_count
    (fun t dst => sortTask slots_count src t dst)
    (fun i slot => slot = sortedSlot (src.getD i none))
    ((slots_count + 255) / 256)
    (fun t dst _ => (sort_work_spec src _ _ dst).1)
    (fun t dst i ht hi => by
      obtain ⟨e1, e2⟩ := hnow t ht
      refine (sort_work_spec src _ _ dst).2.1 i ?_
      rw [e2, e1]
      rcases hi with hi | hi
      · exact Or.inl hi
      · right
        omega)
    (fun t dst i ht h1 h2 h3 h4 h5 => by
      obtain ⟨e1, e2⟩ := hnow t ht
      refine (sort_work_spec src _ _ dst).2.2 i (by rw [e1]; exact h1) ?_
        (by rw [h4]; exact h3) h5
      rw [e2, e1]
      omega)
  unfold sortStage rdim_bake_string_map_loose_make
  rw [hT]
  refine ⟨h.1, fun i hi => (h.2 i hi).1 ?_⟩
  omega

theorem sortedSlot_mem (slot : Option (List String8)) (s : String8) :
    s ∈ slotStrings (sortedSlot slot) ↔ s ∈ slotStrings slot := by
  unfold sortedSlot
  cases slot with
  | none => rfl
  | some l =>
    simp only
    split
    · simp only [slotStrings, Option.getD_some,
        rdim_bake_string_chunk_list_sorted_from_unsorted]
      rw [(List.perm_insertionSort _ _).mem_iff, List.mem_dedup]
    · rfl

theorem sortedSlot_nodup (slot : Option (List String8)) :
    (slotStrings (sortedSlot slot)).Nodup := by
  unfold sortedSlot
  cases slot with
  | none => exact List.nodup_nil
  | some l =>
    simp only
    split
    · simp only [slotStrings, Option.getD_some,
        rdim_bake_string_chunk_list_sorted_from_unsorted]
      rw [(List.perm_insertionSort _ _).nodup_iff]
      exact List.nodup_dedup l
    · rename_i hlen
      simp only [slotStrings, Option.getD_some]
      match l, hlen with
      | [], _ => exact List.nodup_nil
      | [x], _ => exact List.nodup_singleton x
      | _ :: _ :: _, h => simp at h

/-! ## Pushes into the joined map -/

theorem insert_length (hash : String8 → Nat) (sc : Nat) (map : List (Option (List String8)))
    (s : String8) : (rdim_bake_string_map_loose_insert hash sc map s).length = map.length := by
  unfold rdim_bake_string_map_loose_insert
  split <;> simp

theorem insert_strings (hash : String8 → Nat) (sc : Nat) (map : List (Option (List String8)))
    (s : String8) (hlen : map.length = sc) (hsc : 0 < sc) (i : Nat) :
    slotStrings ((rdim_bake_string_map_loose_insert hash sc map s).getD i none)
      = slotStrings (map.getD i none) ++ (if hash s % sc = i then [s] else []) := by
  have hlt : hash s % sc < map.length := by rw [hlen]; exact Nat.mod_lt _ hsc
  unfold rdim_bake_string_map_loose_insert
  by_cases hi : hash s % sc = i
  · rw [if_pos hi]
    subst hi
    cases hm : map.getD (hash s % sc) none with
    | none =>
      simp only
      rw [slotGetD_set_self _ _ _ hlt]
      rfl
    | some l =>
      simp only
      rw [slotGetD_set_self _ _ _ hlt]
      rfl
  · rw [if_neg hi, List.append_nil]
    split
    · rw [slotGetD_set_ne _ _ _ _ hi]
    · rw [slotGetD_set_ne _ _ _ _ hi]

theorem insert_fold_spec (hash : String8 → Nat) (sc : Nat) (top : List String8)
    (map : List (Option (List String8))) (hlen : map.length = sc) (hsc : 0 < sc) :
    (top.foldl (rdim_bake_string_map_loose_insert hash sc) map).length = sc ∧
    ∀ i, slotStrings ((top.foldl (rdim_bake_string_map_loose_insert hash sc) map).getD i none)
      = slotStrings (map.getD i none) ++ top.filter (fun s => decide (hash s % sc = i)) := by
  induction top generalizing map with
  | nil => exact ⟨hlen, fun i => by simp⟩
  | cons s rest ih =>
    rw [List.foldl_cons]
    obtain ⟨h1, h2⟩ := ih (rdim_bake_string_map_loose_insert hash sc map s)
      (by rw [insert_length]; exact hlen)
    refine ⟨h1, fun i => ?_⟩
    rw [h2 i, insert_strings hash sc map s hlen hsc i, List.filter_cons]
    by_cases hi : hash s % sc = i
    · simp [hi]
    · simp [hi]

/-! ## Strings keyed by their slot -/

theorem nodup_flatten_keyed {α : Type} (key : α → Nat) (L : List (List α)) (off : Nat)
    (h : ∀ (i : Nat) (l : List α), L[i]? = some l → l.Nodup ∧ ∀ s ∈ l, key s = off + i) :
    L.flatten.Nodup := by
  induction L generalizing off with
  | nil => exact List.nodup_nil
  | cons x xs ih =>
    rw [List.flatten_cons, List.nodup_append]
    have hx := h 0 x (List.getElem?_cons_zero)
    have hxs : ∀ (i : Nat) (l : List α), xs[i]? = some l →
        l.Nodup ∧ ∀ s ∈ l, key s = (off + 1) + i := by
      intro i l hl
      have := h (i + 1) l (by simpa using hl)
      refine ⟨this.1, fun s hs => ?_⟩
      rw [this.2 s hs]; omega
    refine ⟨hx.1, ih (off + 1) hxs, ?_⟩
    intro s hs1 hs2
    obtain ⟨l, hl, hsl⟩ := List.mem_flatten.mp hs2
    obtain ⟨i, hi, hil⟩ := List.getElem_of_mem hl
    have h1 := hx.2 s hs1
    have h2 := (hxs i l (by rw [← hil]; exact List.getElem?_eq_getElem hi)).2 s hsl
    omega

theorem filter_flatten_keyed {α : Type} (key : α → Nat) (L : List (List α)) (off i : Nat)
    (h : ∀ (k : Nat) (l : List α), L[k]? = some l → ∀ s ∈ l, key s = off + k) :
    (L.map (List.filter (fun s => decide (key s = i)))).flatten
      = if off ≤ i then L.getD (i - off) [] else [] := by
  induction L generalizing off with
  | nil => simp
  | cons x xs ih =>
    have hx := h 0 x (List.getElem?_cons_zero)
    have hxs : ∀ (k : Nat) (l : List α), xs[k]? = some l → ∀ s ∈ l, key s = (off + 1) + k := by
      intro k l hl s hs
      have := h (k + 1) l (by simpa using hl) s hs
      omega
    rw [List.map_cons, List.flatten_cons, ih (off + 1) hxs]
    by_cases h1 : off = i
    · have hf : x.filter (fun s => decide (key s = i)) = x := by
        rw [List.filter_eq_self]
        intro a ha
        have := hx a ha
        exact decide_eq_true (by omega)
      subst h1
      rw [hf, if_neg (by omega), if_pos (le_refl _), Nat.sub_self]
      simp
    · have hf : x.filter (fun s => decide (key s = i)) = [] := by
        rw [List.filter_eq_nil_iff]
        intro a ha
        have := hx a ha
        simp only [decide_eq_true_eq]
        omega
      rw [hf, List.nil_append]
      by_cases h2 : off ≤ i
      · have e : i - off = (i - (off + 1)) + 1 := by omega
        rw [if_pos (by omega), if_pos h2, e]
        rfl
      · rw [if_neg (by omega), if_neg h2]

theorem filter_eq_length_one {α : Type} [DecidableEq α] (l : List α) (s : α) (hn : l.Nodup)
    (hm : s ∈ l) : (l.filter (fun x => decide (x = s))).length = 1 := by
  induction l with
  | nil => cases hm
  | cons x xs ih =>
    obtain ⟨hx, hxs⟩ := List.nodup_cons.mp hn
    by_cases hxs' : x = s
    · subst hxs'
      have : xs.filter (fun y => decide (y = x)) = [] := by
        rw [List.filter_eq_nil_iff]
        intro a ha
        simp only [decide_eq_true_eq]
        intro hax
        exact hx (hax ▸ ha)
      rw [List.filter_cons]
      simp [this]
    · have hmem : s ∈ xs := by
        rcases List.mem_cons.mp hm with h | h
        · exact absurd h.symm hxs'
        · exact h
      rw [List.filter_cons]
      simp only [hxs', decide_False, Bool.false_eq_true, if_false]
      exact ih hxs hmem

theorem mapStrings_filter (hash : String8 → Nat) (sc : Nat)
    (m : Option RDIM_BakeStringMapLoose) (hwp : WellPlaced hash sc m) (i : Nat) :
    (mapStrings m).filter (fun s => decide (hash s % sc = i)) = srcSlotStrings m i := by
  cases m with
  | none => rfl
  | some src =>
    rcases src with ⟨slots⟩
    cases slots with
    | none => rfl
    | some ss =>
      obtain ⟨h1, h2⟩ := hwp
      have hlen : ss.length = sc := h1 ss rfl
      simp only [mapStrings, srcSlotStrings]
      rw [List.filter_flatten]
      have hk : ∀ (k : Nat) (l : List String8), (ss.map slotStrings)[k]? = some l →
          ∀ s ∈ l, hash s % sc = 0 + k := by
        intro k l hl s hs
        rw [List.getElem?_map] at hl
        cases hsk : ss[k]? with
        | none => rw [hsk] at hl; cases hl
        | some x =>
          rw [hsk] at hl
          simp only [Option.map_some', Option.some.injEq] at hl
          obtain ⟨hklt, _⟩ := List.getElem?_eq_some.mp hsk
          have := h2 k (by omega) s (by
            simp only [srcSlotStrings]
            rw [List.getD_eq_getElem?_getD, hsk]
            simpa [hl] using hs)
          omega
      rw [filter_flatten_keyed (fun s => hash s % sc) (ss.map slotStrings) 0 i hk]
      rw [if_pos (Nat.zero_le _), Nat.sub_zero]
      have := List.getD_map ss (none : Option (List String8)) (n := i) slotStrings
      exact this

theorem workerStrings_filter (hash : String8 → Nat) (sc : Nat)
    (maps : List (Option RDIM_BakeStringMapLoose)) (hwp : ∀ m ∈ maps, WellPlaced hash sc m)
    (i : Nat) :
    (workerStrings maps).filter (fun s => decide (hash s % sc = i))
      = (maps.map (fun m => srcSlotStrings m i)).flatten := by
  unfold workerStrings
  rw [List.filter_flatten, List.map_map]
  congr 1
  apply List.map_congr_left
  intro m hm
  exact mapStrings_filter hash sc m (hwp m hm) i

/-- C8: for every hash, every slot count and any two families of per-worker maps
(of any lengths, null maps allowed) in which each string sits in slot
`hash % slots_count` and which hold the same candidate strings with the same
multiplicities, every slot of the joined map holds the same multiset of
strings: the candidates whose hash selects that slot. -/
theorem join_order_independent (hash : String8 → Nat) (slots_count : Nat)
    (maps1 maps2 : List (Option RDIM_BakeStringMapLoose))
    (hsc : slots_count + 16384 ≤ 2 ^ 64)
    (h1 : ∀ m ∈ maps1, WellPlaced hash slots_count m)
    (h2 : ∀ m ∈ maps2, WellPlaced hash slots_count m)
    (hperm : (workerStrings maps1).Perm (workerStrings maps2)) :
    ∀ i, i < slots_count →
      slotStrings ((joinStage slots_count maps1).getD i none)
        = (workerStrings maps1).filter (fun s => decide (hash s % slots_count = i)) ∧
      (slotStrings ((joinStage slots_count maps1).getD i none)).Perm
        (slotStrings ((joinStage slots_count maps2).getD i none)) := by
  intro i hi
  have e1 := (joinStage_spec slots_count maps1 hsc).2 i hi
  have e2 := (joinStage_spec slots_count maps2 hsc).2 i hi
  rw [← workerStrings_filter hash slots_count maps1 h1 i] at e1
  rw [← workerStrings_filter hash slots_count maps2 h2 i] at e2
  refine ⟨e1, ?_⟩
  rw [e1, e2]
  exact hperm.filter _

/-- Witness of C8: `main` held by two workers or twice by one worker, slot 1. -/
theorem join_order_independent_witness :
    slotStrings ((joinStage 3 sampleMaps).getD 1 none)
      = (workerStrings sampleMaps).filter (fun s => decide (sumHash s % 3 = 1)) ∧
    (slotStrings ((joinStage 3 sampleMaps).getD 1 none)).Perm
      (slotStrings ((joinStage 3 sampleMapsOneWorker).getD 1 none)) :=
  join_order_independent sumHash 3 sampleMaps sampleMapsOneWorker (by decide) (by decide)
    (by decide) (by decide) 1 (by decide)

/-- The strings of a slot of the unsorted map are the candidates whose hash
selects the slot. -/
theorem unsortedMap_spec (hash : String8 → Nat) (sc : Nat)
    (maps : List (Option RDIM_BakeStringMapLoose)) (top : List String8) (h0 : 0 < sc)
    (hsc : sc + 16384 ≤ 2 ^ 64) (hwp : ∀ m ∈ maps, WellPlaced hash sc m) :
    (unsortedMap hash sc maps top).length = sc ∧
    ∀ i, i < sc → slotStrings ((unsortedMap hash sc maps top).getD i none)
      = (workerStrings maps ++ top).filter (fun s => decide (hash s % sc = i)) := by
  obtain ⟨j1, j2⟩ := joinStage_spec sc maps hsc
  obtain ⟨k1, k2⟩ := insert_fold_spec hash sc top (joinStage sc maps) j1 h0
  refine ⟨k1, fun i hi => ?_⟩
  unfold unsortedMap
  rw [k2 i, j2 i hi, List.filter_append, workerStrings_filter hash sc maps hwp i]

/-- C7: after the join and sort stages no slot of the sorted map holds a string
twice, and the string table made from the sorted map holds exactly the
strings inserted by the workers or pushed for the top level, each exactly
once. -/
theorem string_table_unique (hash : String8 → Nat) (slots_count : Nat)
    (maps : List (Option RDIM_BakeStringMapLoose)) (top : List String8)
    (h0 : 0 < slots_count) (hsc : slots_count + 16384 ≤ 2 ^ 64)
    (hwp : ∀ m ∈ maps, WellPlaced hash slots_count m) :
    (∀ i, (slotStrings ((sortStage slots_count
        (unsortedMap hash slots_count maps top)).getD i none)).Nodup) ∧
    (∀ s, s ∈ bakeStringTable hash slots_count maps top ↔ (s ∈ workerStrings maps ∨ s ∈ top)) ∧
    (∀ s, (s ∈ workerStrings maps ∨ s ∈ top) →
      ((bakeStringTable hash slots_count maps top).filter (fun x => decide (x = s))).length
        = 1) := by
  obtain ⟨u1, u2⟩ := unsortedMap_spec hash slots_count maps top h0 hsc hwp
  obtain ⟨s1, s2⟩ := sortStage_spec slots_count (unsortedMap hash slots_count maps top) hsc
  have hslot : ∀ (i : Nat) (l : List String8),
      ((sortStage slots_count (unsortedMap hash slots_count maps top)).map slotStrings)[i]?
        = some l →
      i < slots_count ∧
      l = slotStrings (sortedSlot ((unsortedMap hash slots_count maps top).getD i none)) := by
    intro i l hl
    rw [List.getElem?_map] at hl
    cases hx : (sortStage slots_count (unsortedMap hash slots_count maps top))[i]? with
    | none => rw [hx] at hl; cases hl
    | some x =>
      rw [hx] at hl
      simp only [Option.map_some', Option.some.injEq] at hl
      obtain ⟨hilt, _⟩ := List.getElem?_eq_some.mp hx
      rw [s1] at hilt
      refine ⟨hilt, ?_⟩
      rw [← s2 i hilt, List.getD_eq_getElem?_getD, hx, ← hl]
      rfl
  have hmemslot : ∀ (i : Nat) (s : String8), i < slots_count →
      (s ∈ slotStrings (sortedSlot ((unsortedMap hash slots_count maps top).getD i none)) ↔
        (s ∈ workerStrings maps ∨ s ∈ top) ∧ hash s % slots_count = i) := by
    intro i s hi
    rw [sortedSlot_mem, u2 i hi, List.mem_filter, List.mem_append]
    simp
  have hnodup : (bakeStringTable hash slots_count maps top).Nodup := by
    unfold bakeStringTable stringTable
    apply nodup_flatten_keyed (fun s => hash s % slots_count) _ 0
    intro i l hl
    obtain ⟨hi, rfl⟩ := hslot i l hl
    refine ⟨sortedSlot_nodup _, fun s hs => ?_⟩
    have := ((hmemslot i s hi).mp hs).2
    omega
  have hmem : ∀ s, s ∈ bakeStringTable hash slots_count maps top ↔
      (s ∈ workerStrings maps ∨ s ∈ top) := by
    intro s
    unfold bakeStringTable stringTable
    rw [List.mem_flatten]
    constructor
    · rintro ⟨l, hl, hsl⟩
      obtain ⟨i, hi, hil⟩ := List.getElem_of_mem hl
      obtain ⟨hi', hl'⟩ := hslot i l (by rw [← hil]; exact List.getElem?_eq_getElem hi)
      rw [hl'] at hsl
      exact ((hmemslot i s hi').mp hsl).1
    · intro hs
      have hi : hash s % slots_count < slots_count := Nat.mod_lt _ h0
      have hin := (hmemslot (hash s % slots_count) s hi).mpr ⟨hs, rfl⟩
      refine ⟨slotStrings ((sortStage slots_count
        (unsortedMap hash slots_count maps top)).getD (hash s % slots_count) none), ?_, ?_⟩
      · rw [List.mem_map]
        refine ⟨(sortStage slots_count
          (unsortedMap hash slots_count maps top)).getD (hash s % slots_count) none, ?_, rfl⟩
        rw [List.getD_eq_getElem?_getD, List.getElem?_eq_getElem (by rw [s1]; exact hi)]
        exact List.getElem_mem _
      · rw [s2 _ hi]
        exact hin
  refine ⟨fun i => ?_, hmem, fun s hs => filter_eq_length_one _ s hnodup ((hmem s).mpr hs)⟩
  by_cases hi : i < slots_count
  · rw [s2 i hi]
    exact sortedSlot_nodup _
  · rw [List.getD_eq_getElem?_getD, List.getElem?_eq_none (by rw [s1]; omega)]
    exact List.nodup_nil

/-- Witness of C7: two workers each intern `main`; the top level pushes a further
string and `main` again. -/
theorem string_table_unique_witness :
    (∀ i, (slotStrings ((sortStage 3
        (unsortedMap sumHash 3 sampleMaps [[4], mainString])).getD i none)).Nodup) ∧
    (∀ s, s ∈ bakeStringTable sumHash 3 sampleMaps [[4], mainString] ↔
      (s ∈ workerStrings sampleMaps ∨ s ∈ [[4], mainString])) ∧
    (∀ s, (s ∈ workerStrings sampleMaps ∨ s ∈ [[4], mainString]) →
      ((bakeStringTable sumHash 3 sampleMaps [[4], mainString]).filter
        (fun x => decide (x = s))).length = 1) :=
  string_table_unique sumHash 3 sampleMaps [[4], mainString] (by decide) (by decide) (by decide)

/-! ## The resolver is defined exactly when every read of `fwd_map` is in bounds -/

theorem fwdRef_isSome (fwd : List Nat) (r : Nat) : (fwdRef fwd r).isSome = true ↔ r < fwd.length := by
  unfold fwdRef
  constructor
  · intro h
    by_contra hc
    rw [List.getElem?_eq_none (by omega)] at h
    cases h
  · intro h
    rw [List.getElem?_eq_getElem h]
    simp only
    split <;> rfl

theorem fwdRefs_isSome (fwd : List Nat) (rs : List Nat) :
    (fwdRefs fwd rs).isSome = true ↔ ∀ r ∈ rs, r < fwd.length := by
  induction rs with
  | nil => simp [fwdRefs]
  | cons r rs ih =>
    constructor
    · intro h
      unfold fwdRefs at h
      cases h1 : fwdRef fwd r with
      | none => rw [h1] at h; cases h
      | some r' =>
        rw [h1] at h
        simp only at h
        cases h2 : fwdRefs fwd rs with
        | none => rw [h2] at h; cases h
        | some rs' =>
          intro x hx
          rcases List.mem_cons.mp hx with rfl | hx'
          · exact (fwdRef_isSome fwd x).mp (by rw [h1]; rfl)
          · exact (ih.mp (by rw [h2]; rfl)) x hx'
    · intro h
      rw [fwdRefs_eq fwd (r :: rs) h]
      rfl

theorem resolveType_isSome (fwd : List Nat) (t : RDIM_Type) :
    (resolveType fwd t).isSome = true ↔ ∀ r ∈ typeFwdReads t, r < fwd.length := by
  unfold resolveType typeFwdReads
  by_cases hd : t.direct_type = 0
  · simp only [hd, ne_eq, not_true_eq_false, if_false, List.nil_append]
    cases hp : t.param_types with
    | none => simp
    | some ps =>
      simp only [Option.getD_some]
      rw [← fwdRefs_isSome]
      cases fwdRefs fwd ps <;> simp
  · simp only [ne_eq, hd, not_false_eq_true, if_true, List.singleton_append, List.mem_cons,
      forall_eq_or_imp]
    rw [← fwdRef_isSome]
    cases h1 : fwdRef fwd t.direct_type with
    | none => simp
    | some d =>
      simp only [Option.isSome_some, true_and]
      cases hp : t.param_types with
      | none => simp
      | some ps =>
        simp only [Option.getD_some]
        rw [← fwdRefs_isSome]
        cases fwdRefs fwd ps <;> simp

theorem resolveTypes_isSome (fwd : List Nat) (ts : List RDIM_Type) :
    (resolveTypes fwd ts).isSome = true ↔
      ∀ r ∈ (ts.map typeFwdReads).flatten, r < fwd.length := by
  induction ts with
  | nil => simp [resolveTypes]
  | cons t ts ih =>
    simp only [List.map_cons, List.flatten_cons, List.mem_append]
    rw [show (∀ r, (r ∈ typeFwdReads t ∨ r ∈ (ts.map typeFwdReads).flatten) → r < fwd.length) ↔
      ((∀ r ∈ typeFwdReads t, r < fwd.length) ∧
        ∀ r ∈ (ts.map typeFwdReads).flatten, r < fwd.length) from
      ⟨fun h => ⟨fun r hr => h r (Or.inl hr), fun r hr => h r (Or.inr hr)⟩,
       fun h r hr => hr.elim (h.1 r) (h.2 r)⟩]
    rw [← ih, ← resolveType_isSome]
    simp only [resolveTypes]
    cases resolveType fwd t with
    | none => simp
    | some t' => cases resolveTypes fwd ts <;> simp

theorem resolveMembers_isSome (fwd : List Nat) (ms : List RDIM_UDTMember) :
    (resolveMembers fwd ms).isSome = true ↔ ∀ r ∈ ms.map (·.type), r < fwd.length := by
  induction ms with
  | nil => simp [resolveMembers]
  | cons m ms ih =>
    simp only [List.map_cons, List.mem_cons, forall_eq_or_imp]
    rw [← ih, ← fwdRef_isSome]
    simp only [resolveMembers]
    cases fwdRef fwd m.type with
    | none => simp
    | some r => cases resolveMembers fwd ms <;> simp

theorem resolveUDTs_isSome (fwd : List Nat) (us : List RDIM_UDT) :
    (resolveUDTs fwd us).isSome = true ↔
      ∀ r ∈ (us.map udtFwdReads).flatten, r < fwd.length := by
  induction us with
  | nil => simp [resolveUDTs]
  | cons u us ih =>
    simp only [List.map_cons, List.flatten_cons, List.mem_append]
    rw [show (∀ r, (r ∈ udtFwdReads u ∨ r ∈ (us.map udtFwdReads).flatten) → r < fwd.length) ↔
      ((∀ r ∈ udtFwdReads u, r < fwd.length) ∧
        ∀ r ∈ (us.map udtFwdReads).flatten, r < fwd.length) from
      ⟨fun h => ⟨fun r hr => h r (Or.inl hr), fun r hr => h r (Or.inr hr)⟩,
       fun h r hr => hr.elim (h.1 r) (h.2 r)⟩]
    rw [← ih]
    unfold udtFwdReads
    simp only [List.mem_cons, forall_eq_or_imp]
    rw [← resolveMembers_isSome, ← fwdRef_isSome]
    simp only [resolveUDTs, resolveUDT]
    cases fwdRef fwd u.self_type with
    | none => simp
    | some s =>
      cases resolveMembers fwd u.members with
      | none => simp
      | some ms => cases resolveUDTs fwd us <;> simp

theorem supersede_typeFwdReads (K : TypeKindConsts) (ht : List (Option HtEntry)) (n : Nat)
    (t : RDIM_Type) : typeFwdReads (supersede K ht n t) = typeFwdReads t := by
  unfold typeFwdReads
  rw [supersede_direct_type, supersede_param_types]

/-- C11 (amended): the resolver makes no test on a type index.  It returns exactly
when every index at which its resolve pass reads `fwd_map` (the index of each
non-null direct type, of each parameter type, of each UDT self type and of
each member type) is at most the total type count; otherwise the first read
past the end of `fwd_map` is performed and the call has no defined result. -/
theorem resolve_defined_iff_reads_in_bounds (K : TypeKindConsts) (types : List RDIM_Type)
    (udts : List RDIM_UDT) :
    ((rdim_local_resolve_incomplete_types K types udts).isSome = true ↔
      ∀ r ∈ fwdMapReads types udts, r ≤ types.length) ∧
    ((rdim_local_resolve_incomplete_types K types udts) = none ↔
      ∃ r, firstOutOfBoundsRead types udts = some r ∧ r ∈ fwdMapReads types udts ∧
        types.length < r) := by
  have key : (rdim_local_resolve_incomplete_types K types udts).isSome = true ↔
      ∀ r ∈ fwdMapReads types udts, r ≤ types.length := by
    have h1 := resolveTypes_isSome (fwdPass K types).2 (fwdPass K types).1
    have h2 := resolveUDTs_isSome (fwdPass K types).2 udts
    rw [fwdPass_snd_length] at h1 h2
    have e : ((fwdPass K types).1.map typeFwdReads) = types.map typeFwdReads := by
      rw [fwdPass_fst, List.map_map]
      apply List.map_congr_left
      intro t _
      exact supersede_typeFwdReads K _ _ t
    rw [e] at h1
    unfold fwdMapReads
    have split : (∀ r ∈ (types.map typeFwdReads).flatten ++ (udts.map udtFwdReads).flatten,
        r ≤ types.length) ↔
        ((∀ r ∈ (types.map typeFwdReads).flatten, r < types.length + 1) ∧
          ∀ r ∈ (udts.map udtFwdReads).flatten, r < types.length + 1) := by
      constructor
      · intro h
        exact ⟨fun r hr => Nat.lt_succ_of_le (h r (List.mem_append_left _ hr)),
          fun r hr => Nat.lt_succ_of_le (h r (List.mem_append_right _ hr))⟩
      · intro h r hr
        rcases List.mem_append.mp hr with hr | hr
        · exact Nat.le_of_lt_succ (h.1 r hr)
        · exact Nat.le_of_lt_succ (h.2 r hr)
    rw [split, ← h1, ← h2]
    unfold rdim_local_resolve_incomplete_types
    cases resolveTypes (fwdPass K types).2 (fwdPass K types).1 with
    | none => simp
    | some ts => cases resolveUDTs (fwdPass K types).2 udts <;> simp
  refine ⟨key, ?_⟩
  constructor
  · intro hnone
    have hnot : ¬ ∀ r ∈ fwdMapReads types udts, r ≤ types.length := by
      intro hall
      have := key.mpr hall
      rw [hnone] at this
      cases this
    unfold firstOutOfBoundsRead
    cases hf : (fwdMapReads types udts).find? (fun r => decide (types.length + 1 ≤ r)) with
    | none =>
      exfalso
      apply hnot
      intro r hr
      have := List.find?_eq_none.mp hf r hr
      simp only [decide_eq_true_eq] at this
      omega
    | some r =>
      refine ⟨r, rfl, List.mem_of_find?_eq_some hf, ?_⟩
      have := List.find?_some hf
      simp only [decide_eq_true_eq] at this
      omega
  · rintro ⟨r, _, hmem, hlt⟩
    cases hres : rdim_local_resolve_incomplete_types K types udts with
    | none => rfl
    | some x =>
      have := key.mp (by rw [hres]; rfl) r hmem
      omega

/-- C11 (counterexample): a pointer type whose direct type has index 5 in a table
of one type: `fwd_map` has two entries, the resolve pass reads it at index 5
with no test before the read, and the call has no defined result. -/
theorem resolve_out_of_range_counterexample :
    fwdMapReads outOfRangeTypes [] = [5] ∧
    (fwdPass rdiKinds outOfRangeTypes).2.length = 2 ∧
    firstOutOfBoundsRead outOfRangeTypes [] = some 5 ∧
    fwdRef (fwdPass rdiKinds outOfRangeTypes).2 5 = none ∧
    rdim_local_resolve_incomplete_types rdiKinds outOfRangeTypes [] = none := by
  decide

/-! ## The probes never wrap -/

theorem insertProbe_lt (ht : List (Option HtEntry)) (m best : Nat) (type : RDIM_Type)
    (name : String8) (hm : 0 < m) (fuel slot : Nat) (hs : slot < m) :
    insertProbe ht m best type name fuel slot < m := by
  induction fuel generalizing slot with
  | zero => exact hs
  | succ fuel ih =>
    unfold insertProbe
    split
    · exact hs
    · split
      · exact hs
      · split
        · exact ih _ (Nat.mod_lt _ hm)
        · exact Nat.mod_lt _ hm

/-- The slot returned by the insertion probe is empty when the probe was left at an
empty slot, and holds an entry passing a `break` test when it was left at a
name match. -/
theorem insertProbe_exit_link (ht : List (Option HtEntry)) (m best : Nat) (type : RDIM_Type)
    (name : String8) (fuel slot : Nat) :
    (insertProbeExit ht m best type name fuel slot = ProbeExit.empty →
      ht.getD (insertProbe ht m best type name fuel slot) none = none) ∧
    (insertProbeExit ht m best type name fuel slot = ProbeExit.matched →
      ∃ e, ht.getD (insertProbe ht m best type name fuel slot) none = some e ∧
        insertBreaks e type name = true) := by
  induction fuel generalizing slot with
  | zero =>
    refine ⟨fun h => ?_, fun h => ?_⟩
    · simp [insertProbeExit] at h
    · simp [insertProbeExit] at h
  | succ fuel ih =>
    unfold insertProbeExit insertProbe
    cases hs : ht.getD slot none with
    | none =>
      simp only
      exact ⟨fun _ => hs, fun h => by cases h⟩
    | some s0 =>
      simp only
      by_cases hb : insertBreaks s0 type name = true
      · rw [if_pos hb, if_pos hb]
        exact ⟨fun h => (by cases h), fun _ => ⟨s0, hs, hb⟩⟩
      · rw [if_neg hb, if_neg hb]
        by_cases hw : (slot + 1) % m ≠ best
        · rw [if_pos hw, if_pos hw]
          exact ih _
        · rw [if_neg hw, if_neg hw]
          exact ⟨fun h => (by cases h), fun h => (by cases h)⟩

/-- The insertion probe is left at an empty slot or at a name match as soon as the
probe sequence contains an empty slot. -/
theorem insertProbeExit_ok (ht : List (Option HtEntry)) (m start : Nat) (type : RDIM_Type)
    (name : String8) (hstart : start < m) (k : Nat) (hk : k < m)
    (hempty : ht.getD ((start + k) % m) none = none) (fuel a : Nat) (ha : a ≤ k)
    (hfuel : k - a < fuel) :
    insertProbeExit ht m start type name fuel ((start + a) % m) = ProbeExit.empty ∨
    insertProbeExit ht m start type name fuel ((start + a) % m) = ProbeExit.matched := by
  induction fuel generalizing a with
  | zero => omega
  | succ fuel ih =>
    unfold insertProbeExit
    cases hs : ht.getD ((start + a) % m) none with
    | none => exact Or.inl rfl
    | some s0 =>
      simp only
      by_cases hb : insertBreaks s0 type name = true
      · rw [if_pos hb]
        exact Or.inr rfl
      · rw [if_neg hb]
        have hak : a ≠ k := by
          intro h
          rw [h, hempty] at hs
          cases hs
        rw [probe_step]
        have hne : (start + (a + 1)) % m ≠ start :=
          probe_ne_start start (a + 1) m hstart (by omega) (by omega)
        rw [if_pos hne]
        exact ih (a + 1) (by omega) (by omega)

/-- The lookup probe is left at an empty slot or at a match as soon as the probe
sequence contains an empty slot. -/
theorem lookupProbeExit_ok (ht : List (Option HtEntry)) (m start : Nat) (t : RDIM_Type)
    (hstart : start < m) (k : Nat) (hk : k < m)
    (hempty : ht.getD ((start + k) % m) none = none) (fuel a : Nat) (ha : a ≤ k)
    (hfuel : k - a < fuel) :
    lookupProbeExit ht m start t fuel ((start + a) % m) = ProbeExit.empty ∨
    lookupProbeExit ht m start t fuel ((start + a) % m) = ProbeExit.matched := by
  induction fuel generalizing a with
  | zero => omega
  | succ fuel ih =>
    unfold lookupProbeExit
    cases hs : ht.getD ((start + a) % m) none with
    | none => exact Or.inl rfl
    | some s0 =>
      simp only
      by_cases hb : lookupMatches s0 t = true
      · rw [if_pos hb]
        exact Or.inr rfl
      · rw [if_neg hb]
        have hak : a ≠ k := by
          intro h
          rw [h, hempty] at hs
          cases hs
        rw [probe_step]
        have hne : (start + (a + 1)) % m ≠ start :=
          probe_ne_start start (a + 1) m hstart (by omega) (by omega)
        rw [if_pos hne]
        exact ih (a + 1) (by omega) (by omega)

theorem probe_start_zero (start m : Nat) (h : start < m) : (start + 0) % m = start := by
  rw [Nat.add_zero]
  exact Nat.mod_eq_of_lt h

/-- In a table of `n + 1` slots of which at most `n` are occupied, the insertion
probe from any start slot `hash % n` is left at an empty slot or a name
match. -/
theorem insertProbeExit_of_count (ht : List (Option HtEntry)) (n hash : Nat) (type : RDIM_Type)
    (name : String8) (hn : 0 < n) (hlen : ht.length = n + 1)
    (hcnt : ht.countP Option.isSome < n + 1) :
    insertProbeExit ht (n + 1) (hash % n) type name (n + 1) (hash % n) = ProbeExit.empty ∨
    insertProbeExit ht (n + 1) (hash % n) type name (n + 1) (hash % n) = ProbeExit.matched := by
  have hstart : hash % n < n + 1 := by
    have := Nat.mod_lt hash hn
    omega
  obtain ⟨k, hk, hempty, _⟩ := exists_first_empty ht (n + 1) (hash % n) hlen hstart hcnt
  have := insertProbeExit_ok ht (n + 1) (hash % n) type name hstart k hk hempty (n + 1) 0
    (by omega) (by omega)
  rwa [probe_start_zero _ _ hstart] at this

theorem lookupProbeExit_of_count (ht : List (Option HtEntry)) (n hash : Nat) (t : RDIM_Type)
    (hn : 0 < n) (hlen : ht.length = n + 1) (hcnt : ht.countP Option.isSome < n + 1) :
    lookupProbeExit ht (n + 1) (hash % n) t (n + 1) (hash % n) = ProbeExit.empty ∨
    lookupProbeExit ht (n + 1) (hash % n) t (n + 1) (hash % n) = ProbeExit.matched := by
  have hstart : hash % n < n + 1 := by
    have := Nat.mod_lt hash hn
    omega
  obtain ⟨k, hk, hempty, _⟩ := exists_first_empty ht (n + 1) (hash % n) hlen hstart hcnt
  have := lookupProbeExit_ok ht (n + 1) (hash % n) t hstart k hk hempty (n + 1) 0
    (by omega) (by omega)
  rwa [probe_start_zero _ _ hstart] at this

theorem insertExits_ok (K : TypeKindConsts) (n : Nat) (rest : List RDIM_Type) (i : Nat)
    (ht : List (Option HtEntry)) (hlen : ht.length = n + 1)
    (hcnt : ht.countP Option.isSome + rest.length ≤ n) :
    ∀ e ∈ insertExits K n rest i ht, e = ProbeExit.empty ∨ e = ProbeExit.matched := by
  induction rest generalizing i ht with
  | nil => intro e he; cases he
  | cons t rest ih =>
    simp only [List.length_cons] at hcnt
    intro e he
    unfold insertExits at he
    by_cases hk : isRecordKind K t.kind = true
    · simp only [hk, if_true] at he
      rcases List.mem_cons.mp he with rfl | he'
      · exact insertProbeExit_of_count ht n _ t _ (by omega) hlen (by omega)
      · split at he'
        · refine ih (i + 1) _ (by rw [List.length_set]; exact hlen) ?_ e he'
          have := countP_set_some ht (insertProbe ht (n + 1)
            (rdim_local_hash (resolvingName t) % n) t (resolvingName t) (n + 1)
            (rdim_local_hash (resolvingName t) % n)) ⟨i + 1, t.name, t.link_name⟩
          omega
        · exact ih (i + 1) ht hlen (by omega) e he'
    · simp only [hk, Bool.false_eq_true, if_false] at he
      exact ih (i + 1) ht hlen (by omega) e he

theorem nameTable_length (K : TypeKindConsts) (types : List RDIM_Type) :
    (nameTable K types).length = types.length + 1 := by
  unfold nameTable
  rw [buildHashTable_length]
  simp

theorem nameTable_countP (K : TypeKindConsts) (types : List RDIM_Type) :
    (nameTable K types).countP Option.isSome < types.length + 1 := by
  have := buildHashTable_countP K types.length types 0 (List.replicate (types.length + 1) none)
  rw [countP_replicate_none] at this
  unfold nameTable
  omega

/-- A type of record kind met by the table-building pass on a table with a free
slot is stored in the table, unless an entry of the table passes a `break`
test against it. -/
theorem buildHashTable_stored (K : TypeKindConsts) (n : Nat) (C : RDIM_Type)
    (post : List RDIM_Type) (i : Nat) (ht : List (Option HtEntry)) (hn : 0 < n)
    (hlen : ht.length = n + 1) (hcnt : ht.countP Option.isSome < n + 1)
    (hrec : isRecordKind K C.kind = true) :
    (∃ s, (buildHashTable K n (C :: post) i ht).getD s none
      = some ⟨i + 1, C.name, C.link_name⟩) ∨
    (∃ s e, (buildHashTable K n (C :: post) i ht).getD s none = some e ∧
      insertBreaks e C (resolvingName C) = true) := by
  have hstart : rdim_local_hash (resolvingName C) % n < n + 1 := by
    have := Nat.mod_lt (rdim_local_hash (resolvingName C)) hn
    omega
  have hlink := insertProbe_exit_link ht (n + 1) (rdim_local_hash (resolvingName C) % n) C
    (resolvingName C) (n + 1) (rdim_local_hash (resolvingName C) % n)
  have hslot := insertProbe_lt ht (n + 1) (rdim_local_hash (resolvingName C) % n) C
    (resolvingName C) (by omega) (n + 1) _ hstart
  simp only [buildHashTable, hrec, if_true]
  rcases insertProbeExit_of_count ht n (rdim_local_hash (resolvingName C)) C (resolvingName C)
    hn hlen hcnt with he | he
  · have hnone := hlink.1 he
    rw [if_pos hnone]
    left
    exact ⟨_, buildHashTable_mono K n post (i + 1) _ _ _
      (optGetD_set_self ht _ _ (by rw [hlen]; exact hslot))⟩
  · obtain ⟨e, hsome, hb⟩ := hlink.2 he
    rw [if_neg (by rw [hsome]; exact fun h => by cases h)]
    right
    exact ⟨_, e, buildHashTable_mono K n post (i + 1) ht _ e hsome, hb⟩

/-- C13: the name table of `total_count + 1` slots never fills up.  Every insertion
probe of the table-building pass and every lookup probe of the forward-map
pass is left at an empty slot or at a name match, never by the wrap-around
test; so every type of record kind is stored in the table unless an entry
of the table passes a name test against it. -/
theorem probes_never_wrap (K : TypeKindConsts) (types : List RDIM_Type) :
    (∀ e ∈ insertExits K types.length types 0 (List.replicate (types.length + 1) none),
      e = ProbeExit.empty ∨ e = ProbeExit.matched) ∧
    (∀ e ∈ lookupExits K (nameTable K types) types.length types,
      e = ProbeExit.empty ∨ e = ProbeExit.matched) ∧
    (∀ (c : Nat) (C : RDIM_Type), types[c]? = some C → isRecordKind K C.kind = true →
      (∃ s, (nameTable K types).getD s none = some ⟨c + 1, C.name, C.link_name⟩) ∨
      (∃ s e, (nameTable K types).getD s none = some e ∧
        insertBreaks e C (resolvingName C) = true)) := by
  refine ⟨?_, ?_, ?_⟩
  · apply insertExits_ok K types.length types 0 _ (by simp)
    rw [countP_replicate_none]
    omega
  · intro e he
    unfold lookupExits at he
    obtain ⟨T, hT, rfl⟩ := List.mem_map.mp he
    have hTmem : T ∈ types := (List.mem_filter.mp hT).1
    have hn : 0 < types.length := List.length_pos_of_mem hTmem
    exact lookupProbeExit_of_count (nameTable K types) types.length _ T hn
      (nameTable_length K types) (nameTable_countP K types)
  · intro c C hC hrec
    obtain ⟨hc, hCe⟩ := List.getElem?_eq_some.mp hC
    have hsplit : types.take c ++ C :: types.drop (c + 1) = types := by
      rw [← hCe, ← List.drop_eq_getElem_cons hc, List.take_append_drop]
    have hlen : (types.take c).length = c := by
      rw [List.length_take]; omega
    have hcnt := buildHashTable_countP K types.length (types.take c) 0
      (List.replicate (types.length + 1) none)
    rw [countP_replicate_none, hlen] at hcnt
    have := buildHashTable_stored K types.length C (types.drop (c + 1)) c
      (buildHashTable K types.length (types.take c) 0 (List.replicate (types.length + 1) none))
      (by omega) (by rw [buildHashTable_length]; simp) (by omega) hrec
    have e : nameTable K types = buildHashTable K types.length (C :: types.drop (c + 1)) c
        (buildHashTable K types.length (types.take c) 0
          (List.replicate (types.length + 1) none)) := by
      have h := buildHashTable_append K types.length (types.take c) (C :: types.drop (c + 1)) 0
        (List.replicate (types.length + 1) none)
      rw [hsplit, hlen, Nat.zero_add] at h
      exact h
    rw [e]
    exact this

/-! ## Contracts of the join task and of the sort task -/

theorem joinTask_eq (slots_count : Nat) (src_maps : List (Option RDIM_BakeStringMapLoose))
    (task_idx : Nat) (dst : List (Option (List String8))) :
    joinTask slots_count src_maps task_idx dst
      = rdim_bake_string_map_join_work src_maps dst (joinTaskRange slots_count task_idx).1
          (joinTaskRange slots_count task_idx).2 := rfl

theorem joinStage_eq (slots_count : Nat) (src_maps : List (Option RDIM_BakeStringMapLoose)) :
    joinStage slots_count src_maps
      = (List.range (joinNumTasks slots_count)).foldl
          (fun dst task_idx => joinTask slots_count src_maps task_idx dst)
          (rdim_bake_string_map_loose_make slots_count) := rfl

theorem sortTask_eq (slots_count : Nat) (src : List (Option (List String8)))
    (task_idx : Nat) (dst : List (Option (List String8))) :
    sortTask slots_count src task_idx dst
      = rdim_bake_string_map_sort_work src dst (sortTaskSlots slots_count task_idx).1
          (sortTaskSlots slots_count task_idx).2 := rfl

theorem sortStage_eq (slots_count : Nat) (src : List (Option (List String8))) :
    sortStage slots_count src
      = (List.range (sortNumTasks slots_count)).foldl
          (fun dst task_idx => sortTask slots_count src task_idx dst)
          (rdim_bake_string_map_loose_make slots_count) := rfl

theorem srcSlotStrings_eq (m : Option RDIM_BakeStringMapLoose) (j : Nat) :
    srcSlotStrings m j = slotStrings (srcSlot m j) := by
  cases m with
  | none => rfl
  | some src =>
    rcases src with ⟨slots⟩
    cases slots <;> rfl

theorem joinSlot_null (src : Option RDIM_BakeStringMapLoose)
    (dst : List (Option (List String8))) (j i : Nat) (hd : dst.getD i none = none)
    (hs : srcSlot src i = none) : (joinSlot src dst j).getD i none = none := by
  by_cases hji : j = i
  · subst hji
    cases src with
    | none => exact hd
    | some m =>
      rcases m with ⟨slots⟩
      cases slots with
      | none => exact hd
      | some ss =>
        have hs' : ss.getD j none = none := hs
        simp only [joinSlot]
        rw [hd]
        simp only
        rw [hs']
        by_cases hlt : j < dst.length
        · exact slotGetD_set_self _ _ _ hlt
        · rw [List.getD_eq_getElem?_getD, List.getElem?_eq_none (by simp; omega)]
          rfl
  · rw [joinSlot_other _ _ _ _ hji]
    exact hd

theorem joinInner_null (src : Option RDIM_BakeStringMapLoose) (idxs : List Nat)
    (dst : List (Option (List String8))) (i : Nat) (hd : dst.getD i none = none)
    (hs : srcSlot src i = none) :
    (idxs.foldl (fun dst j => joinSlot src dst j) dst).getD i none = none := by
  induction idxs generalizing dst with
  | nil => exact hd
  | cons j js ih =>
    rw [List.foldl_cons]
    exact ih _ (joinSlot_null src dst j i hd hs)

theorem join_work_null (src_maps : List (Option RDIM_BakeStringMapLoose)) (lo hi : Nat)
    (dst : List (Option (List String8))) (i : Nat) (hd : dst.getD i none = none)
    (hs : ∀ m ∈ src_maps, srcSlot m i = none) :
    (rdim_bake_string_map_join_work src_maps dst lo hi).getD i none = none := by
  unfold rdim_bake_string_map_join_work
  induction src_maps generalizing dst with
  | nil => exact hd
  | cons m ms ih =>
    rw [List.foldl_cons]
    exact ih _ (joinInner_null m _ dst i hd (hs m (List.mem_cons_self _ _)))
      (fun m' hm' => hs m' (List.mem_cons_of_mem _ hm'))

/-- C14: `rdim_bake_string_map_join_work` on the slot range `[min, max)` keeps the
number of destination slots, leaves every slot outside the range as it is,
and leaves a slot of the range that started null with exactly the strings of
that slot of the source maps, concatenated in source-map order, a null map
or slot array giving no string; a slot null in every source map stays
null. -/
theorem join_work_range (src_maps : List (Option RDIM_BakeStringMapLoose))
    (dst : List (Option (List String8))) (min max : Nat) :
    (rdim_bake_string_map_join_work src_maps dst min max).length = dst.length ∧
    (∀ i, (i < min ∨ max ≤ i) →
      (rdim_bake_string_map_join_work src_maps dst min max).getD i none = dst.getD i none) ∧
    (∀ i, min ≤ i → i < max → i < dst.length → dst.getD i none = none →
      slotStrings ((rdim_bake_string_map_join_work src_maps dst min max).getD i none)
        = (src_maps.map (fun m => slotStrings (srcSlot m i))).flatten ∧
      ((∀ m ∈ src_maps, srcSlot m i = none) →
        (rdim_bake_string_map_join_work src_maps dst min max).getD i none = none)) := by
  obtain ⟨h1, h2, h3⟩ := join_work_spec src_maps min max dst
  refine ⟨h1, h2, fun i hlo hhi hlen hnull => ⟨?_, fun hs => ?_⟩⟩
  · rw [h3 i hlo hhi hlen, hnull]
    have e : (fun m => srcSlotStrings m i) = (fun m => slotStrings (srcSlot m i)) := by
      funext m
      exact srcSlotStrings_eq m i
    rw [e]
    rfl
  · exact join_work_null src_maps min max dst i hnull hs

theorem sortSlot_at_any (src dst : List (Option (List String8))) (j : Nat)
    (h : j < dst.length) :
    (sortSlot src dst j).getD j none =
      match src.getD j none with
      | none => dst.getD j none
      | some l => sortedSlot (some l) := by
  unfold sortSlot sortedSlot
  cases hs : src.getD j none with
  | none => rfl
  | some l =>
    simp only
    split
    · rw [slotGetD_set_self _ _ _ h]
    · rw [slotGetD_set_self _ _ _ h]

theorem sort_work_at_any (src : List (Option (List String8))) (len a : Nat)
    (dst : List (Option (List String8))) (i : Nat) (hia : a ≤ i) (hil : i < a + len)
    (hid : i < dst.length) :
    (rdim_bake_string_map_sort_work src dst a len).getD i none =
      match src.getD i none with
      | none => dst.getD i none
      | some l => sortedSlot (some l) := by
  unfold rdim_bake_string_map_sort_work
  induction len generalizing a dst with
  | zero => omega
  | succ len ih =>
    rw [List.range'_succ, List.foldl_cons]
    by_cases hi : i = a
    · subst hi
      have h2 := (sort_work_spec src len (i + 1) (sortSlot src dst i)).2.1 i (by omega)
      unfold rdim_bake_string_map_sort_work at h2
      rw [h2, sortSlot_at_any src dst i hid]
    · rw [ih (a + 1) (sortSlot src dst a) (by omega) (by omega)
        (by rw [sortSlot_length]; exact hid)]
      rw [sortSlot_other _ _ _ _ (by omega)]

theorem sorted_from_unsorted_sorted (l : List String8) :
    List.Sorted (fun a b => a ≤ b) (rdim_bake_string_chunk_list_sorted_from_unsorted l) := by
  unfold rdim_bake_string_chunk_list_sorted_from_unsorted
  exact List.sorted_insertionSort _ _

theorem sorted_from_unsorted_mem (l : List String8) (s : String8) :
    s ∈ rdim_bake_string_chunk_list_sorted_from_unsorted l ↔ s ∈ l := by
  unfold rdim_bake_string_chunk_list_sorted_from_unsorted
  rw [(List.perm_insertionSort _ _).mem_iff, List.mem_dedup]

/-- C15: `rdim_bake_string_map_sort_work` keeps the number of destination slots and
leaves every slot outside `[slot_idx, slot_idx + slot_count)` as it is; for
a slot index of the range, a null source slot leaves the destination slot
as it was (null in a fresh map), a source slot of at most one string is
passed through as the same list, and a source slot of more than one string
gives the list made by the sorting function, which is sorted and holds the
same strings. -/
theorem sort_work_range (src dst : List (Option (List String8))) (slot_idx slot_count : Nat) :
    (rdim_bake_string_map_sort_work src dst slot_idx slot_count).length = dst.length ∧
    (∀ i, (i < slot_idx ∨ slot_idx + slot_count ≤ i) →
      (rdim_bake_string_map_sort_work src dst slot_idx slot_count).getD i none
        = dst.getD i none) ∧
    (∀ i, slot_idx ≤ i → i < slot_idx + slot_count → i < dst.length →
      (src.getD i none = none →
        (rdim_bake_string_map_sort_work src dst slot_idx slot_count).getD i none
          = dst.getD i none) ∧
      (∀ l, src.getD i none = some l → l.length ≤ 1 →
        (rdim_bake_string_map_sort_work src dst slot_idx slot_count).getD i none = some l) ∧
      (∀ l, src.getD i none = some l → 1 < l.length →
        (rdim_bake_string_map_sort_work src dst slot_idx slot_count).getD i none
          = some (rdim_bake_string_chunk_list_sorted_from_unsorted l) ∧
        List.Sorted (fun a b => a ≤ b) (rdim_bake_string_chunk_list_sorted_from_unsorted l) ∧
        ∀ s, s ∈ rdim_bake_string_chunk_list_sorted_from_unsorted l ↔ s ∈ l)) := by
  obtain ⟨h1, h2, _⟩ := sort_work_spec src slot_count slot_idx dst
  refine ⟨h1, h2, fun i hlo hhi hlen => ?_⟩
  have hat := sort_work_at_any src slot_count slot_idx dst i hlo hhi hlen
  refine ⟨fun hs => ?_, fun l hs hl => ?_, fun l hs hl => ⟨?_, sorted_from_unsorted_sorted l,
    sorted_from_unsorted_mem l⟩⟩
  · rw [hat, hs]
  · rw [hat, hs]
    simp only [sortedSlot]
    rw [if_neg (by omega)]
  · rw [hat, hs]
    simp only [sortedSlot]
    rw [if_pos (by omega)]

/-! ## Slot ranges of the join tasks and of the sort tasks -/

theorem joinRange_no_wrap (sc t : Nat) (hsc : sc + 16384 ≤ 2 ^ 64) (ht : t < joinNumTasks sc) :
    joinTaskRange sc t = (t * 16384, min (t * 16384 + 16384) sc) := by
  unfold joinNumTasks at ht
  have e : sc + 16384 - 1 = sc + 16383 := by omega
  rw [e, Nat.mod_eq_of_lt (by omega)] at ht
  have h0 : t * 16384 < sc := by omega
  unfold joinTaskRange
  rw [Nat.mod_eq_of_lt (by omega), Nat.mod_eq_of_lt (by omega)]

theorem sortSlots_no_wrap (sc t : Nat) (hsc : sc + 16384 ≤ 2 ^ 64) (ht : t < sortNumTasks sc) :
    sortTaskSlots sc t = (t * 256, min 256 (sc - t * 256)) := by
  unfold sortNumTasks at ht
  have e : sc + 256 - 1 = sc + 255 := by omega
  rw [e, Nat.mod_eq_of_lt (by omega)] at ht
  have h0 : t * 256 < sc := by omega
  unfold sortTaskSlots
  have e1 : (t * 256) % 2 ^ 64 = t * 256 := Nat.mod_eq_of_lt (by omega)
  have e2 : (t * 256 + 256) % 2 ^ 64 = t * 256 + 256 := Nat.mod_eq_of_lt (by omega)
  have e3 : (sc + 2 ^ 64 - t * 256) % 2 ^ 64 = sc - t * 256 := by omega
  rw [e1, e2, e3]
  split
  · rw [Nat.min_eq_right (by omega)]
  · rw [Nat.min_eq_left (by omega)]

/-- C16: for every slot count of a slot array that fits the 64-bit address space,
the ranges given to the join tasks lie within `[0, slots_count)`, are
pairwise disjoint and cover every slot index below `slots_count`; the same
holds for the ranges `[slot_idx, slot_idx + slot_count)` given to the sort
tasks. -/
theorem task_ranges_partition (slots_count : Nat) (hsc : slots_count + 16384 ≤ 2 ^ 64) :
    (∀ t i, t < joinNumTasks slots_count → inJoinRange slots_count t i → i < slots_count) ∧
    (∀ t1 t2 i, t1 < joinNumTasks slots_count → t2 < joinNumTasks slots_count →
      inJoinRange slots_count t1 i → inJoinRange slots_count t2 i → t1 = t2) ∧
    (∀ i, i < slots_count → ∃ t, t < joinNumTasks slots_count ∧ inJoinRange slots_count t i) ∧
    (∀ t i, t < sortNumTasks slots_count → inSortRange slots_count t i → i < slots_count) ∧
    (∀ t1 t2 i, t1 < sortNumTasks slots_count → t2 < sortNumTasks slots_count →
      inSortRange slots_count t1 i → inSortRange slots_count t2 i → t1 = t2) ∧
    (∀ i, i < slots_count → ∃ t, t < sortNumTasks slots_count ∧ inSortRange slots_count t i) := by
  have hJ : joinNumTasks slots_count = (slots_count + 16383) / 16384 := by
    unfold joinNumTasks
    have e : slots_count + 16384 - 1 = slots_count + 16383 := by omega
    rw [e, Nat.mod_eq_of_lt (by omega)]
  have hS : sortNumTasks slots_count = (slots_count + 255) / 256 := by
    unfold sortNumTasks
    have e : slots_count + 256 - 1 = slots_count + 255 := by omega
    rw [e, Nat.mod_eq_of_lt (by omega)]
  refine ⟨?_, ?_, ?_, ?_, ?_, ?_⟩
  · intro t i ht hi
    unfold inJoinRange at hi
    rw [joinRange_no_wrap slots_count t hsc ht] at hi
    simp only at hi
    omega
  · intro t1 t2 i h1 h2 hi1 hi2
    unfold inJoinRange at hi1 hi2
    rw [joinRange_no_wrap slots_count t1 hsc h1] at hi1
    rw [joinRange_no_wrap slots_count t2 hsc h2] at hi2
    simp only at hi1 hi2
    omega
  · intro i hi
    have ht : i / 16384 < joinNumTasks slots_count := by rw [hJ]; omega
    refine ⟨i / 16384, ht, ?_⟩
    unfold inJoinRange
    rw [joinRange_no_wrap slots_count _ hsc ht]
    simp only
    omega
  · intro t i ht hi
    unfold inSortRange at hi
    rw [sortSlots_no_wrap slots_count t hsc ht] at hi
    simp only at hi
    omega
  · intro t1 t2 i h1 h2 hi1 hi2
    unfold inSortRange at hi1 hi2
    rw [sortSlots_no_wrap slots_count t1 hsc h1] at hi1
    rw [sortSlots_no_wrap slots_count t2 hsc h2] at hi2
    simp only at hi1 hi2
    omega
  · intro i hi
    have ht : i / 256 < sortNumTasks slots_count := by rw [hS]; omega
    refine ⟨i / 256, ht, ?_⟩
    unfold inSortRange
    rw [sortSlots_no_wrap slots_count _ hsc ht]
    simp only
    omega

/-- Witness of C16: 40000 slots, three join tasks and 157 sort tasks. -/
theorem task_ranges_partition_witness :
    (∀ t i, t < joinNumTasks 40000 → inJoinRange 40000 t i → i < 40000) ∧
    (∀ t1 t2 i, t1 < joinNumTasks 40000 → t2 < joinNumTasks 40000 →
      inJoinRange 40000 t1 i → inJoinRange 40000 t2 i → t1 = t2) ∧
    (∀ i, i < 40000 → ∃ t, t < joinNumTasks 40000 ∧ inJoinRange 40000 t i) ∧
    (∀ t i, t < sortNumTasks 40000 → inSortRange 40000 t i → i < 40000) ∧
    (∀ t1 t2 i, t1 < sortNumTasks 40000 → t2 < sortNumTasks 40000 →
      inSortRange 40000 t1 i → inSortRange 40000 t2 i → t1 = t2) ∧
    (∀ i, i < 40000 → ∃ t, t < sortNumTasks 40000 ∧ inSortRange 40000 t i) :=
  task_ranges_partition 40000 (by decide)

/-! ## The string-map topology -/

/-- C18: the slot count of the string-map topology is
`64 + procedures + global variables + thread variables + types / 2` modulo
`2^64`; when that sum is below `2^64` it is the sum itself, at least 64 and
not zero. -/
theorem slots_count_formula (procedures global_variables thread_variables types : Nat) :
    bake_string_map_topology_slots_count procedures global_variables thread_variables types
      = (64 + procedures + global_variables + thread_variables + types / 2) % 2 ^ 64 ∧
    (64 + procedures + global_variables + thread_variables + types / 2 < 2 ^ 64 →
      bake_string_map_topology_slots_count procedures global_variables thread_variables types
        = 64 + procedures + global_variables + thread_variables + types / 2 ∧
      64 ≤ bake_string_map_topology_slots_count procedures global_variables thread_variables
        types ∧
      bake_string_map_topology_slots_count procedures global_variables thread_variables types
        ≠ 0) := by
  unfold bake_string_map_topology_slots_count
  refine ⟨by omega, fun h => ⟨by omega, by omega, by omega⟩⟩

/-! ## Slicing of a chunk list into build tasks -/

theorem Min_eq_min (a b : Nat) : Min a b = min a b := by
  unfold Min
  split <;> omega

theorem sliceFuel_cons {α : Type} (chunk : List α) (next : List (List α)) :
    sliceFuel (chunk :: next) = chunk.length + 1 + sliceFuel next := by
  simp [sliceFuel]

theorem cursorRest_cons {α : Type} (chunk : List α) (next : List (List α)) (off : Nat)
    (h : off ≤ chunk.length) :
    cursorRest (chunk :: next) off = chunk.drop off ++ next.flatten := by
  unfold cursorRest
  rw [List.flatten_cons, List.drop_append_of_le_length h]

theorem cursorRest_nil {α : Type} (off : Nat) : cursorRest ([] : List (List α)) off = [] := by
  simp [cursorRest]

theorem cursorRest_zero {α : Type} (chunks : List (List α)) :
    cursorRest chunks 0 = chunks.flatten := by
  simp [cursorRest]

theorem validCursor_zero {α : Type} (chunks : List (List α)) : ValidCursor chunks 0 := by
  cases chunks with
  | nil => trivial
  | cons c cs => exact Nat.zero_le _

/-- One run of the inner loop hands out, in order, a prefix of the elements left at
the cursor, and stops either at the end of the chunk list or after exactly
`items_left` elements. -/
theorem sliceTaskLoop_spec {α : Type} (fuel : Nat) (chunks : List (List α))
    (off items_left : Nat) (hv : ValidCursor chunks off)
    (hfuel : sliceFuel chunks ≤ fuel + off)
    (hbound : chunks.flatten.length + 4096 ≤ 2 ^ 64) (hil : items_left < 2 ^ 64)
    (hmode : items_left ≤ 4096 ∨ (cursorRest chunks off).length < items_left) :
    ∃ slices c' o', sliceTaskLoop fuel chunks off items_left = some (slices, c', o') ∧
      ValidCursor c' o' ∧
      slices.flatten ++ cursorRest c' o' = cursorRest chunks off ∧
      c'.flatten.length ≤ chunks.flatten.length ∧
      (c' = [] ∨ slices.flatten.length = items_left) := by
  induction fuel generalizing chunks off items_left with
  | zero =>
    cases chunks with
    | nil =>
      exact ⟨[], [], off, by simp [sliceTaskLoop], trivial, by simp [cursorRest], le_refl _,
        Or.inl rfl⟩
    | cons chunk next =>
      rw [sliceFuel_cons] at hfuel
      have hv' : off ≤ chunk.length := hv
      omega
  | succ fuel ih =>
    cases chunks with
    | nil =>
      exact ⟨[], [], off, by simp [sliceTaskLoop], trivial, by simp [cursorRest], le_refl _,
        Or.inl rfl⟩
    | cons chunk next =>
      have hv' : off ≤ chunk.length := hv
      rw [sliceFuel_cons] at hfuel
      have hflat : (chunk :: next).flatten.length = chunk.length + next.flatten.length := by
        simp
      rw [hflat] at hbound
      have hrest : (cursorRest (chunk :: next) off).length
          = chunk.length - off + next.flatten.length := by
        rw [cursorRest_cons chunk next off hv']
        simp
      rw [hrest] at hmode
      by_cases hpos : items_left > 0
      · have e0 : (chunk.length + 2 ^ 64 - off) % 2 ^ 64 = chunk.length - off := by omega
        have hitems : Min 4096 ((chunk.length + 2 ^ 64 - off) % 2 ^ 64)
            = min 4096 (chunk.length - off) := by rw [e0, Min_eq_min]
        simp only [sliceTaskLoop, hpos, if_true, hitems]
        generalize hI : min 4096 (chunk.length - off) = items
        have hI1 : items ≤ 4096 := by omega
        have hI2 : items ≤ chunk.length - off := by omega
        have hI3 : items = 4096 ∨ items = chunk.length - off := by omega
        have e1 : (off + items) % 2 ^ 64 = off + items := Nat.mod_eq_of_lt (by omega)
        rw [e1]
        by_cases hadv : off + items ≥ chunk.length
        · rw [if_pos hadv]
          have hall : items = chunk.length - off := by omega
          obtain ⟨slices, c', o', hrun, hval, heq, hlen, hd⟩ :=
            ih next 0 ((items_left + 2 ^ 64 - items) % 2 ^ 64) (validCursor_zero next)
              (by omega) (by omega)
              (Nat.mod_lt _ (by omega)) (by
                rw [cursorRest_zero]
                omega)
          rw [hrun]
          refine ⟨List.take items (chunk.drop off) :: slices, c', o', rfl, hval, ?_, by omega, ?_⟩
          · rw [List.flatten_cons, List.append_assoc, heq, cursorRest_zero,
              cursorRest_cons chunk next off hv']
            congr 1
            apply List.take_of_length_le
            simp
            omega
          · rcases hd with hd | hd
            · exact Or.inl hd
            · right
              have hle : slices.flatten.length ≤ next.flatten.length := by
                have := congrArg List.length heq
                rw [cursorRest_zero, List.length_append] at this
                omega
              rw [List.flatten_cons, List.length_append, List.length_take, List.length_drop]
              omega
        · rw [if_neg hadv]
          have h4096 : items = 4096 := by omega
          obtain ⟨slices, c', o', hrun, hval, heq, hlen, hd⟩ :=
            ih (chunk :: next) (off + items) ((items_left + 2 ^ 64 - items) % 2 ^ 64)
              (show off + items ≤ chunk.length by omega)
              (by rw [sliceFuel_cons]; omega) (by rw [hflat]; omega)
              (Nat.mod_lt _ (by omega)) (by
                rw [cursorRest_cons chunk next (off + items) (by omega)]
                simp only [List.length_append, List.length_drop]
                omega)
          rw [hrun]
          refine ⟨List.take items (chunk.drop off) :: slices, c', o', rfl, hval, ?_,
            by rw [hflat]; rw [hflat] at hlen; exact hlen, ?_⟩
          · rw [List.flatten_cons, List.append_assoc, heq,
              cursorRest_cons chunk next (off + items) (by omega),
              cursorRest_cons chunk next off hv', ← List.append_assoc]
            congr 1
            have := List.take_append_drop items (chunk.drop off)
            rw [List.drop_drop] at this
            exact this
          · rcases hd with hd | hd
            · exact Or.inl hd
            · right
              have hle : slices.flatten.length ≤ chunk.length - (off + items)
                  + next.flatten.length := by
                have := congrArg List.length heq
                rw [cursorRest_cons chunk next (off + items) (by omega), List.length_append,
                  List.length_append, List.length_drop] at this
                omega
              rw [List.flatten_cons, List.length_append, List.length_take, List.length_drop]
              omega
      · have hz : items_left = 0 := by omega
        refine ⟨[], chunk :: next, off, ?_, hv, by simp, le_refl _, Or.inr (by simp [hz])⟩
        simp [sliceTaskLoop, hz]

/-- The build tasks hand out, in order, a prefix of the elements left at the
cursor; unless the elements run out, every task hands out 4096 of them. -/
theorem sliceTasksLoop_spec {α : Type} (k : Nat) (chunks : List (List α)) (off : Nat)
    (hv : ValidCursor chunks off) (hbound : chunks.flatten.length + 4096 ≤ 2 ^ 64) :
    ∃ tasks c' o', sliceTasksLoop k chunks off = some tasks ∧ tasks.length = k ∧
      (tasks.map List.flatten).flatten ++ cursorRest c' o' = cursorRest chunks off ∧
      (cursorRest c' o' = [] ∨
        (cursorRest c' o').length + 4096 * k = (cursorRest chunks off).length) := by
  induction k generalizing chunks off with
  | zero =>
    exact ⟨[], chunks, off, rfl, rfl, by simp, Or.inr (by simp)⟩
  | succ k ih =>
    obtain ⟨slices, c1, o1, hrun, hval, heq1, hlen1, hd1⟩ :=
      sliceTaskLoop_spec (sliceFuel chunks) chunks off 4096 hv (by omega) hbound (by omega)
        (Or.inl (le_refl _))
    obtain ⟨tasks, c', o', hrun2, hlen2, heq2, hd2⟩ := ih c1 o1 hval (by omega)
    refine ⟨slices :: tasks, c', o', ?_, by simp [hlen2], ?_, ?_⟩
    · simp only [sliceTasksLoop, hrun, hrun2]
    · rw [List.map_cons, List.flatten_cons, List.append_assoc, heq2, heq1]
    · rcases hd1 with hd1 | hd1
      · left
        rw [hd1, cursorRest_nil] at heq2
        exact (List.append_eq_nil.mp heq2).2
      · rcases hd2 with hd2 | hd2
        · exact Or.inl hd2
        · right
          have := congrArg List.length heq1
          rw [List.length_append] at this
          omega

/-- C17: for a chunk list whose `total_count` is the sum of its chunks' counts, the
slicing loop returns, it makes `ceil(total_count / 4096)` tasks, and the
slices of all the tasks, concatenated in task order, are the elements of the
chunk list in order; so each element lies in one slice of one task. -/
theorem build_slices_partition {α : Type} (total_count : Nat) (chunks : List (List α))
    (htotal : total_count = (chunks.map List.length).sum)
    (hbound : total_count + 4096 ≤ 2 ^ 64) :
    ∃ tasks, stringMapBuildSlices total_count chunks = some tasks ∧
      tasks.length = (total_count + 4095) / 4096 ∧
      (tasks.map List.flatten).flatten = chunks.flatten := by
  have hlen : chunks.flatten.length = total_count := by
    rw [List.length_flatten, htotal]
  have hN : buildNumTasks total_count = (total_count + 4095) / 4096 := by
    unfold buildNumTasks
    have e : total_count + 4096 - 1 = total_count + 4095 := by omega
    rw [e, Nat.mod_eq_of_lt (by omega)]
  obtain ⟨tasks, c', o', hrun, hlen2, heq, hd⟩ :=
    sliceTasksLoop_spec (buildNumTasks total_count) chunks 0 (validCursor_zero chunks)
      (by omega)
  refine ⟨tasks, hrun, by rw [hlen2, hN], ?_⟩
  rw [cursorRest_zero] at heq hd
  have hnil : cursorRest c' o' = [] := by
    rcases hd with hd | hd
    · exact hd
    · apply List.eq_nil_of_length_eq_zero
      rw [hlen, hN] at hd
      omega
  rw [hnil, List.append_nil] at heq
  exact heq

/-- Witness of C17: seven elements in four chunks, one of them empty. -/
theorem build_slices_partition_witness :
    ∃ tasks, stringMapBuildSlices 7 [[1, 2, 3], [4, 5], [], [6, (7 : Nat)]] = some tasks ∧
      tasks.length = (7 + 4095) / 4096 ∧
      (tasks.map List.flatten).flatten = [[1, 2, 3], [4, 5], [], [6, (7 : Nat)]].flatten :=
  build_slices_partition 7 [[1, 2, 3], [4, 5], [], [6, 7]] (by decide) (by decide)

/-! ## The aliases of the `raddump` option map -/

/-- C12 (evaluation): the alias `l` selects `RD_Option_LoadConfig`, the option of
the switch `loadconfig`, but its help text names the switch `loadconifg`,
which is the name of no entry and is rejected as unknown; it is the only
alias whose help text does not name a non-alias entry with the alias's
option. -/
theorem alias_help_text_evaluation :
    misnamedAliases = [⟨RD_Option.LoadConfig, "l", "Alias for -loadconifg"⟩] ∧
    aliasTarget "Alias for -loadconifg" = some "loadconifg" ∧
    selectOption "l" = RD_Selection.one RD_Option.LoadConfig ∧
    selectOption "loadconfig" = RD_Selection.one RD_Option.LoadConfig ∧
    selectOption "loadconifg" = RD_Selection.unknown := by
  decide

/-! ## The program order of `rdim_bake` -/

theorem running_foldl_filter (p : BakeTask → Bool) (evs : List BakeEvent) :
    ∀ r : List BakeTask,
      (evs.foldl (fun r e =>
          match e with
          | BakeEvent.launch t => r ++ [t]
          | BakeEvent.join t => r.filter (fun u => decide (u ≠ t))
          | _ => r) r).filter p
      = (evs.filter (concerns p)).foldl (fun r e =>
          match e with
          | BakeEvent.launch t => r ++ [t]
          | BakeEvent.join t => r.filter (fun u => decide (u ≠ t))
          | _ => r) (r.filter p) := by
  induction evs with
  | nil => intro r; rfl
  | cons e evs ih =>
    intro r
    cases e with
    | launch t =>
      cases hp : p t with
      | true =>
        simp only [List.foldl_cons, List.filter_cons, concerns, hp, if_true]
        rw [ih]
        simp [List.filter_append, hp]
      | false =>
        simp only [List.foldl_cons, List.filter_cons, concerns, hp]
        rw [ih]
        simp [List.filter_append, hp]
    | join t =>
      cases hp : p t with
      | true =>
        simp only [List.foldl_cons, List.filter_cons, concerns, hp, if_true]
        rw [ih]
        congr 1
        simp only [List.filter_filter]
        apply List.filter_congr
        intro x _
        exact Bool.and_comm _ _
      | false =>
        simp only [List.foldl_cons, List.filter_cons, concerns, hp]
        rw [ih]
        congr 1
        simp only [List.filter_filter]
        apply List.filter_congr
        intro x _
        by_cases hx : x = t
        · subst hx; simp [hp]
        · simp [hx]
    | join_zero k =>
      simp only [List.foldl_cons, List.filter_cons, concerns]
      exact ih r
    | step s =>
      simp only [List.foldl_cons, List.filter_cons, concerns]
      exact ih r

theorem running_filter (p : BakeTask → Bool) (evs : List BakeEvent) :
    (running evs).filter p = running (evs.filter (concerns p)) := by
  unfold running
  exact running_foldl_filter p evs []

theorem filter_map_eq_nil {α β : Type} (f : α → β) (p : β → Bool) (l : List α)
    (h : ∀ a ∈ l, p (f a) = false) : (l.map f).filter p = [] := by
  rw [List.filter_eq_nil_iff]
  intro b hb
  rw [List.mem_map] at hb
  obtain ⟨a, ha, rfl⟩ := hb
  simp [h a ha]

/-- Every string-map build task is launched with the topology, the in-progress
maps and lists of `in_params`, and nothing else. -/
theorem stringMapBuildTasks_inputs (P : RDIM_BakeCounts) (t : BakeTask)
    (h : t ∈ stringMapBuildTasks P) :
    taskInputs t = [BakeResource.bake_string_map_topology,
      BakeResource.bake_string_maps__in_progress, BakeResource.in_params] := by
  simp only [stringMapBuildTasks, List.mem_append, List.mem_cons, List.mem_map,
    List.mem_flatMap, List.mem_singleton, List.not_mem_nil, or_false] at h
  rcases h with ((((((h | h) | ⟨i, _, h⟩) | ⟨i, _, h⟩) | ⟨j, _, i, _, h⟩) | ⟨i, _, h⟩) | ⟨i, _, h⟩)
    <;> subst h <;> rfl

theorem concerns_stringMapBuild (P : RDIM_BakeCounts) (p : BakeTask → Bool)
    (hp : ∀ t, p t = true → BakeResource.bake_string_map_topology ∉ taskInputs t) :
    (kickOffStringMapBuild P).filter (concerns p) = [] ∧
    (joinStringMapBuild P).filter (concerns p) = [] := by
  have h : ∀ t ∈ stringMapBuildTasks P, p t = false := by
    intro t ht
    cases hpt : p t with
    | false => rfl
    | true =>
      exact absurd (by rw [stringMapBuildTasks_inputs P t ht]; simp) (hp t hpt)
  exact ⟨filter_map_eq_nil _ _ _ h, filter_map_eq_nil _ _ _ h⟩

theorem receivesLocationLists_iff (t : BakeTask) :
    receivesLocationLists t = true ↔ t = BakeTask.scopes ∨ t = BakeTask.procedures := by
  cases t <;> simp [receivesLocationLists, taskInputs]

theorem location_filter_events (P : RDIM_BakeCounts) :
    (rdim_bake_events P).filter (concerns receivesLocationLists)
      = [BakeEvent.launch BakeTask.scopes, BakeEvent.join BakeTask.scopes,
         BakeEvent.launch BakeTask.procedures, BakeEvent.join BakeTask.procedures] := by
  have hb := concerns_stringMapBuild P receivesLocationLists (by
    intro t ht
    rcases (receivesLocationLists_iff t).1 ht with h | h <;> subst h <;> decide)
  have h1 : (kickOffNameMapBuild P).filter (concerns receivesLocationLists) = [] :=
    filter_map_eq_nil _ _ _ (fun _ _ => rfl)
  have h2 : (produceJoinedStringMap P).filter (concerns receivesLocationLists) = [] := by
    simp only [produceJoinedStringMap, List.filter_append]
    rw [filter_map_eq_nil _ _ _ (fun _ _ => rfl), filter_map_eq_nil _ _ _ (fun _ _ => rfl)]
    rfl
  have h3 : (kickOffStringMapSort P).filter (concerns receivesLocationLists) = [] := by
    simp only [kickOffStringMapSort, List.filter_append]
    rw [filter_map_eq_nil _ _ _ (fun _ _ => rfl)]
    rfl
  have h4 : (joinStringMapSort P).filter (concerns receivesLocationLists) = [] :=
    filter_map_eq_nil _ _ _ (fun _ _ => rfl)
  have h5 : (joinNameMapBuild P).filter (concerns receivesLocationLists) = [] :=
    filter_map_eq_nil _ _ _ (fun _ _ => rfl)
  have h6 : (kickOffPass3 P).filter (concerns receivesLocationLists) = [] := by
    simp only [kickOffPass3, List.filter_append]
    rw [filter_map_eq_nil _ _ _ (fun _ _ => rfl)]
    rfl
  have h7 : (joinNameMapBakes P).filter (concerns receivesLocationLists) = [] := by
    apply filter_map_eq_nil
    intro k _
    cases nameMapLaunched P k <;> rfl
  simp only [rdim_bake_events, bakeThroughSortJoin, bakeThroughBuildJoin, bakeFromIdxRunMap,
    List.filter_append, hb.1, hb.2, h1, h2, h3, h4, h5, h6, h7, List.append_nil,
    List.nil_append]
  rfl

/-- C19: in the program order of `rdim_bake` the scope task is launched and
joined, then the procedure task is launched and joined, with no launch or
join of a task that receives `location_blocks` or `location_data_blobs`
anywhere else; these two are the only tasks that receive the lists; and
after any number `k` of events at most one task receiving them is
running. -/
theorem bake_location_tasks_sequential (P : RDIM_BakeCounts) (k : Nat) :
    (∀ t, receivesLocationLists t = true ↔ t = BakeTask.scopes ∨ t = BakeTask.procedures) ∧
    (∃ pre post,
      rdim_bake_events P
        = pre ++ [BakeEvent.launch BakeTask.scopes, BakeEvent.join BakeTask.scopes,
                  BakeEvent.launch BakeTask.procedures, BakeEvent.join BakeTask.procedures]
          ++ post ∧
      (pre ++ post).filter (concerns receivesLocationLists) = []) ∧
    ((running ((rdim_bake_events P).take k)).filter receivesLocationLists).length ≤ 1 := by
  refine ⟨receivesLocationLists_iff, ?_, ?_⟩
  · refine ⟨bakeThroughSortJoin P ++ buildFinalizedStringMap ++ kickOffPass2
        ++ [BakeEvent.step BakeStep.reserve_null_location_block,
            BakeEvent.launch BakeTask.global_variables,
            BakeEvent.join BakeTask.global_variables,
            BakeEvent.launch BakeTask.thread_variables,
            BakeEvent.join BakeTask.thread_variables],
      joinNameMapBuild P ++ bakeFromIdxRunMap P, ?_, ?_⟩
    · simp [rdim_bake_events, locationBlockChain, List.append_assoc]
    · have h := location_filter_events P
      have e : rdim_bake_events P
          = (bakeThroughSortJoin P ++ buildFinalizedStringMap ++ kickOffPass2
              ++ [BakeEvent.step BakeStep.reserve_null_location_block,
                  BakeEvent.launch BakeTask.global_variables,
                  BakeEvent.join BakeTask.global_variables,
                  BakeEvent.launch BakeTask.thread_variables,
                  BakeEvent.join BakeTask.thread_variables])
            ++ ([BakeEvent.launch BakeTask.scopes, BakeEvent.join BakeTask.scopes,
                 BakeEvent.launch BakeTask.procedures, BakeEvent.join BakeTask.procedures]
            ++ (joinNameMapBuild P ++ bakeFromIdxRunMap P)) := by
        simp [rdim_bake_events, locationBlockChain, List.append_assoc]
      have hm : List.filter (concerns receivesLocationLists)
          [BakeEvent.launch BakeTask.scopes, BakeEvent.join BakeTask.scopes,
           BakeEvent.launch BakeTask.procedures, BakeEvent.join BakeTask.procedures]
          = [BakeEvent.launch BakeTask.scopes, BakeEvent.join BakeTask.scopes,
             BakeEvent.launch BakeTask.procedures, BakeEvent.join BakeTask.procedures] := by
        decide
      rw [e] at h
      simp only [List.filter_append, hm] at h ⊢
      have hl := congrArg List.length h
      simp only [List.length_append, List.length_cons, List.length_nil] at hl
      apply List.length_eq_zero.1
      simp only [List.length_append]
      omega
  · rw [running_filter]
    have hpre : ((rdim_bake_events P).take k).filter (concerns receivesLocationLists)
        <+: (rdim_bake_events P).filter (concerns receivesLocationLists) :=
      List.IsPrefix.filter _ (List.take_prefix k _)
    rw [location_filter_events] at hpre
    have hlen := hpre.length_le
    rw [List.prefix_iff_eq_take] at hpre
    rw [hpre]
    simp only [List.length_cons, List.length_nil] at hlen
    generalize (List.filter (concerns receivesLocationLists)
      (List.take k (rdim_bake_events P))).length = n at hlen
    have hn : n = 0 ∨ n = 1 ∨ n = 2 ∨ n = 3 ∨ n = 4 := by omega
    rcases hn with h | h | h | h | h <;> subst h <;> decide

theorem takesStrings_build (P : RDIM_BakeCounts) (t : BakeTask)
    (h : t ∈ stringMapBuildTasks P) : takesStrings t = false := by
  unfold takesStrings
  rw [stringMapBuildTasks_inputs P t h]
  decide

theorem mem_bakeThroughBuildJoin (P : RDIM_BakeCounts) (e : BakeEvent) :
    e ∈ bakeThroughBuildJoin P ↔
      e = BakeEvent.launch BakeTask.line_tables ∨
      e = BakeEvent.step BakeStep.path_tree_from_params ∨
      (∃ t ∈ stringMapBuildTasks P, BakeEvent.launch t = e) ∨
      (∃ k ∈ nameMapKinds P, BakeEvent.launch (BakeTask.build_bake_name_map k) = e) ∨
      (∃ t ∈ stringMapBuildTasks P, BakeEvent.join t = e) := by
  simp only [bakeThroughBuildJoin, kickOffLineTables, kickOffStringMapBuild,
    kickOffNameMapBuild, joinStringMapBuild, List.mem_append, List.mem_cons, List.mem_map,
    List.not_mem_nil, or_false, or_assoc]

theorem mem_produceJoinedStringMap (P : RDIM_BakeCounts) (e : BakeEvent) :
    e ∈ produceJoinedStringMap P ↔
      e = BakeEvent.step BakeStep.unsorted_string_map_make ∨
      (∃ i, i < joinNumTasks (bakeSlotsCount P) ∧
        BakeEvent.launch (BakeTask.string_map_join i) = e) ∨
      (∃ i, i < joinNumTasks (bakeSlotsCount P) ∧
        BakeEvent.join (BakeTask.string_map_join i) = e) ∨
      e = BakeEvent.step BakeStep.push_top_level_info ∨
      e = BakeEvent.step BakeStep.push_binary_sections ∨
      e = BakeEvent.step BakeStep.push_path_tree := by
  simp only [produceJoinedStringMap, List.mem_append, List.mem_cons, List.mem_map,
    List.mem_range, List.not_mem_nil, or_false, or_assoc]

theorem mem_kickOffStringMapSort (P : RDIM_BakeCounts) (e : BakeEvent) :
    e ∈ kickOffStringMapSort P ↔
      e = BakeEvent.step BakeStep.sorted_string_map_make ∨
      (∃ i, i < sortNumTasks (bakeSlotsCount P) ∧
        BakeEvent.launch (BakeTask.string_map_sort i) = e) := by
  simp only [kickOffStringMapSort, List.mem_append, List.mem_cons, List.mem_map,
    List.mem_range, List.not_mem_nil, or_false]

theorem mem_joinStringMapSort (P : RDIM_BakeCounts) (e : BakeEvent) :
    e ∈ joinStringMapSort P ↔
      ∃ i, i < sortNumTasks (bakeSlotsCount P) ∧
        BakeEvent.join (BakeTask.string_map_sort i) = e := by
  simp only [joinStringMapSort, List.mem_map, List.mem_range]

theorem mem_joinNameMapBuild (P : RDIM_BakeCounts) (e : BakeEvent) :
    e ∈ joinNameMapBuild P ↔
      ∃ k ∈ nameMapKinds P, BakeEvent.join (BakeTask.build_bake_name_map k) = e := by
  simp only [joinNameMapBuild, List.mem_map]

theorem mem_bakeThroughSortJoin (P : RDIM_BakeCounts) (e : BakeEvent) :
    e ∈ bakeThroughSortJoin P ↔
      e ∈ bakeThroughBuildJoin P ∨ e ∈ produceJoinedStringMap P ∨
      e ∈ kickOffStringMapSort P ∨ e ∈ joinStringMapSort P := by
  simp only [bakeThroughSortJoin, List.mem_append, or_assoc]

theorem launch_not_mem_bakeThroughSortJoin (P : RDIM_BakeCounts) (t : BakeTask)
    (h : takesStrings t = true) : BakeEvent.launch t ∉ bakeThroughSortJoin P := by
  intro hm
  rw [mem_bakeThroughSortJoin, mem_bakeThroughBuildJoin, mem_produceJoinedStringMap,
    mem_kickOffStringMapSort, mem_joinStringMapSort] at hm
  rcases hm with (hm | hm | ⟨u, hu, hm⟩ | ⟨k, _, hm⟩ | ⟨u, _, hm⟩) |
    (hm | ⟨i, _, hm⟩ | ⟨i, _, hm⟩ | hm | hm | hm) | (hm | ⟨i, _, hm⟩) | ⟨i, _, hm⟩
  all_goals first
    | (injection hm with hm
       subst hm
       first
         | (rw [takesStrings_build P _ hu] at h; cases h)
         | (simp [takesStrings, taskInputs] at h))
    | cases hm

/-- C20: the program order of `rdim_bake` splits, for each producer stage, into
the events up to the last join of the producers and the events after it,
with no consumer in the first part: the string-map build tasks are all
joined before a join task is launched, the join tasks before a sort task is
launched, the sort tasks before the base indices and the final string table
are built, the final string table is built before a task that takes it is
launched, and the name-map build tasks are all joined before the index-run
map is built. -/
theorem bake_producers_before_consumers (P : RDIM_BakeCounts) :
    (∃ pre post, rdim_bake_events P = pre ++ post ∧
      (∀ t ∈ stringMapBuildTasks P, BakeEvent.launch t ∈ pre ∧ BakeEvent.join t ∈ pre) ∧
      (∀ i, BakeEvent.launch (BakeTask.string_map_join i) ∉ pre) ∧
      (∀ i, i < joinNumTasks (bakeSlotsCount P) →
        BakeEvent.launch (BakeTask.string_map_join i) ∈ post)) ∧
    (∃ pre post, rdim_bake_events P = pre ++ post ∧
      (∀ i, i < joinNumTasks (bakeSlotsCount P) →
        BakeEvent.join (BakeTask.string_map_join i) ∈ pre) ∧
      (∀ i, BakeEvent.launch (BakeTask.string_map_sort i) ∉ pre) ∧
      (∀ i, i < sortNumTasks (bakeSlotsCount P) →
        BakeEvent.launch (BakeTask.string_map_sort i) ∈ post)) ∧
    (∃ pre post, rdim_bake_events P = pre ++ post ∧
      (∀ i, i < sortNumTasks (bakeSlotsCount P) →
        BakeEvent.join (BakeTask.string_map_sort i) ∈ pre) ∧
      BakeEvent.step BakeStep.string_map_base_indices ∉ pre ∧
      BakeEvent.step BakeStep.string_map_tight_from_loose ∉ pre ∧
      BakeEvent.step BakeStep.string_map_base_indices ∈ post ∧
      BakeEvent.step BakeStep.string_map_tight_from_loose ∈ post) ∧
    (∃ pre post, rdim_bake_events P = pre ++ post ∧
      BakeEvent.step BakeStep.string_map_tight_from_loose ∈ pre ∧
      (∀ t, takesStrings t = true → BakeEvent.launch t ∉ pre) ∧
      BakeEvent.launch BakeTask.units ∈ post ∧ BakeEvent.launch BakeTask.type_nodes ∈ post) ∧
    (∃ pre post, rdim_bake_events P = pre ++ post ∧
      (∀ k ∈ nameMapKinds P, BakeEvent.launch (BakeTask.build_bake_name_map k) ∈ pre ∧
        BakeEvent.join (BakeTask.build_bake_name_map k) ∈ pre) ∧
      BakeEvent.step BakeStep.idx_run_map_from_params ∉ pre ∧
      BakeEvent.step BakeStep.idx_run_map_from_params ∈ post) := by
  refine ⟨?_, ?_, ?_, ?_, ?_⟩
  · refine ⟨bakeThroughBuildJoin P,
      produceJoinedStringMap P ++ kickOffStringMapSort P ++ joinStringMapSort P
        ++ buildFinalizedStringMap ++ kickOffPass2 ++ locationBlockChain
        ++ joinNameMapBuild P ++ bakeFromIdxRunMap P, ?_, ?_, ?_, ?_⟩
    · simp [rdim_bake_events, bakeThroughSortJoin, List.append_assoc]
    · intro t ht
      rw [mem_bakeThroughBuildJoin, mem_bakeThroughBuildJoin]
      exact ⟨Or.inr (Or.inr (Or.inl ⟨t, ht, rfl⟩)),
        Or.inr (Or.inr (Or.inr (Or.inr ⟨t, ht, rfl⟩)))⟩
    · intro i hm
      rw [mem_bakeThroughBuildJoin] at hm
      rcases hm with hm | hm | ⟨u, hu, hm⟩ | ⟨k, _, hm⟩ | ⟨u, _, hm⟩
      · cases hm
      · cases hm
      · injection hm with hm
        subst hm
        have := stringMapBuildTasks_inputs P _ hu
        simp [taskInputs] at this
      · cases hm
      · cases hm
    · intro i hi
      simp only [List.mem_append, mem_produceJoinedStringMap]
      exact Or.inl (Or.inl (Or.inl (Or.inl (Or.inl (Or.inl (Or.inl
        (Or.inr (Or.inl ⟨i, hi, rfl⟩))))))))
  · refine ⟨bakeThroughBuildJoin P ++ produceJoinedStringMap P,
      kickOffStringMapSort P ++ joinStringMapSort P
        ++ buildFinalizedStringMap ++ kickOffPass2 ++ locationBlockChain
        ++ joinNameMapBuild P ++ bakeFromIdxRunMap P, ?_, ?_, ?_, ?_⟩
    · simp [rdim_bake_events, bakeThroughSortJoin, List.append_assoc]
    · intro i hi
      simp only [List.mem_append, mem_produceJoinedStringMap]
      exact Or.inr (Or.inr (Or.inr (Or.inl ⟨i, hi, rfl⟩)))
    · intro i hm
      rw [List.mem_append, mem_bakeThroughBuildJoin, mem_produceJoinedStringMap] at hm
      rcases hm with (hm | hm | ⟨u, hu, hm⟩ | ⟨k, _, hm⟩ | ⟨u, _, hm⟩) |
        (hm | ⟨j, _, hm⟩ | ⟨j, _, hm⟩ | hm | hm | hm)
      all_goals first
        | (injection hm with hm
           subst hm
           have := stringMapBuildTasks_inputs P _ hu
           simp [taskInputs] at this)
        | cases hm
    · intro i hi
      simp only [List.mem_append, mem_kickOffStringMapSort]
      exact Or.inl (Or.inl (Or.inl (Or.inl (Or.inl (Or.inl
        (Or.inr ⟨i, hi, rfl⟩))))))
  · refine ⟨bakeThroughSortJoin P,
      buildFinalizedStringMap ++ kickOffPass2 ++ locationBlockChain
        ++ joinNameMapBuild P ++ bakeFromIdxRunMap P, ?_, ?_, ?_, ?_, ?_, ?_⟩
    · simp [rdim_bake_events, List.append_assoc]
    · intro i hi
      rw [mem_bakeThroughSortJoin, mem_joinStringMapSort]
      exact Or.inr (Or.inr (Or.inr ⟨i, hi, rfl⟩))
    · intro hm
      rw [mem_bakeThroughSortJoin, mem_bakeThroughBuildJoin, mem_produceJoinedStringMap,
        mem_kickOffStringMapSort, mem_joinStringMapSort] at hm
      rcases hm with (hm | hm | ⟨u, hu, hm⟩ | ⟨k, _, hm⟩ | ⟨u, _, hm⟩) |
        (hm | ⟨i, _, hm⟩ | ⟨i, _, hm⟩ | hm | hm | hm) | (hm | ⟨i, _, hm⟩) | ⟨i, _, hm⟩
      all_goals cases hm
    · intro hm
      rw [mem_bakeThroughSortJoin, mem_bakeThroughBuildJoin, mem_produceJoinedStringMap,
        mem_kickOffStringMapSort, mem_joinStringMapSort] at hm
      rcases hm with (hm | hm | ⟨u, hu, hm⟩ | ⟨k, _, hm⟩ | ⟨u, _, hm⟩) |
        (hm | ⟨i, _, hm⟩ | ⟨i, _, hm⟩ | hm | hm | hm) | (hm | ⟨i, _, hm⟩) | ⟨i, _, hm⟩
      all_goals cases hm
    · simp [buildFinalizedStringMap]
    · simp [buildFinalizedStringMap]
  · refine ⟨bakeThroughSortJoin P ++ buildFinalizedStringMap,
      kickOffPass2 ++ locationBlockChain ++ joinNameMapBuild P ++ bakeFromIdxRunMap P,
      ?_, ?_, ?_, ?_, ?_⟩
    · simp [rdim_bake_events, List.append_assoc]
    · simp [buildFinalizedStringMap]
    · intro t ht hm
      rw [List.mem_append] at hm
      rcases hm with hm | hm
      · exact launch_not_mem_bakeThroughSortJoin P t ht hm
      · simp [buildFinalizedStringMap] at hm
    · simp [kickOffPass2]
    · simp [bakeFromIdxRunMap, kickOffPass3]
  · refine ⟨bakeThroughSortJoin P ++ buildFinalizedStringMap ++ kickOffPass2
        ++ locationBlockChain ++ joinNameMapBuild P, bakeFromIdxRunMap P, ?_, ?_, ?_, ?_⟩
    · simp [rdim_bake_events, List.append_assoc]
    · intro k hk
      simp only [List.mem_append, mem_bakeThroughSortJoin, mem_bakeThroughBuildJoin,
        mem_joinNameMapBuild]
      exact ⟨Or.inl (Or.inl (Or.inl (Or.inl (Or.inl (Or.inr (Or.inr (Or.inr
          (Or.inl ⟨k, hk, rfl⟩)))))))),
        Or.inr ⟨k, hk, rfl⟩⟩
    · intro hm
      simp only [List.mem_append] at hm
      rcases hm with (((hm | hm) | hm) | hm) | hm
      · rw [mem_bakeThroughSortJoin, mem_bakeThroughBuildJoin, mem_produceJoinedStringMap,
          mem_kickOffStringMapSort, mem_joinStringMapSort] at hm
        rcases hm with (hm | hm | ⟨u, hu, hm⟩ | ⟨k, _, hm⟩ | ⟨u, _, hm⟩) |
          (hm | ⟨i, _, hm⟩ | ⟨i, _, hm⟩ | hm | hm | hm) | (hm | ⟨i, _, hm⟩) | ⟨i, _, hm⟩
        all_goals cases hm
      · simp [buildFinalizedStringMap] at hm
      · simp [kickOffPass2] at hm
      · simp [locationBlockChain] at hm
      · rw [mem_joinNameMapBuild] at hm
        obtain ⟨k, _, hm⟩ := hm
        cases hm
    · simp [bakeFromIdxRunMap, buildIdxRunMap]

/-! ## `rdim_local_hash` is the polynomial rolling hash -/

theorem rdim_local_hash_snoc (s : String8) (b : Fin 256) :
    rdim_local_hash (s ++ [b]) = (33 * rdim_local_hash s + b.val) % 2 ^ 64 := by
  unfold rdim_local_hash
  rw [List.foldl_append]
  simp only [List.foldl_cons, List.foldl_nil, Nat.shiftLeft_eq]
  omega

theorem rollingHashTerms_snoc (s : String8) (b : Fin 256) :
    (rollingHashTerms (s ++ [b])).sum = 33 * (rollingHashTerms s).sum + b.val := by
  unfold rollingHashTerms
  rw [List.length_append, List.length_singleton, List.range_succ, List.map_append,
    List.sum_append]
  have h1 : (List.range s.length).map
      (fun i => ((s ++ [b]).getD i 0).val * 33 ^ (s.length + 1 - 1 - i))
      = (List.range s.length).map (fun i => 33 * ((s.getD i 0).val * 33 ^ (s.length - 1 - i))) := by
    apply List.map_congr_left
    intro i hi
    rw [List.mem_range] at hi
    have e : s.length + 1 - 1 - i = (s.length - 1 - i) + 1 := by omega
    rw [e, pow_succ, List.getD_append _ _ _ _ hi]
    ring
  rw [h1, List.sum_map_mul_left]
  simp [List.getD_append_right]

theorem rdim_local_hash_formula (s : String8) : rdim_local_hash s = rollingHashFormula s := by
  induction s using List.reverseRecOn with
  | nil => rfl
  | append_singleton s b ih =>
    rw [rdim_local_hash_snoc, ih]
    unfold rollingHashFormula
    rw [rollingHashTerms_snoc, List.length_append, List.length_singleton, pow_succ 33 s.length]
    generalize (rollingHashTerms s).sum = S
    generalize 33 ^ s.length = Q
    omega

/-- C21: `rdim_local_hash` is the polynomial rolling hash with multiplier 33 and
seed 5381 in 64-bit wrapping arithmetic: its value on a byte string `s` of
length `n` is `(5381 * 33^n + sum of s[i] * 33^(n-1-i)) mod 2^64`, the hash of
the empty string is 5381, and appending a byte `b` gives
`(33 * hash(s) + b) mod 2^64`. -/
theorem rdim_local_hash_polynomial (s : String8) (b : Fin 256) :
    rdim_local_hash s = rollingHashFormula s ∧
    rdim_local_hash [] = 5381 ∧
    rdim_local_hash (s ++ [b]) = (33 * rdim_local_hash s + b.val) % 2 ^ 64 :=
  ⟨rdim_local_hash_formula s, rfl, rdim_local_hash_snoc s b⟩

/-! ## The destination buffer of `rdim_compress` -/

/-- C22 (evaluation): the buffer `rdim_compress` allocates for a section has exactly the
input's `encoded_size` bytes, so an encoder within the contract
`output ≤ input + overhead` can write up to `overhead` bytes past its end:
the literal-coding encoder meets the contract with overhead 1 and writes 2
bytes into the 1-byte buffer of a one-byte section.  The buffer is large
enough only for an encoder that never expands its input. -/
theorem compress_buffer_overrun :
    EncoderWithinOverhead literalEncoder 1 ∧
    compressBufferSize ⟨[7], 1, 1, 0⟩ = 1 ∧
    (compressSection 1 literalEncoder ⟨[7], 1, 1, 0⟩).data.length = 2 ∧
    (∀ (encode : String8 → Nat → Nat × String8) (overhead : Nat),
      EncoderWithinOverhead encode overhead →
      ∀ (lzb : Nat) (src : RDIM_SerializedSection),
        (compressSection lzb encode src).data.length ≤ compressBufferSize src + overhead) ∧
    (∀ (encode : String8 → Nat → Nat × String8), EncoderWithinOverhead encode 0 →
      ∀ (lzb : Nat) (src : RDIM_SerializedSection),
        (compressSection lzb encode src).data.length ≤ compressBufferSize src) := by
  refine ⟨?_, rfl, rfl, ?_, ?_⟩
  · intro data size
    simp only [literalEncoder, List.length_cons, List.length_take]
    omega
  · intro encode overhead h lzb src
    exact h src.data src.encoded_size
  · intro encode h lzb src
    exact h src.data src.encoded_size

/-! ## Soundness of the matches of the resolver -/

theorem lookupMatches_names (e : HtEntry) (T : RDIM_Type) (h : lookupMatches e T = true) :
    (e.link_name ≠ [] → e.link_name = T.link_name ∧ entryName e = resolvingName T) ∧
    (e.link_name = [] → e.name = T.name) := by
  unfold lookupMatches str8_match at h
  constructor
  · intro hl
    have hlen : e.link_name.length ≠ 0 := fun hc => hl (List.length_eq_zero.1 hc)
    rw [if_pos hlen] at h
    have heq : e.link_name = T.link_name := of_decide_eq_true h
    refine ⟨heq, ?_⟩
    unfold entryName resolvingName
    rw [if_pos hlen, if_pos (by rw [← heq]; exact hlen), heq]
  · intro hl
    have hlen : ¬ e.link_name.length ≠ 0 := by simp [hl]
    rw [if_neg hlen] at h
    exact of_decide_eq_true h

/-- C23 (amended): whenever the forward map sends the incomplete type `T` (at
position `j`) to the type of index `c + 1`, that type `C` is of record kind
and passes the match test of the lookup: when `C` has a link name it equals
the link name of `T`, and then the resolving names are equal; when `C` has
no link name, `C` and `T` have the same name, and their resolving names are
equal if `T` has no link name either. -/
theorem resolve_match_sound (K : TypeKindConsts) (types : List RDIM_Type) (j c : Nat)
    (T : RDIM_Type) (hT : types[j]? = some T)
    (hmap : (fwdPass K types).2.getD (j + 1) 0 = c + 1) :
    ∃ C, types[c]? = some C ∧ isRecordKind K C.kind = true ∧
      isIncompleteKind K T.kind = true ∧
      (C.link_name ≠ [] → C.link_name = T.link_name ∧ resolvingName C = resolvingName T) ∧
      (C.link_name = [] → C.name = T.name) ∧
      (C.link_name = [] → T.link_name = [] → resolvingName C = resolvingName T) := by
  obtain ⟨j', T', e, c', C, h1, h2, h3, _, h5, h6, h7, h8, h9⟩ :=
    fwd_entry_target K types (j + 1) (by rw [hmap]; omega)
  have hj : j' = j := by omega
  subst hj
  rw [hT] at h2
  cases h2
  rw [hmap, h8] at h5
  have hc : c' = c := by simp only at h5; omega
  subst hc
  have hn := lookupMatches_names e T h9
  subst h8
  refine ⟨C, h6, h7, h3, ?_, hn.2, ?_⟩
  · intro hl
    have := hn.1 hl
    exact ⟨this.1, by simpa [entryName, resolvingName] using this.2⟩
  · intro hl hlT
    have := hn.2 hl
    simp only at this hl
    unfold resolvingName
    rw [hl, hlT]
    simpa using this

/-- Witness of C23 (amended): in the sample list the incomplete `Foo` at position
1 is sent to the complete struct `Foo` at position 0. -/
theorem resolve_match_sound_witness :
    ∃ C, sampleTypes[0]? = some C ∧ isRecordKind rdiKinds C.kind = true ∧
      isIncompleteKind rdiKinds
        ({ kind := 0x2005, name := [70, 111, 111], link_name := [], direct_type := 0,
           param_types := none } : RDIM_Type).kind = true ∧
      (C.link_name ≠ [] → C.link_name = ([] : String8) ∧
        resolvingName C = resolvingName
          ({ kind := 0x2005, name := [70, 111, 111], link_name := [], direct_type := 0,
             param_types := none } : RDIM_Type)) ∧
      (C.link_name = [] → C.name = [70, 111, 111]) ∧
      (C.link_name = [] → ([] : String8) = [] → resolvingName C = resolvingName
          ({ kind := 0x2005, name := [70, 111, 111], link_name := [], direct_type := 0,
             param_types := none } : RDIM_Type)) :=
  resolve_match_sound rdiKinds sampleTypes 1 0
    { kind := 0x2005, name := [70, 111, 111], link_name := [], direct_type := 0,
      param_types := none }
    (by decide) (by decide)

/-- C23 (counterexample): the incomplete struct named `A` with link name `D` is
mapped to the complete struct named `A` without link name, although their
resolving names `D` and `A` differ: the pointer to the incomplete struct is
redirected and the incomplete struct gets the null kind. -/
theorem resolve_match_unsound_counterexample :
    (fwdPass rdiKinds crossNameTypes).2 = [0, 0, 1, 0] ∧
    rdim_local_resolve_incomplete_types rdiKinds crossNameTypes [] = some
      ([ { kind := 0x2000, name := [65], link_name := [], direct_type := 0,
           param_types := none },
         { kind := 0, name := [65], link_name := [68], direct_type := 0, param_types := none },
         { kind := 0x1001, name := [], link_name := [], direct_type := 1,
           param_types := none } ], []) ∧
    resolvingName { kind := 0x2005, name := [65], link_name := [68], direct_type := 0,
                    param_types := none } = [68] ∧
    resolvingName { kind := 0x2000, name := [65], link_name := [], direct_type := 0,
                    param_types := none } = [65] := by
  decide

/-! ## Idempotence of the resolver -/

theorem insertProbe_congr (ht : List (Option HtEntry)) (m best : Nat) (t t' : RDIM_Type)
    (name : String8) (h : t'.name = t.name) (fuel slot : Nat) :
    insertProbe ht m best t' name fuel slot = insertProbe ht m best t name fuel slot := by
  induction fuel generalizing slot with
  | zero => rfl
  | succ fuel ih =>
    unfold insertProbe
    cases ht.getD slot none with
    | none => rfl
    | some s =>
      have hb : insertBreaks s t' name = insertBreaks s t name := by
        unfold insertBreaks
        rw [h]
      simp only [hb, ih]

theorem resolvingName_congr (t t' : RDIM_Type) (hn : t'.name = t.name)
    (hl : t'.link_name = t.link_name) : resolvingName t' = resolvingName t := by
  unfold resolvingName
  rw [hn, hl]

theorem buildHashTable_map (K : TypeKindConsts) (n : Nat) (g : RDIM_Type → RDIM_Type)
    (hg : ∀ t, (g t).name = t.name ∧ (g t).link_name = t.link_name ∧
      isRecordKind K (g t).kind = isRecordKind K t.kind)
    (ts : List RDIM_Type) :
    ∀ (i : Nat) (ht : List (Option HtEntry)),
      buildHashTable K n (ts.map g) i ht = buildHashTable K n ts i ht := by
  induction ts with
  | nil => intro i ht; rfl
  | cons t rest ih =>
    intro i ht
    obtain ⟨h1, h2, h3⟩ := hg t
    rw [List.map_cons]
    unfold buildHashTable
    simp only [h3, resolvingName_congr t (g t) h1 h2, h1, h2,
      insertProbe_congr ht (n + 1) _ t (g t) _ h1, ih]

theorem nameTable_map (K : TypeKindConsts) (g : RDIM_Type → RDIM_Type)
    (hg : ∀ t, (g t).name = t.name ∧ (g t).link_name = t.link_name ∧
      isRecordKind K (g t).kind = isRecordKind K t.kind)
    (ts : List RDIM_Type) : nameTable K (ts.map g) = nameTable K ts := by
  unfold nameTable
  rw [List.length_map, buildHashTable_map K _ g hg]

theorem lookupProbe_congr (ht : List (Option HtEntry)) (m best : Nat) (t t' : RDIM_Type)
    (hn : t'.name = t.name) (hl : t'.link_name = t.link_name) (fuel slot : Nat) :
    lookupProbe ht m best t' fuel slot = lookupProbe ht m best t fuel slot := by
  induction fuel generalizing slot with
  | zero => rfl
  | succ fuel ih =>
    unfold lookupProbe
    cases ht.getD slot none with
    | none => rfl
    | some s =>
      have hb : lookupMatches s t' = lookupMatches s t := by
        unfold lookupMatches
        rw [hn, hl]
      simp only [hb, ih]

theorem findMatch_congr (ht : List (Option HtEntry)) (n : Nat) (t t' : RDIM_Type)
    (hn : t'.name = t.name) (hl : t'.link_name = t.link_name) :
    findMatch ht n t' = findMatch ht n t := by
  unfold findMatch
  simp only [resolvingName_congr t t' hn hl, lookupProbe_congr ht _ _ t t' hn hl]

/-- A call that returns has read `fwd_map` only in bounds: every reference is in
range. -/
theorem refsInRange_of_defined (K : TypeKindConsts) (types : List RDIM_Type)
    (udts : List RDIM_UDT)
    (h : (rdim_local_resolve_incomplete_types K types udts).isSome = true) :
    RefsInRange types udts := by
  unfold rdim_local_resolve_incomplete_types at h
  have h1 := resolveTypes_isSome (fwdPass K types).2 (fwdPass K types).1
  have h2 := resolveUDTs_isSome (fwdPass K types).2 udts
  rw [fwdPass_snd_length] at h1 h2
  cases hT : resolveTypes (fwdPass K types).2 (fwdPass K types).1 with
  | none => rw [hT] at h; cases h
  | some ts =>
    rw [hT] at h h1
    simp only at h
    cases hU : resolveUDTs (fwdPass K types).2 udts with
    | none => rw [hU] at h; cases h
    | some us =>
      rw [hU] at h2
      have r1 := h1.1 rfl
      have r2 := h2.1 rfl
      constructor
      · intro t ht
        have hreads : ∀ r ∈ typeFwdReads t, r < types.length + 1 := by
          intro r hr
          apply r1
          rw [fwdPass_fst, List.map_map]
          simp only [List.mem_flatten, List.mem_map, Function.comp_apply]
          exact ⟨typeFwdReads t, ⟨t, ht, supersede_typeFwdReads K _ _ t⟩, hr⟩
        constructor
        · by_cases hd : t.direct_type = 0
          · omega
          · have := hreads t.direct_type (by simp [typeFwdReads, hd])
            omega
        · intro r hr
          have := hreads r (by simp [typeFwdReads, hr])
          omega
      · intro u hu
        have hreads : ∀ r ∈ udtFwdReads u, r < types.length + 1 := by
          intro r hr
          apply r2
          simp only [List.mem_flatten, List.mem_map]
          exact ⟨udtFwdReads u, ⟨u, hu, rfl⟩, hr⟩
        constructor
        · have := hreads u.self_type (by simp [udtFwdReads])
          omega
        · intro m hm
          have := hreads m.type (by
            simp only [udtFwdReads, List.mem_cons, List.mem_map]
            exact Or.inr ⟨m, hm, rfl⟩)
          omega

theorem rewritten_le (K : TypeKindConsts) (types : List RDIM_Type) (r : Nat)
    (h : r ≤ types.length) : rewritten K types r ≤ types.length := by
  unfold rewritten fwdApply
  split
  · rename_i hne
    obtain ⟨_, _, e, c, C, _, _, _, _, h5, h6, _, h8, _⟩ := fwd_entry_target K types r hne
    rw [h5, h8]
    have := (List.getElem?_eq_some.mp h6).1
    simp only
    omega
  · exact h

/-- The type list the resolver returns, as a map over the input list: the kind is
superseded, then the references are rewritten. -/
theorem resolvedType_props (K : TypeKindConsts) (ht : List (Option HtEntry)) (n : Nat)
    (f : Nat → Nat)
    (hNr : isRecordKind K K.NULL = false) (hNi : isIncompleteKind K K.NULL = false)
    (hdisj : K.LastRecord < K.FirstIncomplete ∨ K.LastIncomplete < K.FirstUserDefined)
    (t : RDIM_Type) :
    ({ supersede K ht n t with
        direct_type := f (supersede K ht n t).direct_type,
        param_types := (supersede K ht n t).param_types.map (List.map f) } : RDIM_Type).name
      = t.name ∧
    ({ supersede K ht n t with
        direct_type := f (supersede K ht n t).direct_type,
        param_types := (supersede K ht n t).param_types.map (List.map f) } : RDIM_Type).link_name
      = t.link_name ∧
    isRecordKind K (supersede K ht n t).kind = isRecordKind K t.kind ∧
    (isIncompleteKind K (supersede K ht n t).kind = true → findMatch ht n t = none) := by
  refine ⟨supersede_name K ht n t, supersede_link_name K ht n t, ?_, ?_⟩
  · rw [supersede_kind]
    split
    · rename_i hc
      rw [hNr]
      cases hr : isRecordKind K t.kind with
      | false => rfl
      | true =>
        have := kinds_disjoint K hdisj t.kind hr
        rw [this] at hc
        exact absurd hc.1 (by simp)
    · rfl
  · rw [supersede_kind]
    split
    · rename_i hc
      intro hi
      rw [hNi] at hi
      cases hi
    · rename_i hc
      intro hi
      cases hm : findMatch ht n t with
      | none => rfl
      | some e => exact absurd ⟨hi, by rw [hm]; rfl⟩ hc

/-- C24: when the null kind lies in neither the record range nor the incomplete
range, and these two ranges are disjoint, the resolver is idempotent:
applied to the type list and the UDT list it returned, it returns them
unchanged (no kind and no reference changes). -/
theorem resolve_idempotent (K : TypeKindConsts) (types types' : List RDIM_Type)
    (udts udts' : List RDIM_UDT)
    (hNr : isRecordKind K K.NULL = false) (hNi : isIncompleteKind K K.NULL = false)
    (hdisj : K.LastRecord < K.FirstIncomplete ∨ K.LastIncomplete < K.FirstUserDefined)
    (h : rdim_local_resolve_incomplete_types K types udts = some (types', udts')) :
    rdim_local_resolve_incomplete_types K types' udts' = some (types', udts') := by
  have hR := refsInRange_of_defined K types udts (by rw [h]; rfl)
  rw [resolve_eq_some K types udts hR] at h
  simp only [Option.some.injEq, Prod.mk.injEq, List.map_map] at h
  obtain ⟨hT, hU⟩ := h
  have hprops := fun t => resolvedType_props K (nameTable K types) types.length
    (rewritten K types) hNr hNi hdisj t
  have hlen : types'.length = types.length := by rw [← hT, List.length_map]
  have htable : nameTable K types' = nameTable K types := by
    rw [← hT]
    apply nameTable_map
    intro t
    exact ⟨(hprops t).1, (hprops t).2.1, (hprops t).2.2.1⟩
  have hnone : ∀ t' ∈ types', isIncompleteKind K t'.kind = true →
      findMatch (nameTable K types') types'.length t' = none := by
    intro t' ht' hi
    rw [← hT, List.mem_map] at ht'
    obtain ⟨t, _, rfl⟩ := ht'
    rw [htable, hlen]
    have := (hprops t).2.2.2 hi
    rw [← this]
    exact findMatch_congr _ _ t _ (hprops t).1 (hprops t).2.1
  have hsup : ∀ t' ∈ types', supersede K (nameTable K types') types'.length t' = t' := by
    intro t' ht'
    unfold supersede
    rw [if_neg]
    intro hc
    rw [hnone t' ht' hc.1] at hc
    exact absurd hc.2 (by simp)
  have hfwd : ∀ r, (fwdPass K types').2.getD r 0 = 0 := by
    intro r
    cases r with
    | zero => exact fwdPass_snd_zero K types'
    | succ j =>
      by_cases hj : j < types'.length
      · rw [fwdPass_snd_at K types' j _ (List.getElem?_eq_getElem hj)]
        unfold fwdEntry
        split
        · rename_i hi
          rw [hnone _ (List.getElem_mem hj) hi]
        · rfl
      · exact fwdPass_snd_high K types' (j + 1) (by omega)
  have hrew : rewritten K types' = id := by
    funext r
    unfold rewritten fwdApply
    rw [hfwd r]
    rfl
  have hR' : RefsInRange types' udts' := by
    constructor
    · intro t' ht'
      rw [← hT, List.mem_map] at ht'
      obtain ⟨t, ht, rfl⟩ := ht'
      have hr := hR.1 t ht
      rw [hlen]
      simp only [Function.comp_apply]
      constructor
      · simp only [supersede_direct_type]
        exact rewritten_le K types _ hr.1
      · intro r hr'
        simp only [supersede_param_types] at hr'
        cases hp : t.param_types with
        | none => rw [hp] at hr'; simp at hr'
        | some ps =>
          rw [hp] at hr'
          simp only [Option.map_some', Option.getD_some, List.mem_map] at hr'
          obtain ⟨r0, hr0, rfl⟩ := hr'
          exact rewritten_le K types _ (hr.2 r0 (by rw [hp]; exact hr0))
    · intro u' hu'
      rw [← hU, List.mem_map] at hu'
      obtain ⟨u, hu, rfl⟩ := hu'
      have hr := hR.2 u hu
      rw [hlen]
      constructor
      · exact rewritten_le K types _ hr.1
      · intro m hm
        simp only [List.mem_map] at hm
        obtain ⟨m0, hm0, rfl⟩ := hm
        exact rewritten_le K types _ (hr.2 m0 hm0)
  rw [resolve_eq_some K types' udts' hR', hrew]
  simp only [Option.some.injEq, Prod.mk.injEq, List.map_map]
  constructor
  · conv_rhs => rw [← List.map_id types']
    apply List.map_congr_left
    intro t' ht'
    simp only [Function.comp_apply, hsup t' ht', id_eq]
    cases t' with
    | mk kind name link_name direct_type param_types =>
      cases param_types <;> simp
  · conv_rhs => rw [← List.map_id udts']
    apply List.map_congr_left
    intro u' _
    cases u' with
    | mk self_type members =>
      simp only [id_eq, RDIM_UDT.mk.injEq, true_and]
      conv_rhs => rw [← List.map_id members]
      apply List.map_congr_left
      intro m _
      rfl

/-- Witness of C24: the result of the resolver on the sample lists is returned
unchanged by a second call. -/
theorem resolve_idempotent_witness :
    rdim_local_resolve_incomplete_types rdiKinds sampleTypes sampleUDTs = some
      ([ { kind := 0x2000, name := [70, 111, 111], link_name := [], direct_type := 0,
           param_types := none },
         { kind := 0, name := [70, 111, 111], link_name := [], direct_type := 0,
           param_types := none },
         { kind := 0x1005, name := [], link_name := [], direct_type := 1,
           param_types := some [1, 1, 0] } ],
       [ { self_type := 1, members := [{ type := 1 }, { type := 3 }] } ]) ∧
    rdim_local_resolve_incomplete_types rdiKinds
      [ { kind := 0x2000, name := [70, 111, 111], link_name := [], direct_type := 0,
          param_types := none },
        { kind := 0, name := [70, 111, 111], link_name := [], direct_type := 0,
          param_types := none },
        { kind := 0x1005, name := [], link_name := [], direct_type := 1,
          param_types := some [1, 1, 0] } ]
      [ { self_type := 1, members := [{ type := 1 }, { type := 3 }] } ] = some
      ([ { kind := 0x2000, name := [70, 111, 111], link_name := [], direct_type := 0,
           param_types := none },
         { kind := 0, name := [70, 111, 111], link_name := [], direct_type := 0,
           param_types := none },
         { kind := 0x1005, name := [], link_name := [], direct_type := 1,
           param_types := some [1, 1, 0] } ],
       [ { self_type := 1, members := [{ type := 1 }, { type := 3 }] } ]) :=
  ⟨by decide,
   resolve_idempotent rdiKinds sampleTypes _ sampleUDTs _ (by decide) (by decide) (by decide)
     (by decide)⟩

/-! ## The number of entities handed to one string-map build task -/

/-- One body of the slicing loop on a chunk of at most 4096 elements met at
`chunk_off = 0`: the whole chunk is one slice, and `items_left` is decreased
by its count in 64-bit arithmetic, whatever its value. -/
theorem sliceTaskLoop_whole_chunk {α : Type} (fuel : Nat) (chunk : List α)
    (next : List (List α)) (items_left : Nat) (hil : 0 < items_left)
    (hlen : chunk.length ≤ 4096) :
    sliceTaskLoop (fuel + 1) (chunk :: next) 0 items_left =
      match sliceTaskLoop fuel next 0 ((items_left + 2 ^ 64 - chunk.length) % 2 ^ 64) with
      | none => none
      | some r => some (chunk :: r.1, r.2) := by
  have hm : Min 4096 ((chunk.length + 2 ^ 64 - 0) % 2 ^ 64) = chunk.length := by
    rw [Min_eq_min]
    omega
  rw [sliceTaskLoop]
  simp only [hm, gt_iff_lt, hil, if_true, List.drop_zero, List.take_length, Nat.zero_add]
  rw [if_pos (by omega)]

/-- The slicing of a chunk list made of one chunk with a single element followed
by a chunk of 4096 elements: the first task is handed both chunks. -/
theorem slices_of_short_then_full {α : Type} (c1 c2 : List α) (h1 : c1.length = 1)
    (h2 : c2.length = 4096) :
    stringMapBuildSlices 4097 [c1, c2] = some [[c1, c2], []] := by
  have hn : buildNumTasks 4097 = 2 := by decide
  have hf : sliceFuel [c1, c2] = 4097 + 1 + 1 := by
    simp [sliceFuel, h1, h2]
  unfold stringMapBuildSlices
  rw [hn, sliceTasksLoop, hf, sliceTaskLoop_whole_chunk _ c1 _ 4096 (by omega) (by omega),
    h1, show (4096 + 2 ^ 64 - 1) % 2 ^ 64 = 4095 from by decide,
    sliceTaskLoop_whole_chunk _ c2 _ 4095 (by omega) (by omega), h2]
  simp only [sliceTaskLoop, sliceTasksLoop]

/-- C25 (evaluation): for a chunk list made of a chunk with one element followed
by a chunk of 4096 elements, `rdim_bake` makes two string-map build tasks,
hands both chunks to the first, 4097 entities, more than `items_per_task`,
and nothing to the second; after the first slice `items_left` is 4095 and
the second slice still takes `Min(items_per_task, 4096)` elements. -/
theorem build_task_over_bound :
    stringMapBuildSlices 4097 [[()], List.replicate 4096 ()]
      = some [[[()], List.replicate 4096 ()], []] ∧
    ([[()], List.replicate 4096 ()].map List.length).sum = 4097 ∧
    Min 4096 ((4096 + 2 ^ 64 - 0) % 2 ^ 64) = 4096 ∧
    (4096 + 2 ^ 64 - 1) % 2 ^ 64 = 4095 ∧
    (4095 + 2 ^ 64 - 4096) % 2 ^ 64 = 2 ^ 64 - 1 := by
  refine ⟨slices_of_short_then_full _ _ rfl (List.length_replicate _ _), ?_, by decide,
    by decide, by decide⟩
  simp only [List.map_cons, List.map_nil, List.length_replicate, List.length_cons,
    List.length_nil, List.sum_cons, List.sum_nil]
  rfl

/-! ## Every task launched by `rdim_bake` is joined -/

theorem running_eq_runningFrom (evs : List BakeEvent) : running evs = runningFrom [] evs := rfl

theorem runningFrom_append (r : List BakeTask) (a b : List BakeEvent) :
    runningFrom r (a ++ b) = runningFrom (runningFrom r a) b := by
  unfold runningFrom
  rw [List.foldl_append]

theorem runningFrom_nil (r : List BakeTask) : runningFrom r [] = r := rfl

theorem runningFrom_cons_launch (r : List BakeTask) (u : BakeTask) (evs : List BakeEvent) :
    runningFrom r (BakeEvent.launch u :: evs) = runningFrom (r ++ [u]) evs := rfl

theorem runningFrom_cons_join (r : List BakeTask) (u : BakeTask) (evs : List BakeEvent) :
    runningFrom r (BakeEvent.join u :: evs)
      = runningFrom (r.filter (fun x => decide (x ≠ u))) evs := rfl

theorem runningFrom_cons_join_zero (r : List BakeTask) (k : Nat) (evs : List BakeEvent) :
    runningFrom r (BakeEvent.join_zero k :: evs) = runningFrom r evs := rfl

theorem runningFrom_cons_step (r : List BakeTask) (s : BakeStep) (evs : List BakeEvent) :
    runningFrom r (BakeEvent.step s :: evs) = runningFrom r evs := rfl

theorem mem_runningFrom_map_launch {α : Type} (f : α → BakeTask) (t : BakeTask)
    (l : List α) : ∀ r : List BakeTask,
    (t ∈ runningFrom r (l.map (fun a => BakeEvent.launch (f a))) ↔
      t ∈ r ∨ ∃ a ∈ l, f a = t) := by
  induction l with
  | nil => intro r; simp [runningFrom_nil]
  | cons a l ih =>
    intro r
    rw [List.map_cons, runningFrom_cons_launch, ih]
    simp only [List.mem_append, List.mem_cons, List.not_mem_nil, or_false, exists_eq_or_imp]
    constructor
    · rintro ((h | h) | h)
      · exact Or.inl h
      · exact Or.inr (Or.inl h.symm)
      · exact Or.inr (Or.inr h)
    · rintro (h | h | h)
      · exact Or.inl (Or.inl h)
      · exact Or.inl (Or.inr h.symm)
      · exact Or.inr h

theorem mem_runningFrom_map_join {α : Type} (f : α → BakeTask) (t : BakeTask)
    (l : List α) : ∀ r : List BakeTask,
    (t ∈ runningFrom r (l.map (fun a => BakeEvent.join (f a))) ↔
      t ∈ r ∧ ¬ ∃ a ∈ l, f a = t) := by
  induction l with
  | nil => intro r; simp [runningFrom_nil]
  | cons a l ih =>
    intro r
    rw [List.map_cons, runningFrom_cons_join, ih]
    simp only [List.mem_filter, decide_eq_true_eq, List.mem_cons, exists_eq_or_imp, not_or]
    constructor
    · rintro ⟨⟨h1, h2⟩, h3⟩
      exact ⟨h1, fun hc => h2 hc.symm, h3⟩
    · rintro ⟨h1, h2, h3⟩
      exact ⟨⟨h1, fun hc => h2 hc.symm⟩, h3⟩

theorem mem_runningFrom_launch_tasks (t : BakeTask) (l : List BakeTask) (r : List BakeTask) :
    t ∈ runningFrom r (l.map BakeEvent.launch) ↔ t ∈ r ∨ t ∈ l := by
  have h := mem_runningFrom_map_launch id t l r
  simpa using h

theorem mem_runningFrom_join_tasks (t : BakeTask) (l : List BakeTask) (r : List BakeTask) :
    t ∈ runningFrom r (l.map BakeEvent.join) ↔ t ∈ r ∧ t ∉ l := by
  have h := mem_runningFrom_map_join id t l r
  simpa using h

theorem mem_runningFrom_filter_launch (c : Nat → Bool) (f : Nat → BakeTask) (t : BakeTask)
    (l : List Nat) (r : List BakeTask) :
    t ∈ runningFrom r ((l.filter c).map (fun k => BakeEvent.launch (f k))) ↔
      t ∈ r ∨ ∃ k ∈ l, c k = true ∧ f k = t := by
  rw [mem_runningFrom_map_launch]
  simp only [List.mem_filter, and_assoc]

theorem mem_runningFrom_join_if (c : Nat → Bool) (f : Nat → BakeTask) (t : BakeTask)
    (l : List Nat) : ∀ r : List BakeTask,
    (t ∈ runningFrom r (l.map (fun k =>
        if c k then BakeEvent.join (f k) else BakeEvent.join_zero k)) ↔
      t ∈ r ∧ ¬ ∃ k ∈ l, c k = true ∧ f k = t) := by
  induction l with
  | nil => intro r; simp [runningFrom_nil]
  | cons a l ih =>
    intro r
    rw [List.map_cons]
    cases hc : c a with
    | true =>
      rw [if_pos rfl, runningFrom_cons_join, ih]
      simp only [List.mem_filter, decide_eq_true_eq, List.mem_cons, exists_eq_or_imp, not_or,
        hc, true_and]
      constructor
      · rintro ⟨⟨h1, h2⟩, h3⟩
        exact ⟨h1, fun hc => h2 hc.symm, h3⟩
      · rintro ⟨h1, h2, h3⟩
        exact ⟨⟨h1, fun hc => h2 hc.symm⟩, h3⟩
    | false =>
      rw [if_neg (by simp), runningFrom_cons_join_zero, ih]
      simp only [List.mem_cons, exists_eq_or_imp, hc, Bool.false_eq_true, false_and, false_or]

theorem mem_runningFrom_of_not_joined (t : BakeTask) (evs : List BakeEvent) :
    ∀ r : List BakeTask, t ∈ r → BakeEvent.join t ∉ evs → t ∈ runningFrom r evs := by
  induction evs with
  | nil => intro r hr _; exact hr
  | cons e evs ih =>
    intro r hr hj
    have hj' : BakeEvent.join t ∉ evs := fun hc => hj (List.mem_cons_of_mem _ hc)
    cases e with
    | launch u =>
      rw [runningFrom_cons_launch]
      exact ih _ (List.mem_append_left _ hr) hj'
    | join u =>
      rw [runningFrom_cons_join]
      refine ih _ ?_ hj'
      rw [List.mem_filter]
      refine ⟨hr, ?_⟩
      simp only [decide_eq_true_eq]
      intro hc
      subst hc
      exact hj (List.mem_cons_self _ _)
    | join_zero k =>
      rw [runningFrom_cons_join_zero]
      exact ih _ hr hj'
    | step s =>
      rw [runningFrom_cons_step]
      exact ih _ hr hj'

theorem running_through_sort_join (P : RDIM_BakeCounts) (t : BakeTask)
    (h : t ∈ runningFrom [] (bakeThroughSortJoin P)) :
    t = BakeTask.line_tables ∨ ∃ a ∈ nameMapKinds P, BakeTask.build_bake_name_map a = t := by
  simp only [bakeThroughSortJoin, bakeThroughBuildJoin,
    kickOffLineTables, kickOffStringMapBuild, kickOffNameMapBuild, joinStringMapBuild,
    produceJoinedStringMap, kickOffStringMapSort, joinStringMapSort,
    runningFrom_append, runningFrom_cons_launch, runningFrom_cons_step, runningFrom_nil,
    mem_runningFrom_launch_tasks, mem_runningFrom_join_tasks, mem_runningFrom_map_launch,
    mem_runningFrom_map_join, List.nil_append, List.mem_singleton] at h
  rcases h with ⟨⟨⟨(h | h) | h, hB⟩ | h, hJ⟩ | h, hS⟩
  · exact Or.inl h
  · exact absurd h hB
  · exact Or.inr h
  · exact absurd h hJ
  · exact absurd h hS

theorem running_location_chain (r : List BakeTask) (t : BakeTask)
    (h : t ∈ runningFrom r locationBlockChain) : t ∈ r := by
  simp only [locationBlockChain, runningFrom_cons_launch, runningFrom_cons_join,
    runningFrom_cons_step, runningFrom_nil, List.mem_filter, List.mem_append,
    List.mem_singleton, decide_eq_true_eq] at h
  rcases h with ⟨⟨⟨⟨h | h, h1⟩ | h, h2⟩ | h, h3⟩ | h, h4⟩
  · exact h
  · exact absurd h h1
  · exact absurd h h2
  · exact absurd h h3
  · exact absurd h h4

theorem running_pass2 (r : List BakeTask) (t : BakeTask)
    (h : t ∈ runningFrom r (buildFinalizedStringMap ++ kickOffPass2)) :
    t ∈ r ∨ t ∈ [BakeTask.units, BakeTask.unit_vmap, BakeTask.src_files, BakeTask.udts,
      BakeTask.global_vmap, BakeTask.scope_vmap, BakeTask.inline_sites, BakeTask.file_paths,
      BakeTask.strings, BakeTask.constants] := by
  have e : kickOffPass2 = [BakeTask.units, BakeTask.unit_vmap,
      BakeTask.src_files, BakeTask.udts, BakeTask.global_vmap, BakeTask.scope_vmap,
      BakeTask.inline_sites, BakeTask.file_paths, BakeTask.strings,
      BakeTask.constants].map BakeEvent.launch := by
    simp only [kickOffPass2, List.map_cons, List.map_nil]
  rw [runningFrom_append, e, mem_runningFrom_launch_tasks] at h
  simp only [buildFinalizedStringMap, runningFrom_cons_step, runningFrom_nil] at h
  exact h

theorem running_from_idx_run_map (P : RDIM_BakeCounts) (r : List BakeTask) (t : BakeTask)
    (h : t ∈ runningFrom r (bakeFromIdxRunMap P)) :
    t ∈ r ∧ t ∉ [BakeTask.units, BakeTask.unit_vmap, BakeTask.src_files, BakeTask.udts,
        BakeTask.global_vmap, BakeTask.scope_vmap, BakeTask.inline_sites, BakeTask.file_paths,
        BakeTask.strings, BakeTask.constants, BakeTask.type_nodes, BakeTask.idx_runs,
        BakeTask.line_tables] := by
  have e : bakeFromIdxRunMap P = buildIdxRunMap ++ ([BakeEvent.launch BakeTask.type_nodes]
      ++ ((nameMapKinds P).filter (nameMapLaunched P)).map
          (fun k => BakeEvent.launch (BakeTask.name_map k))
      ++ [BakeEvent.launch BakeTask.idx_runs])
      ++ [BakeTask.units, BakeTask.unit_vmap, BakeTask.src_files, BakeTask.udts,
        BakeTask.global_vmap, BakeTask.scope_vmap, BakeTask.inline_sites, BakeTask.file_paths,
        BakeTask.strings, BakeTask.constants, BakeTask.type_nodes, BakeTask.idx_runs,
        BakeTask.line_tables].map BakeEvent.join
      ++ joinNameMapBakes P ++ finishBake := by
    simp only [bakeFromIdxRunMap, kickOffPass3, joinRemaining, List.map_cons, List.map_nil,
      List.append_assoc]
  rw [e] at h
  simp only [runningFrom_append] at h
  simp only [finishBake, runningFrom_cons_step, runningFrom_nil] at h
  rw [joinNameMapBakes, mem_runningFrom_join_if] at h
  have h1 := h
  obtain ⟨h2, hnm⟩ := h1
  rw [mem_runningFrom_join_tasks] at h2
  obtain ⟨h3, hnot⟩ := h2
  refine ⟨?_, hnot⟩
  rw [runningFrom_cons_launch, runningFrom_nil, List.mem_append, List.mem_singleton] at h3
  rcases h3 with h3 | h3
  · rw [mem_runningFrom_filter_launch] at h3
    rcases h3 with h3 | h3
    · rw [runningFrom_cons_launch, runningFrom_nil, List.mem_append, List.mem_singleton] at h3
      rcases h3 with h3 | h3
      · exact h3
      · subst h3
        exact absurd (by simp) hnot
    · exact absurd h3 hnm
  · subst h3
    exact absurd (by simp) hnot

theorem running_bake_events (P : RDIM_BakeCounts) : running (rdim_bake_events P) = [] := by
  rw [List.eq_nil_iff_forall_not_mem]
  intro t ht
  rw [running_eq_runningFrom] at ht
  have e : rdim_bake_events P = bakeThroughSortJoin P
      ++ ((buildFinalizedStringMap ++ kickOffPass2) ++ (locationBlockChain
      ++ (joinNameMapBuild P ++ bakeFromIdxRunMap P))) := by
    simp only [rdim_bake_events, List.append_assoc]
  rw [e, runningFrom_append, runningFrom_append, runningFrom_append, runningFrom_append] at ht
  obtain ⟨h1, h2⟩ := running_from_idx_run_map P _ t ht
  rw [joinNameMapBuild, mem_runningFrom_map_join] at h1
  rcases running_pass2 _ t (running_location_chain _ t h1.1) with h4 | h4
  · rcases running_through_sort_join P t h4 with h5 | h5
    · subst h5
      exact absurd (by simp) h2
    · exact h1.2 h5
  · apply h2
    simp only [List.mem_cons, List.not_mem_nil, or_false] at h4 ⊢
    rcases h4 with h | h | h | h | h | h | h | h | h | h <;> simp [h]

theorem launch_name_map_mem (P : RDIM_BakeCounts) (k : Nat)
    (h : BakeEvent.launch (BakeTask.name_map k) ∈ rdim_bake_events P) :
    k ∈ nameMapKinds P ∧ nameMapLaunched P k = true := by
  simp only [rdim_bake_events, bakeFromIdxRunMap, List.mem_append] at h
  rcases h with ((((h | h) | h) | h) | h) | ((((h | h) | h) | h) | h)
  · exact absurd h (launch_not_mem_bakeThroughSortJoin P _ rfl)
  · simp [buildFinalizedStringMap] at h
  · simp [kickOffPass2] at h
  · simp [locationBlockChain] at h
  · rw [mem_joinNameMapBuild] at h
    obtain ⟨_, _, h⟩ := h
    cases h
  · simp [buildIdxRunMap] at h
  · simp only [kickOffPass3, List.mem_append, List.mem_singleton, List.mem_map,
      List.mem_filter] at h
    rcases h with (h | ⟨a, ha, h⟩) | h
    · cases h
    · injection h with h
      injection h with h
      subst h
      exact ha
    · cases h
  · simp [joinRemaining] at h
  · simp only [joinNameMapBakes, List.mem_map] at h
    obtain ⟨a, _, h⟩ := h
    split at h <;> cases h
  · simp [finishBake] at h

/-- C26: every task `rdim_bake` launches is joined before it returns: no task is
running after the last event, and every launch in the program order is
followed by a join of the same task.  A name-map kind fails the launch test
exactly when its map is null or has no names; such a kind launches no bake
task, its handle stays zero, and its entry of `name_map_bakes` stays zeroed
when joining the zero handle yields no result; every other kind of the loop
launches its bake task. -/
theorem bake_all_tasks_joined (P : RDIM_BakeCounts) :
    running (rdim_bake_events P) = [] ∧
    (∀ (t : BakeTask) (pre post : List BakeEvent),
      rdim_bake_events P = pre ++ BakeEvent.launch t :: post → BakeEvent.join t ∈ post) ∧
    (BakeEvent.launch BakeTask.line_tables ∈ rdim_bake_events P ∧
      (∀ t ∈ stringMapBuildTasks P, BakeEvent.launch t ∈ rdim_bake_events P) ∧
      (∀ k ∈ nameMapKinds P,
        BakeEvent.launch (BakeTask.build_bake_name_map k) ∈ rdim_bake_events P)) ∧
    (∀ k, nameMapLaunched P k = false ↔ (P.name_maps k = none ∨ P.name_maps k = some 0)) ∧
    (∀ k, nameMapLaunched P k = false →
      BakeEvent.launch (BakeTask.name_map k) ∉ rdim_bake_events P ∧
      bake_name_maps_tasks P k = none ∧
      ∀ (β : Type) (join_struct : Option BakeTask → Option β) (zero : β),
        join_struct none = none → name_map_bakes P join_struct zero k = zero) ∧
    (∀ k ∈ nameMapKinds P, nameMapLaunched P k = true →
      BakeEvent.launch (BakeTask.name_map k) ∈ rdim_bake_events P) := by
  refine ⟨running_bake_events P, ?_, ⟨?_, ?_, ?_⟩, ?_, ?_, ?_⟩
  · intro t pre post he
    by_contra hj
    have hr := running_bake_events P
    rw [running_eq_runningFrom, he, runningFrom_append, runningFrom_cons_launch] at hr
    have hmem := mem_runningFrom_of_not_joined t post (runningFrom [] pre ++ [t])
      (List.mem_append_right _ (List.mem_singleton_self t)) hj
    rw [hr] at hmem
    cases hmem
  · simp [rdim_bake_events, bakeThroughSortJoin, bakeThroughBuildJoin, kickOffLineTables]
  · intro t ht
    simp only [rdim_bake_events, List.mem_append, mem_bakeThroughSortJoin,
      mem_bakeThroughBuildJoin]
    exact Or.inl (Or.inl (Or.inl (Or.inl (Or.inl (Or.inl
      (Or.inr (Or.inr (Or.inl ⟨t, ht, rfl⟩))))))))
  · intro k hk
    simp only [rdim_bake_events, List.mem_append, mem_bakeThroughSortJoin,
      mem_bakeThroughBuildJoin]
    exact Or.inl (Or.inl (Or.inl (Or.inl (Or.inl (Or.inl
      (Or.inr (Or.inr (Or.inr (Or.inl ⟨k, hk, rfl⟩)))))))))
  · intro k
    unfold nameMapLaunched
    cases P.name_maps k with
    | none => simp
    | some n => simp
  · intro k hk
    refine ⟨fun hm => ?_, ?_, ?_⟩
    · have := (launch_name_map_mem P k hm).2
      rw [hk] at this
      cases this
    · unfold bake_name_maps_tasks
      rw [hk]
      rfl
    · intro β join_struct zero hz
      unfold name_map_bakes bake_name_maps_tasks
      rw [hk]
      simp only [Bool.false_eq_true, if_false, hz]
  · intro k hk hl
    simp only [rdim_bake_events, bakeFromIdxRunMap, kickOffPass3, List.mem_append,
      List.mem_map, List.mem_filter]
    exact Or.inr (Or.inl (Or.inl (Or.inl (Or.inr (Or.inl (Or.inr ⟨k, ⟨hk, hl⟩, rfl⟩))))))

/-! ## Termination of `rd_format_disasm` -/

/-- A loop body that decodes an instruction of size 0 leaves `to_decode` as it
was, so the loop does not end, whatever the number of bodies run. -/
theorem disasm_loop_stuck (decode : Arch → Nat → String8 → String8 × Nat) (arch : Arch)
    (image_base sect_off : Nat) (markers : List RD_Marker) (b : Fin 256) (rest : String8)
    (hsize : ∀ addr, ∃ text, rd_disasm_next_instruction decode arch addr (b :: rest)
      = some { text := text, size := 0 })
    (fuel : Nat) : ∀ decode_off marker_cursor : Nat,
    rd_format_disasm_loop decode arch image_base sect_off markers fuel decode_off
      marker_cursor (b :: rest) = RD_DisasmRun.out_of_fuel := by
  induction fuel with
  | zero => intro _ _; rfl
  | succ fuel ih =>
    intro decode_off marker_cursor
    obtain ⟨text, ht⟩ := hsize (((image_base + sect_off) % 2 ^ 64 + decode_off) % 2 ^ 64)
    rw [rd_format_disasm_loop]
    simp only [ht, str8_skip, List.drop_zero]
    rw [ih]

/-- With a decoder whose instructions all have a positive size the loop ends
within as many bodies as there are bytes to decode. -/
theorem disasm_loop_finishes (decode : Arch → Nat → String8 → String8 × Nat) (arch : Arch)
    (image_base sect_off : Nat) (markers : List RD_Marker)
    (hsize : ∀ addr code, code ≠ [] → ∃ r, rd_disasm_next_instruction decode arch addr code
      = some r ∧ 0 < r.size) :
    ∀ (fuel : Nat) (to_decode : String8) (decode_off marker_cursor : Nat),
      to_decode.length ≤ fuel →
      ∃ out, rd_format_disasm_loop decode arch image_base sect_off markers fuel decode_off
        marker_cursor to_decode = RD_DisasmRun.finished out := by
  intro fuel
  induction fuel with
  | zero =>
    intro to_decode decode_off marker_cursor hlen
    have : to_decode = [] := List.length_eq_zero.1 (by omega)
    subst this
    exact ⟨[], by rw [rd_format_disasm_loop]⟩
  | succ fuel ih =>
    intro to_decode decode_off marker_cursor hlen
    cases to_decode with
    | nil => exact ⟨[], by rw [rd_format_disasm_loop]⟩
    | cons b rest =>
      obtain ⟨r, hr, hpos⟩ := hsize
        (((image_base + sect_off) % 2 ^ 64 + decode_off) % 2 ^ 64) (b :: rest) (by simp)
      rw [rd_format_disasm_loop]
      simp only [hr]
      obtain ⟨out, hout⟩ := ih (str8_skip (b :: rest) r.size)
        ((decode_off + r.size) % 2 ^ 64)
        (disasmMarker markers marker_cursor decode_off
          (((image_base + sect_off) % 2 ^ 64 + decode_off) % 2 ^ 64) r.size).2
        (by
          unfold str8_skip
          rw [List.length_drop]
          simp only [List.length_cons] at hlen ⊢
          omega)
      rw [hout]
      exact ⟨_, rfl⟩

/-- C27 (evaluation): for `Arch_Null` and any non-empty code, and for any
architecture whose decoder reports size 0 on the bytes at hand, the loop of
`rd_format_disasm` never ends: after any number of loop bodies `to_decode`
is still the whole code.  The loop ends, within one body per byte, when
every decoded instruction has a positive size. -/
theorem rd_format_disasm_null_never_finishes :
    (∀ (decode : Arch → Nat → String8 → String8 × Nat) (image_base sect_off : Nat)
        (markers : List RD_Marker) (b : Fin 256) (rest : String8) (fuel : Nat),
      rd_format_disasm decode Arch.Null image_base sect_off markers (b :: rest) fuel
        = RD_DisasmRun.out_of_fuel) ∧
    (∀ (decode : Arch → Nat → String8 → String8 × Nat) (image_base sect_off : Nat)
        (markers : List RD_Marker) (b : Fin 256) (rest : String8) (fuel : Nat),
      (∀ addr, (decode Arch.x64 addr (b :: rest)).2 = 0) →
      rd_format_disasm decode Arch.x64 image_base sect_off markers (b :: rest) fuel
        = RD_DisasmRun.out_of_fuel) ∧
    (∀ (decode : Arch → Nat → String8 → String8 × Nat) (image_base sect_off : Nat)
        (markers : List RD_Marker) (raw_code : String8),
      (∀ addr code, code ≠ [] → 0 < (decode Arch.x64 addr code).2) →
      ∃ out, rd_format_disasm decode Arch.x64 image_base sect_off markers raw_code
        raw_code.length = RD_DisasmRun.finished out) ∧
    rd_format_disasm oneByteDecoder Arch.Null 0 0 [] [0x90] 1000 = RD_DisasmRun.out_of_fuel ∧
    rd_format_disasm oneByteDecoder Arch.x64 0x1000 0 [⟨1, [102]⟩] [0x90, 0xc3] 2
      = RD_DisasmRun.finished
          [RD_DisasmLine.instruction 0x1000 [0x90] [110], RD_DisasmLine.marker [102],
           RD_DisasmLine.instruction 0x1001 [0xc3] [110]] := by
  refine ⟨?_, ?_, ?_, ?_, ?_⟩
  · intro decode image_base sect_off markers b rest fuel
    exact disasm_loop_stuck decode Arch.Null image_base sect_off markers b rest
      (fun _ => ⟨[], rfl⟩) fuel 0 0
  · intro decode image_base sect_off markers b rest fuel h
    exact disasm_loop_stuck decode Arch.x64 image_base sect_off markers b rest
      (fun addr => ⟨(decode Arch.x64 addr (b :: rest)).1, by
        simp only [rd_disasm_next_instruction, h addr]⟩) fuel 0 0
  · intro decode image_base sect_off markers raw_code h
    exact disasm_loop_finishes decode Arch.x64 image_base sect_off markers
      (fun addr code hc => ⟨_, rfl, h addr code hc⟩) raw_code.length raw_code 0 0 (le_refl _)
  · exact disasm_loop_stuck oneByteDecoder Arch.Null 0 0 [] 0x90 []
      (fun _ => ⟨[], rfl⟩) 1000 0 0
  · decide

/-! ## Symbol reads of `coff_format_relocs` -/

/-- Every symbol read of the relocation loop is at an index at most the symbol
count, and is the entry of `symbols[isymbol]?`. -/
theorem relocLoop_line (raw_size : Nat) (apply_size : Nat → Nat) (foff : Nat)
    (symbols : List COFF_Symbol32) (relocs : List COFF_Reloc) :
    ∀ (reloc_idx i s : Nat) (sym : Option COFF_Symbol32),
      RelocStep.line i s sym ∈ relocLoop raw_size apply_size foff symbols relocs reloc_idx →
      s ≤ symbols.length ∧ sym = symbols[s]? := by
  induction relocs with
  | nil => intro _ _ _ _ h; simp [relocLoop] at h
  | cons reloc rest ih =>
    intro reloc_idx i s sym h
    rw [relocLoop] at h
    split at h
    · simp at h
    · split at h
      · simp at h
      · split at h
        · simp at h
        · rename_i hle
          rw [List.mem_cons] at h
          rcases h with h | h
          · injection h with _ h2 h3
            subst h2 h3
            exact ⟨by omega, rfl⟩
          · exact ih _ _ _ _ h

/-- C28 (evaluation): the guard of `coff_format_relocs` is `isymbol > symbols.count`,
so a relocation whose symbol index equals the symbol count passes it and
`symbols.v` is read at index `symbols.count`, past its end (the entry read is
`none`); only an index above the count is reported.  The apply offset is a
32-bit sum: section offset `0xFFFFFFFF` plus apply offset 9 wraps to 8 and
the symbol is read.  Every read is at an index at most the count. -/
theorem coff_relocs_symbol_index_equal_count :
    coff_format_relocs 100 (fun _ => 4) [⟨0, [⟨8, 1, 0⟩]⟩] [⟨[97]⟩]
      = [(0, [RelocStep.line 0 1 none])] ∧
    coff_format_relocs 100 (fun _ => 4) [⟨0, [⟨8, 0, 0⟩]⟩] []
      = [(0, [RelocStep.line 0 0 none])] ∧
    coff_format_relocs 100 (fun _ => 4) [⟨0, [⟨8, 2, 0⟩, ⟨12, 0, 0⟩]⟩] [⟨[97]⟩]
      = [(0, [RelocStep.symbol_out_of_bounds 0 2])] ∧
    coff_format_relocs 100 (fun _ => 4) [⟨0, [⟨8, 0, 0⟩]⟩] [⟨[97]⟩]
      = [(0, [RelocStep.line 0 0 (some ⟨[97]⟩)])] ∧
    coff_format_relocs 100 (fun _ => 4) [⟨0xFFFFFFFF, [⟨9, 0, 0⟩]⟩] [⟨[97]⟩]
      = [(0, [RelocStep.line 0 0 (some ⟨[97]⟩)])] ∧
    (∀ (raw_size : Nat) (apply_size : Nat → Nat) (foff : Nat) (symbols : List COFF_Symbol32)
        (relocs : List COFF_Reloc) (i s : Nat) (sym : Option COFF_Symbol32),
      RelocStep.line i s sym ∈ relocLoop raw_size apply_size foff symbols relocs 0 →
      s ≤ symbols.length ∧ sym = symbols[s]?) := by
  refine ⟨by decide, by decide, by decide, by decide, by decide, ?_⟩
  intro raw_size apply_size foff symbols relocs i s sym h
  exact relocLoop_line raw_size apply_size foff symbols relocs 0 i s sym h

/-! ## The result of `cv_string_from_reg_id` -/

theorem regSwitch_eq (regs : List CV_Reg) (id : Nat) (result : String) :
    regSwitch regs id result = result := by
  unfold regSwitch
  cases regs.find? (fun r => r.id == id) <;> rfl

/-- C29 (evaluation): `cv_string_from_reg_id` returns the empty string for
`CV_Arch_8086` and for `CV_Arch_X64`, whatever the register lists and the
id: the case bodies evaluate the register name without storing it.  For
`rax` (id 328) the result is empty, not `rax`, and `cv_string_from_reg_off`
renders offset 16 as `+10`. -/
theorem cv_string_from_reg_id_empty :
    (∀ (x86_regs x64_regs : List CV_Reg) (id : Nat),
      cv_string_from_reg_id x86_regs x64_regs CV_Arch.CV_Arch_8086 id = some "" ∧
      cv_string_from_reg_id x86_regs x64_regs CV_Arch.CV_Arch_X64 id = some "") ∧
    sampleX64Regs.find? (fun r => r.id == 328) = some ⟨"rax", 328⟩ ∧
    cv_string_from_reg_id sampleX86Regs sampleX64Regs CV_Arch.CV_Arch_X64 328 = some "" ∧
    cv_string_from_reg_id sampleX86Regs sampleX64Regs CV_Arch.CV_Arch_8086 17 = some "" ∧
    cv_string_from_reg_off sampleX86Regs sampleX64Regs CV_Arch.CV_Arch_X64 328 16
      = some "+10" := by
  refine ⟨fun x86_regs x64_regs id => ⟨?_, ?_⟩, by decide, by decide, by decide, by decide⟩
  · simp only [cv_string_from_reg_id, regSwitch_eq]
  · simp only [cv_string_from_reg_id, regSwitch_eq]

/-! ## The writes of `rd_format_hex_array` -/

theorem hexLoop_spec (buf_max : Nat) (hmax : buf_max < 2 ^ 64) (n : Nat) :
    ∀ (i buf_size : Nat), 3 * (i + n) ≤ buf_max →
      ((i = 0 ∧ buf_size = 0) ∨ (0 < i ∧ buf_size + 1 = 3 * i)) →
      ((i + n = 0 ∧ (hexLoop buf_max n i buf_size).2 = 0) ∨
        (0 < i + n ∧ (hexLoop buf_max n i buf_size).2 + 1 = 3 * (i + n))) ∧
      ∀ w ∈ (hexLoop buf_max n i buf_size).1, w < 3 * (i + n) := by
  induction n with
  | zero =>
    intro i buf_size _ hinv
    refine ⟨?_, fun w hw => by simp [hexLoop] at hw⟩
    simp only [hexLoop, Nat.add_zero]
    omega
  | succ n ih =>
    intro i buf_size hle hinv
    have hstep := ih (i + 1) ((buf_size + (if i > 0 then 3 else 2)) % 2 ^ 64) (by omega) (by
      right
      refine ⟨by omega, ?_⟩
      rcases hinv with ⟨h1, h2⟩ | ⟨h1, h2⟩
      · subst h1 h2
        simp
      · rw [if_pos h1, Nat.mod_eq_of_lt (by omega)]
        omega)
    rw [hexLoop]
    simp only
    have e : i + 1 + n = i + (n + 1) := by omega
    rw [e] at hstep
    refine ⟨hstep.1, ?_⟩
    intro w hw
    rw [List.mem_append] at hw
    rcases hw with hw | hw
    · unfold hexGroupWrites at hw
      rw [List.mem_map] at hw
      obtain ⟨j, hj, rfl⟩ := hw
      rw [List.mem_range] at hj
      rcases hinv with ⟨h1, h2⟩ | ⟨h1, h2⟩
      · subst h1 h2
        simp only [gt_iff_lt, lt_self_iff_false, if_false] at hj
        omega
      · rw [if_pos h1] at hj
        omega
    · exact hstep.2 w hw

/-- C30 (evaluation): for `size = 0` the buffer of `rd_format_hex_array` has
`size * 3 = 0` bytes and the terminator is written at index 0, outside it.
For every `size > 0` (with `size * 3` below `2^64`) every write, the
terminator included, is at an index below `size * 3`, and the returned
string has `3 * size - 1` bytes; for `size = 0` it has 0 bytes. -/
theorem hex_array_terminator_at_size_zero :
    hexBufMax 0 = 0 ∧ hexWrites 0 = [0] ∧ hexResultSize 0 = 0 ∧
    hexWrites 2 = [0, 1, 2, 2, 3, 4, 5, 5] ∧ hexBufMax 2 = 6 ∧
    (∀ size, 0 < size → size * 3 < 2 ^ 64 →
      (∀ w ∈ hexWrites size, w < hexBufMax size) ∧ hexResultSize size = 3 * size - 1) := by
  refine ⟨by decide, by decide, by decide, by decide, by decide, ?_⟩
  intro size hpos hlt
  have hb : hexBufMax size = size * 3 := Nat.mod_eq_of_lt hlt
  have h := hexLoop_spec (hexBufMax size) (by rw [hb]; exact hlt) size 0 0
    (by rw [hb]; omega) (Or.inl ⟨rfl, rfl⟩)
  rw [Nat.zero_add] at h
  obtain ⟨h1, h2⟩ := h
  have hsz : (hexLoop (hexBufMax size) size 0 0).2 + 1 = 3 * size := by
    rcases h1 with ⟨h0, _⟩ | ⟨_, h1⟩
    · omega
    · exact h1
  constructor
  · intro w hw
    unfold hexWrites at hw
    rw [List.mem_append, List.mem_singleton] at hw
    rcases hw with hw | hw
    · have := h2 w hw
      omega
    · omega
  · unfold hexResultSize
    omega

/-! ## The insert test and the lookup test of the name table -/

/-- For a table entry with a link name and a type without link name whose name is
that link name, the insert test takes the type for the entry, and the lookup
test does not. -/
theorem insert_lookup_tests_differ (s : HtEntry) (type : RDIM_Type)
    (hs : s.link_name ≠ []) (hl : type.link_name = []) (hn : type.name = s.link_name) :
    insertBreaks s type (resolvingName type) = true ∧ lookupMatches s type = false := by
  have hlen : s.link_name.length ≠ 0 := fun hc => hs (List.length_eq_zero.1 hc)
  have hr : resolvingName type = type.name := by
    unfold resolvingName
    simp [hl]
  constructor
  · unfold insertBreaks str8_match
    rw [if_pos hlen, hr, hn]
    exact decide_eq_true rfl
  · unfold lookupMatches str8_match
    rw [if_pos hlen, hl]
    exact decide_eq_false hs

/-- C1 (evaluation): a complete struct named `X` and an incomplete struct named `X`,
both without link name, listed after a complete struct named `Y` whose link
name is `X`.  The insert test compares the link name of the stored struct
with the resolving name `X` of the complete struct `X` and drops it as
already present; the lookup test compares the same link name with the
empty link name of the incomplete struct and finds no match.  The call
changes nothing: the incomplete struct keeps its kind and the pointer and
the UDT member still target it.  With the two complete structs in the other
order the incomplete struct is resolved to the struct `X`. -/
theorem resolve_shadowed_record_unresolved :
    (shadowedTypes.map (·.name) = [[89], [88], [88], []] ∧
      shadowedTypes.map (·.link_name) = [[88], [], [], []] ∧
      shadowedTypes.map (fun t => isRecordKind rdiKinds t.kind) = [true, true, false, false] ∧
      shadowedTypes.map (fun t => isIncompleteKind rdiKinds t.kind)
        = [false, false, true, false]) ∧
    nameTable rdiKinds shadowedTypes = [none, some ⟨1, [89], [88]⟩, none, none, none] ∧
    (fwdPass rdiKinds shadowedTypes).2 = [0, 0, 0, 0, 0] ∧
    rdim_local_resolve_incomplete_types rdiKinds shadowedTypes shadowedUDTs
      = some (shadowedTypes, shadowedUDTs) ∧
    (∀ (s : HtEntry) (type : RDIM_Type), s.link_name ≠ [] → type.link_name = [] →
      type.name = s.link_name →
      insertBreaks s type (resolvingName type) = true ∧ lookupMatches s type = false) ∧
    nameTable rdiKinds swappedTypes
      = [none, some ⟨1, [88], []⟩, some ⟨2, [89], [88]⟩, none, none] ∧
    rdim_local_resolve_incomplete_types rdiKinds swappedTypes shadowedUDTs = some
      ([ { kind := 0x2000, name := [88], link_name := [], direct_type := 0,
           param_types := none },
         { kind := 0x2000, name := [89], link_name := [88], direct_type := 0,
           param_types := none },
         { kind := 0, name := [88], link_name := [], direct_type := 0, param_types := none },
         { kind := 0x1001, name := [], link_name := [], direct_type := 1,
           param_types := none } ],
       [ { self_type := 1, members := [{ type := 1 }] } ]) := by
  refine ⟨by decide, by decide, by decide, by decide, ?_, by decide, by decide⟩
  intro s type hs hl hn
  exact insert_lookup_tests_differ s type hs hl hn

end RDIM
